import Mathlib

/-!
# Verification of the grayskull image-analysis toolkit

Shallow embedding of `src/grayskull.h` (single-header C library) in Lean 4.

Conventions of the embedding:
* a C `struct gs_image` becomes `GsImage`: width, height, a flag standing for
  `data != NULL`, and a total pixel function `ℕ → ℕ` indexed by `y * w + x`
  (the byte buffer; a faithful image has all values `≤ 255`);
* machine integers are `ℕ` (or `ℤ` where the C computes signed values), with
  `% 2^32` written out at the places where C unsigned wraparound can matter;
* in-place updates become `Function.update` state threading; the C loops become
  `List.foldl` over `List.range`;
* `float` arithmetic in `gs_match_orb`, `gs_resize`, `gs_perspective_correct`
  is modelled over `ℚ`; comments at the definitions record the (finite) domains
  on which the IEEE single-precision computation is exact or provably agrees.
-/

set_option maxRecDepth 10000

namespace Grayskull

/-- Image struct from `grayskull.h`: `w`, `h`, and the pixel buffer.
`dataValid` models `data != NULL`; `data` is the byte buffer as a total
function on flat indices `y * w + x`. -/
structure GsImage where
  w : ℕ
  h : ℕ
  dataValid : Bool
  data : ℕ → ℕ

/-- `gs_valid`: `img.data && img.w > 0 && img.h > 0`. -/
def gs_valid (img : GsImage) : Bool :=
  img.dataValid && decide (0 < img.w) && decide (0 < img.h)

/-- `gs_get`: bounds-checked read; returns 0 for invalid image or
out-of-bounds coordinates. -/
def gs_get (img : GsImage) (x y : ℕ) : ℕ :=
  if gs_valid img ∧ x < img.w ∧ y < img.h then img.data (y * img.w + x) else 0

/-- `gs_set`: bounds-checked write; leaves the image unchanged for invalid
image or out-of-bounds coordinates. -/
def gs_set (img : GsImage) (x y v : ℕ) : GsImage :=
  if gs_valid img ∧ x < img.w ∧ y < img.h then
    { img with data := Function.update img.data (y * img.w + x) v }
  else img

/-!
## Hamming distance (`gs_hamming_distance`)

The C code pops bits of `desc1[i] ^ desc2[i]` over the 8 descriptor words.
-/

/-- Bit-count loop with explicit fuel; the C loop
`while (xor) dist += xor & 1, xor >>= 1;` halves its argument each iteration,
so `n` units of fuel always suffice for argument `n`. -/
def popcountAux : ℕ → ℕ → ℕ
  | 0, _ => 0
  | fuel + 1, n => if n = 0 then 0 else n % 2 + popcountAux fuel (n / 2)

/-- Bit count of a natural number: the C loop
`while (xor) dist += xor & 1, xor >>= 1;`. -/
def popcount (n : ℕ) : ℕ := popcountAux n n

theorem popcountAux_of_zero (f : ℕ) : popcountAux f 0 = 0 := by
  cases f with
  | zero => rfl
  | succ f => simp [popcountAux]

theorem popcountAux_congr (f : ℕ) : ∀ g n, n ≤ f → n ≤ g →
    popcountAux f n = popcountAux g n := by
  induction f with
  | zero =>
    intro g n hf hg
    have : n = 0 := Nat.le_zero.mp hf
    rw [this, popcountAux_of_zero, popcountAux_of_zero]
  | succ f ih =>
    intro g n hf hg
    by_cases h0 : n = 0
    · rw [h0, popcountAux_of_zero, popcountAux_of_zero]
    · have hg1 : 1 ≤ g := le_trans (Nat.one_le_iff_ne_zero.mpr h0) hg
      obtain ⟨g', rfl⟩ : ∃ g', g = g' + 1 := ⟨g - 1, by omega⟩
      simp only [popcountAux, if_neg h0]
      have hhalf : n / 2 ≤ f := by omega
      have hhalf' : n / 2 ≤ g' := by omega
      rw [ih g' (n / 2) hhalf hhalf']

/-- The defining equation of `popcount`, matching the C loop. -/
theorem popcount_eq (n : ℕ) :
    popcount n = if n = 0 then 0 else n % 2 + popcount (n / 2) := by
  by_cases h0 : n = 0
  · rw [h0]
    simp [popcount, popcountAux_of_zero]
  · unfold popcount
    obtain ⟨m, rfl⟩ : ∃ m, n = m + 1 := ⟨n - 1, by omega⟩
    simp only [popcountAux, if_neg h0]
    rw [popcountAux_congr m ((m + 1) / 2) ((m + 1) / 2) (by omega) le_rfl]

/-- A 256-bit ORB descriptor: 8 words of 32 bits, as in
`uint32_t descriptor[8]`; word `i` of the C array is the value at index `i`
(indices `≥ 8` are never consulted). A faithful descriptor has all words
`< 2^32`. -/
def Descriptor : Type := ℕ → ℕ

/-- `gs_hamming_distance`: sum over the 8 words of the popcount of the XOR. -/
def gs_hamming_distance (d1 d2 : Descriptor) : ℕ :=
  (List.range 8).foldl (fun dist i => dist + popcount ((d1 i) ^^^ (d2 i))) 0

theorem popcount_zero : popcount 0 = 0 := by
  rw [popcount_eq]
  simp

theorem popcount_xor_self (n : ℕ) : popcount (n ^^^ n) = 0 := by
  rw [Nat.xor_self, popcount_zero]

theorem gs_hamming_distance_self (d : Descriptor) : gs_hamming_distance d d = 0 := by
  simp [gs_hamming_distance, List.range_succ, popcount_xor_self, popcount_zero]

theorem gs_hamming_distance_comm (d1 d2 : Descriptor) :
    gs_hamming_distance d1 d2 = gs_hamming_distance d2 d1 := by
  have hc : ∀ a b : ℕ, popcount (a ^^^ b) = popcount (b ^^^ a) := by
    intro a b
    rw [Nat.xor_comm]
  simp only [gs_hamming_distance, List.range_succ, List.foldl_append, List.foldl_cons,
    List.foldl_nil, List.range_zero]
  rw [hc (d1 0), hc (d1 1), hc (d1 2), hc (d1 3), hc (d1 4), hc (d1 5), hc (d1 6), hc (d1 7)]

/-- `popcount n ≤ k` whenever `n < 2 ^ k`. -/
theorem popcount_le (k n : ℕ) (h : n < 2 ^ k) : popcount n ≤ k := by
  induction k generalizing n with
  | zero =>
    interval_cases n
    simp [popcount_zero]
  | succ k ih =>
    rw [popcount_eq]
    by_cases h0 : n = 0
    · simp [h0]
    · simp only [h0, if_false]
      have h2 : n / 2 < 2 ^ k := by
        rw [Nat.div_lt_iff_lt_mul (by norm_num)]
        calc n < 2 ^ (k + 1) := h
        _ = 2 ^ k * 2 := by ring
      have := ih (n / 2) h2
      have hm : n % 2 ≤ 1 := Nat.le_of_lt_succ (Nat.mod_lt _ (by norm_num))
      omega

theorem gs_hamming_distance_le (d1 d2 : Descriptor)
    (h1 : ∀ i, d1 i < 2 ^ 32) (h2 : ∀ i, d2 i < 2 ^ 32) :
    gs_hamming_distance d1 d2 ≤ 256 := by
  have hx : ∀ i : ℕ, popcount ((d1 i) ^^^ (d2 i)) ≤ 32 := by
    intro i
    exact popcount_le 32 _ (Nat.xor_lt_two_pow (h1 i) (h2 i))
  simp only [gs_hamming_distance, List.range_succ, List.foldl_append, List.foldl_cons,
    List.foldl_nil, List.range_zero]
  have h0 := hx 0
  have h1' := hx 1
  have h2' := hx 2
  have h3 := hx 3
  have h4 := hx 4
  have h5 := hx 5
  have h6 := hx 6
  have h7 := hx 7
  omega

/-!
## C10: totality and memory safety of the public accessors
-/

/-- C10: `gs_get` returns the stored pixel exactly when the image is valid and
the coordinates are in bounds (and the flat index stays inside the `w*h`
buffer), returning 0 otherwise; `gs_set` updates exactly that in-bounds cell
and is the identity otherwise. Both accessors are total. -/
theorem c10_accessors_total (img : GsImage) (x y v : ℕ) :
    (gs_valid img = true → x < img.w → y < img.h →
      gs_get img x y = img.data (y * img.w + x) ∧
      y * img.w + x < img.w * img.h ∧
      gs_set img x y v =
        { img with data := Function.update img.data (y * img.w + x) v }) ∧
    (¬ (gs_valid img = true ∧ x < img.w ∧ y < img.h) →
      gs_get img x y = 0 ∧ gs_set img x y v = img) := by
  constructor
  · intro hv hx hy
    refine ⟨?_, ?_, ?_⟩
    · simp [gs_get, hv, hx, hy]
    · calc y * img.w + x < y * img.w + img.w := by omega
        _ = (y + 1) * img.w := by ring
        _ ≤ img.h * img.w := Nat.mul_le_mul_right _ hy
        _ = img.w * img.h := Nat.mul_comm _ _
    · simp [gs_set, hv, hx, hy]
  · intro hnv
    constructor
    · simp only [gs_get, if_neg hnv]
    · simp only [gs_set, if_neg hnv]

/-- Witness for `c10_accessors_total` at a concrete image: a valid 2×2 image,
an in-bounds read/write at (1,1) and an out-of-bounds read at (2,0). -/
theorem c10_accessors_total_witness :
    (gs_get ⟨2, 2, true, fun i => i + 10⟩ 1 1 = 13 ∧
      gs_set ⟨2, 2, true, fun i => i + 10⟩ 1 1 99 =
        { w := 2, h := 2, dataValid := true,
          data := Function.update (fun i => i + 10) 3 99 } ∧
      gs_get ⟨2, 2, true, fun i => i + 10⟩ 2 0 = 0) := by
  have h1 := (c10_accessors_total ⟨2, 2, true, fun i => i + 10⟩ 1 1 99).1
    (by decide) (by decide) (by decide)
  have h2 := (c10_accessors_total ⟨2, 2, true, fun i => i + 10⟩ 2 0 99).2
    (by simp)
  refine ⟨?_, ?_, h2.1⟩
  · rw [h1.1]
    rfl
  · rw [h1.2.2]
    rfl

/-!
## ORB matching (`gs_match_orb`)

C keypoint struct: position, response, angle, descriptor. Only the descriptor
participates in matching.

Float fidelity note for `gs_match_orb`: every Hamming distance is an integer
in [0,256], exactly representable in single precision, and all comparisons of
two exactly-represented values are exact.  The only rounding operation in the
C code is `0.8f * second_best`.  For an integer `s` with `1 ≤ s < 2^20`,
`0.8f = 13421773 / 2^24`, so the exact product is `0.8*s + s/(5*2^24)` with
`0 < s/(5*2^24) < 1/80`; since the fractional part of `0.8*s` is a multiple of
`1/5`, an integer `b` satisfies `b < fl(0.8f*s)` iff `b < (4/5)*s` exactly
(rounding to nearest cannot cross an integer here, as half an ulp at `s ≤ 2^20`
is at most `1/16`).  Likewise `max_distance + 1` is exact for an integral
`max_distance < 2^23`.  Hence over integral `max_distance ≤ 2^20 - 2` the ℚ
model below computes exactly what the C float code computes.
-/

/-- Keypoint struct `gs_keypoint`. -/
structure GsKeypoint where
  ptx : ℕ
  pty : ℕ
  response : ℕ
  angle : ℚ
  descriptor : Descriptor

/-- Match struct `gs_match`. -/
structure GsMatch where
  idx1 : ℕ
  idx2 : ℕ
  distance : ℕ
deriving DecidableEq

/-- Placeholder keypoint used as the (never reached) `List.getD` default when
indexing the keypoint arrays. -/
def kpDefault : GsKeypoint := ⟨0, 0, 0, 0, fun _ => 0⟩

/-- Inner loop of `gs_match_orb` for one set-1 keypoint: scan set 2 tracking
`(best_dist, second_best, best_idx)`, starting from
`(max_distance + 1, max_distance + 1, 0)`. -/
def gs_match_inner (d1 : Descriptor) (kps2 : List GsKeypoint) (maxd : ℚ) :
    ℚ × ℚ × ℕ :=
  (List.range kps2.length).foldl
    (fun st j =>
      let d : ℚ := (gs_hamming_distance d1 (kps2.getD j kpDefault).descriptor : ℕ)
      if d < st.1 then (d, st.1, j)
      else if d < st.2.1 then (st.1, d, st.2.2)
      else st)
    (maxd + 1, maxd + 1, 0)

/-- `gs_match_orb`: for each set-1 keypoint in order (stopping at capacity),
find best and second-best Hamming distances into set 2 and accept iff
`best ≤ max_distance` and `best < 0.8 * second_best`. -/
def gs_match_orb (kps1 kps2 : List GsKeypoint) (max_matches : ℕ) (maxd : ℚ) :
    List GsMatch :=
  (List.range kps1.length).foldl
    (fun ms i =>
      if ms.length < max_matches then
        let r := gs_match_inner (kps1.getD i kpDefault).descriptor kps2 maxd
        if r.1 ≤ maxd ∧ r.1 < (4 / 5 : ℚ) * r.2.1 then
          ms ++ [⟨i, r.2.2, (r.1.floor).toNat⟩]
        else ms
      else ms)
    []

/-- Hamming distance between descriptor `i` of one keypoint list and
descriptor `j` of another, as the matcher reads them. -/
def hamDist (kps1 kps2 : List GsKeypoint) (i j : ℕ) : ℕ :=
  gs_hamming_distance (kps1.getD i kpDefault).descriptor
    (kps2.getD j kpDefault).descriptor

/-- Prefix of the inner matching scan: first `t` set-2 keypoints. -/
def innerFold (d1 : Descriptor) (kps2 : List GsKeypoint) (maxd : ℚ) (t : ℕ) :
    ℚ × ℚ × ℕ :=
  (List.range t).foldl
    (fun st j =>
      let d : ℚ := (gs_hamming_distance d1 (kps2.getD j kpDefault).descriptor : ℕ)
      if d < st.1 then (d, st.1, j)
      else if d < st.2.1 then (st.1, d, st.2.2)
      else st)
    (maxd + 1, maxd + 1, 0)

theorem gs_match_inner_eq_innerFold (d1 : Descriptor) (kps2 : List GsKeypoint)
    (maxd : ℚ) : gs_match_inner d1 kps2 maxd = innerFold d1 kps2 maxd kps2.length := rfl

/-- Distance from `d1` to the `j`-th descriptor of `kps2`, as a rational. -/
def dQ (d1 : Descriptor) (kps2 : List GsKeypoint) (j : ℕ) : ℚ :=
  (gs_hamming_distance d1 (kps2.getD j kpDefault).descriptor : ℕ)

/-- Invariant of the inner matching scan: the running triple is the smallest
and second-smallest of the multiset of scanned distances (padded with two
copies of `max_distance + 1`), together with the first index attaining the
minimum. -/
def InnerInv (d1 : Descriptor) (kps2 : List GsKeypoint) (maxd : ℚ) (t : ℕ)
    (st : ℚ × ℚ × ℕ) : Prop :=
  (st.1 = maxd + 1 ∧ st.2.1 = maxd + 1 ∧ st.2.2 = 0 ∧
    ∀ j < t, maxd + 1 ≤ dQ d1 kps2 j) ∨
  (st.1 < maxd + 1 ∧ st.2.2 < t ∧ dQ d1 kps2 st.2.2 = st.1 ∧
    (∀ j < t, st.1 ≤ dQ d1 kps2 j) ∧
    (∀ j < st.2.2, st.1 < dQ d1 kps2 j) ∧
    st.1 ≤ st.2.1 ∧ st.2.1 ≤ maxd + 1 ∧
    (∀ j < t, j ≠ st.2.2 → st.2.1 ≤ dQ d1 kps2 j) ∧
    (st.2.1 = maxd + 1 ∨ ∃ j < t, j ≠ st.2.2 ∧ dQ d1 kps2 j = st.2.1))

theorem innerFold_inv (d1 : Descriptor) (kps2 : List GsKeypoint) (maxd : ℚ)
    (t : ℕ) : InnerInv d1 kps2 maxd t (innerFold d1 kps2 maxd t) := by
  induction t with
  | zero =>
    left
    refine ⟨rfl, rfl, rfl, ?_⟩
    intro j hj
    omega
  | succ t ih =>
    have hstep : innerFold d1 kps2 maxd (t + 1) =
        (fun st j =>
          if dQ d1 kps2 j < st.1 then (dQ d1 kps2 j, st.1, j)
          else if dQ d1 kps2 j < st.2.1 then (st.1, dQ d1 kps2 j, st.2.2)
          else st) (innerFold d1 kps2 maxd t) t := by
      unfold innerFold
      rw [List.range_succ, List.foldl_append, List.foldl_cons, List.foldl_nil]
      rfl
    rw [hstep]
    set st := innerFold d1 kps2 maxd t with hst
    by_cases h1 : dQ d1 kps2 t < st.1
    · simp only [if_pos h1]
      unfold InnerInv
      dsimp only
      rcases ih with ⟨hb, hs, hi, hall⟩ | ⟨hb, hit, hdi, hmin, hltb, hbs, hsM, hsec, hsw⟩
      · right
        refine ⟨by rw [hb] at h1; exact h1, Nat.lt_succ_self t, rfl, ?_, ?_, ?_, ?_, ?_, ?_⟩
        · intro j hj
          rcases Nat.lt_succ_iff_lt_or_eq.mp hj with hj | hj
          · exact le_of_lt (lt_of_lt_of_le (hb ▸ h1) (hall j hj))
          · rw [hj]
        · intro j hj
          exact lt_of_lt_of_le (hb ▸ h1) (hall j hj)
        · exact le_of_lt h1
        · exact le_of_eq hb
        · intro j hj hne
          have hj' : j < t := by omega
          exact hb ▸ hall j hj'
        · left
          exact hb
      · right
        refine ⟨lt_trans h1 hb, Nat.lt_succ_self t, rfl, ?_, ?_, le_of_lt h1, ?_, ?_, ?_⟩
        · intro j hj
          rcases Nat.lt_succ_iff_lt_or_eq.mp hj with hj | hj
          · exact le_of_lt (lt_of_lt_of_le h1 (hmin j hj))
          · rw [hj]
        · intro j hj
          exact lt_of_lt_of_le h1 (hmin j hj)
        · exact le_of_lt hb
        · intro j hj hne
          have hj' : j < t := by omega
          exact hmin j hj'
        · right
          exact ⟨st.2.2, by omega, by omega, hdi⟩
    · simp only [if_neg h1]
      push_neg at h1
      by_cases h2 : dQ d1 kps2 t < st.2.1
      · simp only [if_pos h2]
        unfold InnerInv
        dsimp only
        rcases ih with ⟨hb, hs, hi, hall⟩ | ⟨hb, hit, hdi, hmin, hltb, hbs, hsM, hsec, hsw⟩
        · exfalso
          rw [hb] at h1
          rw [hs] at h2
          exact absurd h2 (not_lt.mpr h1)
        · right
          refine ⟨hb, by omega, hdi, ?_, hltb, h1, le_of_lt (lt_of_lt_of_le h2 hsM), ?_, ?_⟩
          · intro j hj
            rcases Nat.lt_succ_iff_lt_or_eq.mp hj with hj | hj
            · exact hmin j hj
            · rw [hj]
              exact h1
          · intro j hj hne
            rcases Nat.lt_succ_iff_lt_or_eq.mp hj with hj | hj
            · exact le_of_lt (lt_of_lt_of_le h2 (hsec j hj hne))
            · rw [hj]
          · right
            exact ⟨t, Nat.lt_succ_self t, by omega, rfl⟩
      · simp only [if_neg h2]
        unfold InnerInv
        push_neg at h2
        rcases ih with ⟨hb, hs, hi, hall⟩ | ⟨hb, hit, hdi, hmin, hltb, hbs, hsM, hsec, hsw⟩
        · left
          refine ⟨hb, hs, hi, ?_⟩
          intro j hj
          rcases Nat.lt_succ_iff_lt_or_eq.mp hj with hj | hj
          · exact hall j hj
          · rw [hj, ← hs]
            exact h2
        · right
          refine ⟨hb, by omega, hdi, ?_, hltb, hbs, hsM, ?_, ?_⟩
          · intro j hj
            rcases Nat.lt_succ_iff_lt_or_eq.mp hj with hj | hj
            · exact hmin j hj
            · rw [hj]
              exact h1
          · intro j hj hne
            rcases Nat.lt_succ_iff_lt_or_eq.mp hj with hj | hj
            · exact hsec j hj hne
            · rw [hj]
              exact h2
          · rcases hsw with hsw | ⟨j, hj, hjne, hjd⟩
            · left
              exact hsw
            · right
              exact ⟨j, by omega, hjne, hjd⟩

/-- One outer-loop step of `gs_match_orb` (capacity check, inner scan,
ratio test, append). -/
def matchStep (kps1 kps2 : List GsKeypoint) (max_matches : ℕ) (maxd : ℚ)
    (ms : List GsMatch) (i : ℕ) : List GsMatch :=
  if ms.length < max_matches then
    let r := gs_match_inner (kps1.getD i kpDefault).descriptor kps2 maxd
    if r.1 ≤ maxd ∧ r.1 < (4 / 5 : ℚ) * r.2.1 then
      ms ++ [⟨i, r.2.2, (r.1.floor).toNat⟩]
    else ms
  else ms

theorem gs_match_orb_eq_foldl (kps1 kps2 : List GsKeypoint) (cap : ℕ) (maxd : ℚ) :
    gs_match_orb kps1 kps2 cap maxd =
      (List.range kps1.length).foldl (matchStep kps1 kps2 cap maxd) [] := rfl

/-- The per-index emission decision of `gs_match_orb`, ignoring capacity. -/
def matchDecision (kps1 kps2 : List GsKeypoint) (maxd : ℚ) (i : ℕ) :
    Option GsMatch :=
  let r := gs_match_inner (kps1.getD i kpDefault).descriptor kps2 maxd
  if r.1 ≤ maxd ∧ r.1 < (4 / 5 : ℚ) * r.2.1 then
    some ⟨i, r.2.2, (r.1.floor).toNat⟩
  else none

theorem matchFold_eq_filterMap (kps1 kps2 : List GsKeypoint) (cap : ℕ) (maxd : ℚ)
    (hcap : kps1.length ≤ cap) (t : ℕ) (ht : t ≤ kps1.length) :
    (List.range t).foldl (matchStep kps1 kps2 cap maxd) [] =
      (List.range t).filterMap (matchDecision kps1 kps2 maxd) := by
  induction t with
  | zero => rfl
  | succ t ih =>
    have ht' : t ≤ kps1.length := le_of_lt ht
    rw [List.range_succ, List.foldl_append, List.foldl_cons, List.foldl_nil,
      List.filterMap_append, ih ht']
    have hlen : ((List.range t).filterMap (matchDecision kps1 kps2 maxd)).length < cap := by
      have h1 : ((List.range t).filterMap (matchDecision kps1 kps2 maxd)).length ≤
          (List.range t).length := List.length_filterMap_le _ _
      rw [List.length_range] at h1
      omega
    unfold matchStep
    rw [if_pos hlen]
    unfold matchDecision
    by_cases hd : (gs_match_inner (kps1.getD t kpDefault).descriptor kps2 maxd).1 ≤ maxd ∧
        (gs_match_inner (kps1.getD t kpDefault).descriptor kps2 maxd).1 <
          (4 / 5 : ℚ) * (gs_match_inner (kps1.getD t kpDefault).descriptor kps2 maxd).2.1
    · simp only [if_pos hd, List.filterMap_cons, List.filterMap_nil]
    · simp only [if_neg hd, List.filterMap_cons, List.filterMap_nil, List.append_nil]

theorem gs_match_orb_eq_filterMap (kps1 kps2 : List GsKeypoint) (cap : ℕ) (maxd : ℚ)
    (hcap : kps1.length ≤ cap) :
    gs_match_orb kps1 kps2 cap maxd =
      (List.range kps1.length).filterMap (matchDecision kps1 kps2 maxd) := by
  rw [gs_match_orb_eq_foldl]
  exact matchFold_eq_filterMap kps1 kps2 cap maxd hcap kps1.length le_rfl

/-- Acceptance criterion on plain Hamming distances: there is a least-index
best distance `jb` into set 2 with `dist ≤ maxd`, and the best distance beats
0.8 times both `maxd + 1` and every other distance into set 2 (the code clamps
the running second-best at `maxd + 1`; `5*b < 4*s` is `b < 0.8*s` over ℕ). -/
def AcceptPred (kps1 kps2 : List GsKeypoint) (maxdN i : ℕ) : Prop :=
  ∃ jb < kps2.length, hamDist kps1 kps2 i jb ≤ maxdN ∧
    (∀ j < kps2.length, hamDist kps1 kps2 i jb ≤ hamDist kps1 kps2 i j) ∧
    (∀ j < jb, hamDist kps1 kps2 i jb < hamDist kps1 kps2 i j) ∧
    5 * hamDist kps1 kps2 i jb < 4 * (maxdN + 1) ∧
    (∀ j < kps2.length, j ≠ jb →
      5 * hamDist kps1 kps2 i jb < 4 * hamDist kps1 kps2 i j)

/-- Full description of the emission decision for index `i` against a natural
maximum distance, in terms of plain Hamming distances: emitted iff the
least-index best distance is `≤ maxd` and beats 0.8 times both `maxd + 1` and
every other distance (the code clamps the second-best at `maxd + 1`). -/
theorem matchDecision_spec (kps1 kps2 : List GsKeypoint) (maxdN : ℕ) (i : ℕ) :
    (matchDecision kps1 kps2 (maxdN : ℚ) i = none ∧
      ¬ AcceptPred kps1 kps2 maxdN i) ∨
    (∃ jb < kps2.length, hamDist kps1 kps2 i jb ≤ maxdN ∧
        (∀ j < kps2.length, hamDist kps1 kps2 i jb ≤ hamDist kps1 kps2 i j) ∧
        (∀ j < jb, hamDist kps1 kps2 i jb < hamDist kps1 kps2 i j) ∧
        5 * hamDist kps1 kps2 i jb < 4 * (maxdN + 1) ∧
        (∀ j < kps2.length, j ≠ jb →
          5 * hamDist kps1 kps2 i jb < 4 * hamDist kps1 kps2 i j) ∧
        matchDecision kps1 kps2 (maxdN : ℚ) i =
          some ⟨i, jb, hamDist kps1 kps2 i jb⟩) := by
  have hinv := innerFold_inv (kps1.getD i kpDefault).descriptor kps2 (maxdN : ℚ)
    kps2.length
  rw [← gs_match_inner_eq_innerFold] at hinv
  set r := gs_match_inner (kps1.getD i kpDefault).descriptor kps2 (maxdN : ℚ) with hr
  have hdq : ∀ j, dQ (kps1.getD i kpDefault).descriptor kps2 j =
      (hamDist kps1 kps2 i j : ℚ) := fun j => rfl
  rcases hinv with ⟨hb, hs, hi, hall⟩ | ⟨hb, hit, hdi, hmin, hltb, hbs, hsM, hsec, hsw⟩
  · left
    constructor
    · unfold matchDecision
      rw [← hr]
      have : ¬ (r.1 ≤ (maxdN : ℚ) ∧ r.1 < (4 / 5 : ℚ) * r.2.1) := by
        rintro ⟨hle, hratio⟩
        rw [hb] at hle
        have : (maxdN : ℚ) + 1 ≤ (maxdN : ℚ) := hle
        linarith
      rw [if_neg this]
    · rintro ⟨jb, hjb, hjle, hjmin, hjlt, hjrat, hjsec⟩
      have := hall jb hjb
      rw [hdq] at this
      have h1 : (maxdN : ℚ) + 1 ≤ (maxdN : ℚ) := by
        calc (maxdN : ℚ) + 1 ≤ (hamDist kps1 kps2 i jb : ℚ) := this
          _ ≤ (maxdN : ℚ) := by exact_mod_cast hjle
      linarith
  · -- best is an actual distance at least-argmin index r.2.2
    rw [hdq] at hdi
    have hminN : ∀ j < kps2.length,
        hamDist kps1 kps2 i r.2.2 ≤ hamDist kps1 kps2 i j := by
      intro j hj
      have := hmin j hj
      rw [hdq, ← hdi] at this
      exact_mod_cast this
    have hltbN : ∀ j < r.2.2,
        hamDist kps1 kps2 i r.2.2 < hamDist kps1 kps2 i j := by
      intro j hj
      have := hltb j hj
      rw [hdq, ← hdi] at this
      exact_mod_cast this
    by_cases hacc : r.1 ≤ (maxdN : ℚ) ∧ r.1 < (4 / 5 : ℚ) * r.2.1
    · right
      refine ⟨r.2.2, hit, ?_, hminN, hltbN, ?_, ?_, ?_⟩
      · have := hacc.1
        rw [← hdi] at this
        exact_mod_cast this
      · have hr4 : r.1 < (4 / 5 : ℚ) * ((maxdN : ℚ) + 1) := by
          calc r.1 < (4 / 5 : ℚ) * r.2.1 := hacc.2
            _ ≤ (4 / 5 : ℚ) * ((maxdN : ℚ) + 1) := by
                apply mul_le_mul_of_nonneg_left hsM
                norm_num
        rw [← hdi] at hr4
        have : (5 : ℚ) * (hamDist kps1 kps2 i r.2.2 : ℕ) < 4 * ((maxdN : ℚ) + 1) := by
          linarith
        exact_mod_cast this
      · intro j hj hne
        have hs2 := hsec j hj hne
        have : r.1 < (4 / 5 : ℚ) * dQ (kps1.getD i kpDefault).descriptor kps2 j := by
          calc r.1 < (4 / 5 : ℚ) * r.2.1 := hacc.2
            _ ≤ _ := by
                apply mul_le_mul_of_nonneg_left hs2
                norm_num
        rw [hdq, ← hdi] at this
        have h5 : (5 : ℚ) * (hamDist kps1 kps2 i r.2.2 : ℕ) <
            4 * (hamDist kps1 kps2 i j : ℕ) := by linarith
        exact_mod_cast h5
      · unfold matchDecision
        rw [← hr, if_pos hacc]
        have hfl : (r.1.floor).toNat = hamDist kps1 kps2 i r.2.2 := by
          rw [← hdi]
          have h1 : ((hamDist kps1 kps2 i r.2.2 : ℚ)).floor =
              ((hamDist kps1 kps2 i r.2.2 : ℕ) : ℤ) := by
            rw [show ((hamDist kps1 kps2 i r.2.2 : ℚ)).floor =
              ⌊((hamDist kps1 kps2 i r.2.2 : ℕ) : ℚ)⌋ from rfl, Int.floor_natCast]
          rw [h1, Int.toNat_natCast]
        rw [hfl]
    · left
      refine ⟨?_, ?_⟩
      · unfold matchDecision
        rw [← hr, if_neg hacc]
      · rintro ⟨jb, hjb, hjle, hjmin, hjlt, hjrat, hjsec⟩
        -- jb must equal the least argmin r.2.2
        have hjb_eq : jb = r.2.2 := by
          by_contra hne
          rcases Nat.lt_or_ge jb r.2.2 with hlt | hge
          · have h1 := hltbN jb hlt
            have h2 := hjmin r.2.2 hit
            omega
          · have hgt : r.2.2 < jb := by omega
            have h1 := hjlt r.2.2 hgt
            have h2 := hminN jb hjb
            omega
        rw [hjb_eq] at hjle hjrat hjsec
        apply hacc
        constructor
        · rw [← hdi]
          exact_mod_cast hjle
        · rcases hsw with hswM | ⟨j, hj, hjne, hjd⟩
          · rw [hswM, ← hdi]
            have : (5 : ℚ) * (hamDist kps1 kps2 i r.2.2 : ℕ) <
                4 * ((maxdN : ℚ) + 1) := by exact_mod_cast hjrat
            linarith
          · have := hjsec j hj hjne
            rw [← hjd, hdq, ← hdi]
            have h5 : (5 : ℚ) * (hamDist kps1 kps2 i r.2.2 : ℕ) <
                4 * (hamDist kps1 kps2 i j : ℕ) := by exact_mod_cast this
            rw [hdq] at hjd
            linarith

theorem matchDecision_idx1 (kps1 kps2 : List GsKeypoint) (maxd : ℚ) (i : ℕ)
    (m : GsMatch) (h : matchDecision kps1 kps2 maxd i = some m) : m.idx1 = i := by
  unfold matchDecision at h
  by_cases hc : (gs_match_inner (kps1.getD i kpDefault).descriptor kps2 maxd).1 ≤ maxd ∧
      (gs_match_inner (kps1.getD i kpDefault).descriptor kps2 maxd).1 <
        (4 / 5 : ℚ) * (gs_match_inner (kps1.getD i kpDefault).descriptor kps2 maxd).2.1
  · rw [if_pos hc] at h
    cases h
    rfl
  · rw [if_neg hc] at h
    cases h

/-- C6 (amended): with capacity for all of set 1, a set-1 keypoint is matched
iff its least-index best Hamming distance into set 2 is at most the maximum
distance and strictly less than 0.8 times the minimum of the second-best
distance and `max distance + 1` (the scan clamps the second-best there);
matches are emitted in strictly increasing set-1 order, and the matched set-2
index is the lowest index attaining the best distance, reported with that
distance.  `maxdN` ranges over naturals, where the ℚ model agrees with the C
float code (see the fidelity note above). -/
theorem c6_match_acceptance (kps1 kps2 : List GsKeypoint) (cap maxdN : ℕ)
    (hcap : kps1.length ≤ cap) :
    List.Pairwise (fun a b => a.idx1 < b.idx1)
      (gs_match_orb kps1 kps2 cap (maxdN : ℚ)) ∧
    ∀ i, i < kps1.length →
      ((∃ m ∈ gs_match_orb kps1 kps2 cap (maxdN : ℚ), m.idx1 = i) ↔
        AcceptPred kps1 kps2 maxdN i) ∧
      ∀ m ∈ gs_match_orb kps1 kps2 cap (maxdN : ℚ), m.idx1 = i →
        m.idx2 < kps2.length ∧ m.distance = hamDist kps1 kps2 i m.idx2 ∧
        (∀ j < kps2.length, hamDist kps1 kps2 i m.idx2 ≤ hamDist kps1 kps2 i j) ∧
        (∀ j < m.idx2, hamDist kps1 kps2 i m.idx2 < hamDist kps1 kps2 i j) := by
  rw [gs_match_orb_eq_filterMap kps1 kps2 cap _ hcap]
  constructor
  · apply List.Pairwise.filterMap (matchDecision kps1 kps2 (maxdN : ℚ))
    · intro a b hab x hx y hy
      rw [matchDecision_idx1 kps1 kps2 _ a x hx, matchDecision_idx1 kps1 kps2 _ b y hy]
      exact hab
    · exact List.pairwise_lt_range kps1.length
  · intro i hi
    constructor
    · constructor
      · rintro ⟨m, hm, hmi⟩
        rw [List.mem_filterMap] at hm
        obtain ⟨i2, hi2, hd⟩ := hm
        have hidx := matchDecision_idx1 kps1 kps2 _ i2 m hd
        rw [hmi] at hidx
        rw [← hidx] at hd
        rcases matchDecision_spec kps1 kps2 maxdN i with ⟨hnone, _⟩ |
          ⟨jb, hjb, hle, hmin, hlt, hr1, hr2, _⟩
        · rw [hnone] at hd
          cases hd
        · exact ⟨jb, hjb, hle, hmin, hlt, hr1, hr2⟩
      · intro hacc
        rcases matchDecision_spec kps1 kps2 maxdN i with ⟨_, hno⟩ |
          ⟨jb, hjb, hle, hmin, hlt, hr1, hr2, hsome⟩
        · exact absurd hacc hno
        · refine ⟨⟨i, jb, hamDist kps1 kps2 i jb⟩, ?_, rfl⟩
          rw [List.mem_filterMap]
          exact ⟨i, List.mem_range.mpr hi, hsome⟩
    · intro m hm hmi
      rw [List.mem_filterMap] at hm
      obtain ⟨i2, hi2, hd⟩ := hm
      have hidx := matchDecision_idx1 kps1 kps2 _ i2 m hd
      rw [hmi] at hidx
      rw [← hidx] at hd
      rcases matchDecision_spec kps1 kps2 maxdN i with ⟨hnone, _⟩ |
        ⟨jb, hjb, hle, hmin, hlt, hr1, hr2, hsome⟩
      · rw [hnone] at hd
        cases hd
      · rw [hsome] at hd
        cases hd
        exact ⟨hjb, rfl, hmin, hlt⟩

/-- Set 1 for the matching examples: one keypoint, all-zero descriptor. -/
def c6kps1 : List GsKeypoint := [⟨0, 0, 0, 0, fun _ => 0⟩]

/-- Set 2 for the matching examples: descriptors at Hamming distances 9 and 12
from the all-zero descriptor (9 and 12 low bits set in word 0). -/
def c6kps2 : List GsKeypoint :=
  [⟨0, 0, 0, 0, fun i => if i = 0 then 511 else 0⟩,
   ⟨0, 0, 0, 0, fun i => if i = 0 then 4095 else 0⟩]

/-- Witness for `c6_match_acceptance` at the concrete keypoint sets above with
capacity 5 and maximum distance 10. -/
theorem c6_match_acceptance_witness :
    c6kps1.length ≤ 5 ∧
    (List.Pairwise (fun a b => a.idx1 < b.idx1)
      (gs_match_orb c6kps1 c6kps2 5 ((10 : ℕ) : ℚ)) ∧
    ∀ i, i < c6kps1.length →
      ((∃ m ∈ gs_match_orb c6kps1 c6kps2 5 ((10 : ℕ) : ℚ), m.idx1 = i) ↔
        AcceptPred c6kps1 c6kps2 10 i) ∧
      ∀ m ∈ gs_match_orb c6kps1 c6kps2 5 ((10 : ℕ) : ℚ), m.idx1 = i →
        m.idx2 < c6kps2.length ∧ m.distance = hamDist c6kps1 c6kps2 i m.idx2 ∧
        (∀ j < c6kps2.length, hamDist c6kps1 c6kps2 i m.idx2 ≤ hamDist c6kps1 c6kps2 i j) ∧
        (∀ j < m.idx2, hamDist c6kps1 c6kps2 i m.idx2 < hamDist c6kps1 c6kps2 i j)) :=
  ⟨by decide, c6_match_acceptance c6kps1 c6kps2 5 10 (by decide)⟩

theorem c6_inner_eval :
    gs_match_inner (c6kps1.getD 0 kpDefault).descriptor c6kps2 ((10 : ℕ) : ℚ) =
      ((9 : ℚ), (11 : ℚ), 0) := by
  have h0 : gs_hamming_distance (c6kps1.getD 0 kpDefault).descriptor
      (c6kps2.getD 0 kpDefault).descriptor = 9 := by decide
  have h1 : gs_hamming_distance (c6kps1.getD 0 kpDefault).descriptor
      (c6kps2.getD 1 kpDefault).descriptor = 12 := by decide
  rw [gs_match_inner_eq_innerFold]
  show innerFold _ c6kps2 _ 2 = _
  unfold innerFold
  simp only [List.range_succ, List.range_zero, List.foldl_append, List.foldl_cons,
    List.foldl_nil, List.nil_append, h0, h1]
  norm_num

theorem c6_match_orb_eval : gs_match_orb c6kps1 c6kps2 10 ((10 : ℕ) : ℚ) = [] := by
  rw [gs_match_orb_eq_foldl]
  show (List.range 1).foldl _ [] = []
  simp only [List.range_succ, List.range_zero, List.foldl_append, List.foldl_cons,
    List.foldl_nil, List.nil_append]
  unfold matchStep
  simp only [c6_inner_eval]
  norm_num

/-- C6 as stated is false: with maximum distance 10, the best distance for
set-1 keypoint 0 is 9 (at set-2 index 0, within the maximum) and the true
second-best distance into set 2 is 12, so `9 < 0.8 * 12` holds and the claim
demands acceptance; but the code clamps the second-best at
`max_distance + 1 = 11`, fails `9 < 0.8 * 11`, and emits no match at all. -/
theorem c6_counterexample :
    hamDist c6kps1 c6kps2 0 0 = 9 ∧ hamDist c6kps1 c6kps2 0 1 = 12 ∧
    (9 : ℕ) ≤ 10 ∧ (9 : ℚ) < (4 / 5 : ℚ) * 12 ∧
    gs_match_orb c6kps1 c6kps2 10 ((10 : ℕ) : ℚ) = [] :=
  ⟨by decide, by decide, by norm_num, by norm_num, c6_match_orb_eval⟩

theorem popcount_pos (n : ℕ) (h : n ≠ 0) : 0 < popcount n := by
  rw [popcount_eq, if_neg h]
  rcases Nat.even_or_odd n with he | ho
  · have h2 : n / 2 ≠ 0 := by
      rcases he with ⟨k, hk⟩
      omega
    have := popcount_pos (n / 2) h2
    omega
  · have : n % 2 = 1 := Nat.odd_iff.mp ho
    omega
decreasing_by exact Nat.div_lt_self (Nat.pos_of_ne_zero h) one_lt_two

theorem gs_hamming_distance_pos (d1 d2 : Descriptor)
    (h : ∃ wd < 8, d1 wd ≠ d2 wd) : 0 < gs_hamming_distance d1 d2 := by
  obtain ⟨wd, hwd, hne⟩ := h
  have hx : 0 < popcount ((d1 wd) ^^^ (d2 wd)) := by
    apply popcount_pos
    intro hz
    exact hne (Nat.xor_eq_zero.mp hz)
  have hnn : ∀ a b : ℕ, 0 ≤ popcount (a ^^^ b) := fun a b => Nat.zero_le _
  simp only [gs_hamming_distance, List.range_succ, List.foldl_append, List.foldl_cons,
    List.foldl_nil, List.range_zero]
  interval_cases wd <;> omega

theorem filterMap_eq_map_of {α β : Type} (l : List α) (f : α → Option β)
    (g : α → β) (h : ∀ x ∈ l, f x = some (g x)) : l.filterMap f = l.map g := by
  induction l with
  | nil => rfl
  | cons a l ih =>
    rw [List.filterMap_cons, List.map_cons, h a (List.mem_cons_self a l),
      ih fun x hx => h x (List.mem_cons_of_mem a hx)]

/-- C7 (amended): the Hamming distance from any descriptor to itself is 0, the
distance is symmetric and bounded by 256 on 32-bit words; and matching a
keypoint set with pairwise-distinct descriptors against itself (capacity at
least the set size) yields exactly the perfect self-matches `(i, i, 0)`.  With
duplicate descriptors the always-on ratio test `0 < 0.8 * 0` fails and the
self-matches are dropped, hence the distinctness hypothesis. -/
theorem c7_hamming_selfmatch (kps : List GsKeypoint) (cap maxdN : ℕ)
    (hcap : kps.length ≤ cap)
    (hdistinct : ∀ i < kps.length, ∀ j < kps.length, i ≠ j →
      ∃ wd < 8, (kps.getD i kpDefault).descriptor wd ≠
        (kps.getD j kpDefault).descriptor wd) :
    (∀ d : Descriptor, gs_hamming_distance d d = 0) ∧
    (∀ d1 d2 : Descriptor,
      gs_hamming_distance d1 d2 = gs_hamming_distance d2 d1) ∧
    (∀ d1 d2 : Descriptor, (∀ i, d1 i < 2 ^ 32) → (∀ i, d2 i < 2 ^ 32) →
      gs_hamming_distance d1 d2 ≤ 256) ∧
    gs_match_orb kps kps cap (maxdN : ℚ) =
      (List.range kps.length).map (fun i => ⟨i, i, 0⟩) := by
  refine ⟨gs_hamming_distance_self, gs_hamming_distance_comm,
    gs_hamming_distance_le, ?_⟩
  rw [gs_match_orb_eq_filterMap kps kps cap _ hcap]
  apply filterMap_eq_map_of
  intro i hi
  rw [List.mem_range] at hi
  have hself : hamDist kps kps i i = 0 := gs_hamming_distance_self _
  have hpos : ∀ j < kps.length, j ≠ i → 0 < hamDist kps kps i j := by
    intro j hj hne
    exact gs_hamming_distance_pos _ _ (hdistinct i hi j hj (fun he => hne he.symm))
  rcases matchDecision_spec kps kps maxdN i with ⟨_, hno⟩ |
    ⟨jb, hjb, hle, hmin, hlt, hr1, hr2, hsome⟩
  · exfalso
    apply hno
    refine ⟨i, hi, by omega, ?_, ?_, by omega, ?_⟩
    · intro j hj
      omega
    · intro j hj
      have := hpos j (lt_trans hj hi) (by omega)
      omega
    · intro j hj hne
      have := hpos j hj hne
      omega
  · have hjb_eq : jb = i := by
      by_contra hne
      have h1 := hmin i hi
      rw [hself] at h1
      have h2 : hamDist kps kps i jb = 0 := Nat.le_zero.mp h1
      have := hpos jb hjb hne
      omega
    rw [hjb_eq, hself] at hsome
    exact hsome

/-- Witness for `c7_hamming_selfmatch`: the two-keypoint set with distinct
descriptors `c6kps2` matched against itself with capacity 5 and maximum
distance 300 yields exactly `[(0,0,0), (1,1,0)]`. -/
theorem c7_hamming_selfmatch_witness :
    c6kps2.length ≤ 5 ∧
    gs_match_orb c6kps2 c6kps2 5 ((300 : ℕ) : ℚ) =
      (List.range c6kps2.length).map (fun i => ⟨i, i, 0⟩) :=
  ⟨by decide,
    (c7_hamming_selfmatch c6kps2 5 300 (by decide) (by decide)).2.2.2⟩

/-- Two keypoints with identical (all-zero) descriptors. -/
def c7dup : List GsKeypoint :=
  [⟨0, 0, 0, 0, fun _ => 0⟩, ⟨0, 0, 0, 0, fun _ => 0⟩]

theorem c7_dup_inner_eval :
    gs_match_inner (c7dup.getD 0 kpDefault).descriptor c7dup ((300 : ℕ) : ℚ) =
      ((0 : ℚ), (0 : ℚ), 0) := by
  have h0 : gs_hamming_distance (c7dup.getD 0 kpDefault).descriptor
      (c7dup.getD 0 kpDefault).descriptor = 0 := by decide
  have h1 : gs_hamming_distance (c7dup.getD 0 kpDefault).descriptor
      (c7dup.getD 1 kpDefault).descriptor = 0 := by decide
  rw [gs_match_inner_eq_innerFold]
  show innerFold _ c7dup _ 2 = _
  unfold innerFold
  simp only [List.range_succ, List.range_zero, List.foldl_append, List.foldl_cons,
    List.foldl_nil, List.nil_append, h0, h1]
  norm_num

theorem c7_dup_inner_eval1 :
    gs_match_inner (c7dup.getD 1 kpDefault).descriptor c7dup ((300 : ℕ) : ℚ) =
      ((0 : ℚ), (0 : ℚ), 0) := by
  have hsame : (c7dup.getD 1 kpDefault).descriptor =
      (c7dup.getD 0 kpDefault).descriptor := rfl
  rw [hsame]
  exact c7_dup_inner_eval

theorem c7_dup_match_orb_eval :
    gs_match_orb c7dup c7dup 10 ((300 : ℕ) : ℚ) = [] := by
  rw [gs_match_orb_eq_foldl]
  show (List.range 2).foldl _ [] = []
  simp only [List.range_succ, List.range_zero, List.foldl_append, List.foldl_cons,
    List.foldl_nil, List.nil_append]
  unfold matchStep
  simp only [c7_dup_inner_eval, c7_dup_inner_eval1]
  norm_num

/-- C7 as stated is false: matching a keypoint set against itself with a large
maximum distance (300) does not always yield a self-match for every keypoint —
with two identical descriptors the second-best distance is 0, the ratio test
`0 < 0.8 * 0` fails, and no match at all is produced. -/
theorem c7_counterexample :
    gs_match_orb c7dup c7dup 10 ((300 : ℕ) : ℚ) = [] ∧
    ¬ ∀ i < c7dup.length, ∃ m ∈ gs_match_orb c7dup c7dup 10 ((300 : ℕ) : ℚ),
        m.idx1 = i ∧ m.idx2 = i ∧ m.distance = 0 := by
  refine ⟨c7_dup_match_orb_eval, ?_⟩
  intro hall
  obtain ⟨m, hm, _⟩ := hall 0 (by decide)
  rw [c7_dup_match_orb_eval] at hm
  cases hm

/-!
## Bilinear resampling (`gs_resize`, `gs_perspective_correct`)

Both C functions compute source coordinates in `float` and then sample a 2×2
neighbourhood with fractional weights.  The model below is the exact-rational
idealization of that pipeline.  Fidelity note: every operation of the 4×4→2×2
counterexample instance below (halves and quarters of bytes, corner u,v ∈
{0,1}) is exactly representable in single precision, so the refutation holds
for the C float code verbatim; for the general theorems, the model is exact
where the floats may round (e.g. `(x+0.5f)*w` is float-exact only while
`(2x+1)*w < 2^24`, i.e. dimensions up to ≈2048).
-/

/-- `GS_MAX(0.0f, GS_MIN(v, hi))`. -/
def clampQ (v hi : ℚ) : ℚ := max 0 (min v hi)

/-- The 2×2 bilinear sampling block shared verbatim by `gs_resize` and
`gs_perspective_correct`: truncate the (clamped, hence nonnegative) source
coordinates, clamp the +1 neighbours to the image edge, and blend the four
pixels by the fractional offsets; the final `(uint8_t)` cast truncates. -/
def bilinearSample (src : GsImage) (sx sy : ℚ) : ℕ :=
  let sxi : ℕ := (⌊sx⌋).toNat
  let syi : ℕ := (⌊sy⌋).toNat
  let sx1 : ℕ := min (sxi + 1) (src.w - 1)
  let sy1 : ℕ := min (syi + 1) (src.h - 1)
  let dx : ℚ := sx - (sxi : ℚ)
  let dy : ℚ := sy - (syi : ℚ)
  let c00 : ℚ := (src.data (syi * src.w + sxi) : ℕ)
  let c01 : ℚ := (src.data (syi * src.w + sx1) : ℕ)
  let c10 : ℚ := (src.data (sy1 * src.w + sxi) : ℕ)
  let c11 : ℚ := (src.data (sy1 * src.w + sx1) : ℕ)
  (⌊c00 * (1 - dx) * (1 - dy) + c01 * dx * (1 - dy) +
      c10 * (1 - dx) * dy + c11 * dx * dy⌋).toNat

/-- `gs_resize` to a `dw × dh` destination: pixel-centre source mapping
`sx = (x+0.5)*src.w/dw - 0.5` clamped to the source, then bilinear sampling.
The result is the destination pixel at flat index `idx = y*dw + x`
(meaningful for `idx < dw*dh`). -/
def gs_resize (dw dh : ℕ) (src : GsImage) : ℕ → ℕ := fun idx =>
  let x := idx % dw
  let y := idx / dw
  let sx : ℚ := ((x : ℚ) + 1/2) * (src.w : ℚ) / (dw : ℚ) - 1/2
  let sy : ℚ := ((y : ℚ) + 1/2) * (src.h : ℚ) / (dh : ℚ) - 1/2
  bilinearSample src (clampQ sx ((src.w : ℚ) - 1)) (clampQ sy ((src.h : ℚ) - 1))

/-- `gs_perspective_correct` to a `dw × dh` destination from quad corners
`c 0..c 3` (top-left, top-right, bottom-right, bottom-left, unsigned points):
bilinear blend of the corners by `u = x/(dw-1)`, `v = y/(dh-1)`, clamped, then
bilinear sampling.  (For `dw = 1` or `dh = 1` the C float divides by zero;
theorems below assume sizes ≥ 2.) -/
def gs_perspective_correct (dw dh : ℕ) (src : GsImage) (c : ℕ → ℕ × ℕ) :
    ℕ → ℕ := fun idx =>
  let x := idx % dw
  let y := idx / dw
  let u : ℚ := (x : ℚ) / ((dw : ℚ) - 1)
  let v : ℚ := (y : ℚ) / ((dh : ℚ) - 1)
  let top_x : ℚ := ((c 0).1 : ℕ) * (1 - u) + ((c 1).1 : ℕ) * u
  let top_y : ℚ := ((c 0).2 : ℕ) * (1 - u) + ((c 1).2 : ℕ) * u
  let bot_x : ℚ := ((c 3).1 : ℕ) * (1 - u) + ((c 2).1 : ℕ) * u
  let bot_y : ℚ := ((c 3).2 : ℕ) * (1 - u) + ((c 2).2 : ℕ) * u
  let src_x : ℚ := clampQ (top_x * (1 - v) + bot_x * v) ((src.w : ℚ) - 1)
  let src_y : ℚ := clampQ (top_y * (1 - v) + bot_y * v) ((src.h : ℚ) - 1)
  bilinearSample src src_x src_y

/-- The identity quad spanning the full source image:
`(0,0), (w-1,0), (w-1,h-1), (0,h-1)`. -/
def identQuad (src : GsImage) : ℕ → ℕ × ℕ := fun k =>
  if k = 0 then (0, 0)
  else if k = 1 then (src.w - 1, 0)
  else if k = 2 then (src.w - 1, src.h - 1)
  else (0, src.h - 1)

theorem bilinearSample_natCast (src : GsImage) (xn yn : ℕ) :
    bilinearSample src (xn : ℚ) (yn : ℚ) = src.data (yn * src.w + xn) := by
  unfold bilinearSample
  have hx : ((⌊(xn : ℚ)⌋).toNat) = xn := by
    rw [Int.floor_natCast, Int.toNat_natCast]
  have hy : ((⌊(yn : ℚ)⌋).toNat) = yn := by
    rw [Int.floor_natCast, Int.toNat_natCast]
  simp only [hx, hy]
  have hdx : (xn : ℚ) - (xn : ℚ) = 0 := by ring
  have hdy : (yn : ℚ) - (yn : ℚ) = 0 := by ring
  rw [hdx, hdy]
  have hval : ((src.data (yn * src.w + xn) : ℕ) : ℚ) * (1 - 0) * (1 - 0) +
      ((src.data (yn * src.w + min (xn + 1) (src.w - 1)) : ℕ) : ℚ) * 0 * (1 - 0) +
      ((src.data (min (yn + 1) (src.h - 1) * src.w + xn) : ℕ) : ℚ) * (1 - 0) * 0 +
      ((src.data (min (yn + 1) (src.h - 1) * src.w +
        min (xn + 1) (src.w - 1)) : ℕ) : ℚ) * 0 * 0 =
      ((src.data (yn * src.w + xn) : ℕ) : ℚ) := by ring
  rw [hval, Int.floor_natCast, Int.toNat_natCast]

theorem clampQ_eq_self (v hi : ℚ) (h0 : 0 ≤ v) (h1 : v ≤ hi) : clampQ v hi = v := by
  unfold clampQ
  rw [min_eq_left h1, max_eq_right h0]

theorem gs_resize_same_size (src : GsImage) (hw : 0 < src.w) (hh : 0 < src.h)
    (x y : ℕ) (hx : x < src.w) (hy : y < src.h) :
    gs_resize src.w src.h src (y * src.w + x) = src.data (y * src.w + x) := by
  have hw0 : (src.w : ℚ) ≠ 0 := by exact_mod_cast Nat.pos_iff_ne_zero.mp hw
  have hh0 : (src.h : ℚ) ≠ 0 := by exact_mod_cast Nat.pos_iff_ne_zero.mp hh
  have hxm : (y * src.w + x) % src.w = x := by
    rw [Nat.mul_comm y src.w, Nat.mul_add_mod]
    exact Nat.mod_eq_of_lt hx
  have hxd : (y * src.w + x) / src.w = y := by
    rw [Nat.mul_comm y src.w, Nat.mul_add_div hw, Nat.div_eq_of_lt hx]
    omega
  have hsx : ((x : ℚ) + 1 / 2) * (src.w : ℚ) / (src.w : ℚ) - 1 / 2 = (x : ℚ) := by
    field_simp
    ring
  have hsy : ((y : ℚ) + 1 / 2) * (src.h : ℚ) / (src.h : ℚ) - 1 / 2 = (y : ℚ) := by
    field_simp
    ring
  have hxle : (x : ℚ) ≤ (src.w : ℚ) - 1 := by
    have : (x : ℚ) + 1 ≤ (src.w : ℚ) := by exact_mod_cast hx
    linarith
  have hyle : (y : ℚ) ≤ (src.h : ℚ) - 1 := by
    have : (y : ℚ) + 1 ≤ (src.h : ℚ) := by exact_mod_cast hy
    linarith
  simp only [gs_resize, hxm, hxd]
  rw [hsx, hsy, clampQ_eq_self _ _ (by positivity) hxle,
    clampQ_eq_self _ _ (by positivity) hyle, bilinearSample_natCast]

theorem gs_perspective_identity_same_size (src : GsImage) (hw : 2 ≤ src.w)
    (hh : 2 ≤ src.h) (x y : ℕ) (hx : x < src.w) (hy : y < src.h) :
    gs_perspective_correct src.w src.h src (identQuad src) (y * src.w + x) =
      src.data (y * src.w + x) := by
  have hw1 : (src.w : ℚ) - 1 ≠ 0 := by
    have h2 : (2 : ℚ) ≤ (src.w : ℚ) := by exact_mod_cast hw
    intro hz
    rw [sub_eq_zero] at hz
    rw [hz] at h2
    norm_num at h2
  have hh1 : (src.h : ℚ) - 1 ≠ 0 := by
    have h2 : (2 : ℚ) ≤ (src.h : ℚ) := by exact_mod_cast hh
    intro hz
    rw [sub_eq_zero] at hz
    rw [hz] at h2
    norm_num at h2
  have hxm : (y * src.w + x) % src.w = x := by
    rw [Nat.mul_comm y src.w, Nat.mul_add_mod]
    exact Nat.mod_eq_of_lt hx
  have hxd : (y * src.w + x) / src.w = y := by
    rw [Nat.mul_comm y src.w, Nat.mul_add_div (by omega), Nat.div_eq_of_lt hx]
    omega
  have hq0 : identQuad src 0 = (0, 0) := rfl
  have hq1 : identQuad src 1 = (src.w - 1, 0) := rfl
  have hq2 : identQuad src 2 = (src.w - 1, src.h - 1) := rfl
  have hq3 : identQuad src 3 = (0, src.h - 1) := rfl
  have hwsub : ((src.w - 1 : ℕ) : ℚ) = (src.w : ℚ) - 1 := by
    have h1 : 1 ≤ src.w := by omega
    push_cast [h1]
    ring
  have hhsub : ((src.h - 1 : ℕ) : ℚ) = (src.h : ℚ) - 1 := by
    have h1 : 1 ≤ src.h := by omega
    push_cast [h1]
    ring
  have hxle : (x : ℚ) ≤ (src.w : ℚ) - 1 := by
    have : (x : ℚ) + 1 ≤ (src.w : ℚ) := by exact_mod_cast hx
    linarith
  have hyle : (y : ℚ) ≤ (src.h : ℚ) - 1 := by
    have : (y : ℚ) + 1 ≤ (src.h : ℚ) := by exact_mod_cast hy
    linarith
  have hsx : (((0 : ℕ) : ℚ) * (1 - (x : ℚ) / ((src.w : ℚ) - 1)) +
        ((src.w - 1 : ℕ) : ℚ) * ((x : ℚ) / ((src.w : ℚ) - 1))) *
        (1 - (y : ℚ) / ((src.h : ℚ) - 1)) +
      (((0 : ℕ) : ℚ) * (1 - (x : ℚ) / ((src.w : ℚ) - 1)) +
        ((src.w - 1 : ℕ) : ℚ) * ((x : ℚ) / ((src.w : ℚ) - 1))) *
        ((y : ℚ) / ((src.h : ℚ) - 1)) = (x : ℚ) := by
    rw [hwsub]
    push_cast
    field_simp
    ring
  have hsy : (((0 : ℕ) : ℚ) * (1 - (x : ℚ) / ((src.w : ℚ) - 1)) +
        ((0 : ℕ) : ℚ) * ((x : ℚ) / ((src.w : ℚ) - 1))) *
        (1 - (y : ℚ) / ((src.h : ℚ) - 1)) +
      (((src.h - 1 : ℕ) : ℚ) * (1 - (x : ℚ) / ((src.w : ℚ) - 1)) +
        ((src.h - 1 : ℕ) : ℚ) * ((x : ℚ) / ((src.w : ℚ) - 1))) *
        ((y : ℚ) / ((src.h : ℚ) - 1)) = (y : ℚ) := by
    rw [hhsub]
    push_cast
    field_simp
    ring
  simp only [gs_perspective_correct, hq0, hq1, hq2, hq3, hxm, hxd]
  rw [hsx, hsy, clampQ_eq_self _ _ (by positivity) hxle,
    clampQ_eq_self _ _ (by positivity) hyle, bilinearSample_natCast]

/-- C9 (amended): with the identity quad and the destination size equal to the
source size (both dimensions ≥ 2), `gs_perspective_correct` and `gs_resize`
agree pixel for pixel, both reproducing the source image. -/
theorem c9_identity_same_size (src : GsImage) (hw : 2 ≤ src.w)
    (hh : 2 ≤ src.h) :
    ∀ idx < src.w * src.h,
      gs_perspective_correct src.w src.h src (identQuad src) idx =
        gs_resize src.w src.h src idx ∧
      gs_resize src.w src.h src idx = src.data idx := by
  intro idx hidx
  obtain ⟨x, y, hx, hy, rfl⟩ : ∃ x y, x < src.w ∧ y < src.h ∧ y * src.w + x = idx := by
    refine ⟨idx % src.w, idx / src.w, Nat.mod_lt _ (by omega), ?_, ?_⟩
    · exact Nat.div_lt_of_lt_mul hidx
    · rw [Nat.mul_comm]
      exact Nat.div_add_mod idx src.w
  have h1 := gs_resize_same_size src (by omega) (by omega) x y hx hy
  have h2 := gs_perspective_identity_same_size src hw hh x y hx hy
  rw [h1, h2]
  exact ⟨rfl, rfl⟩

/-- The 4×4 source image of the repository's own resize test
(`test_resize` in `test.c`). -/
def c9src : GsImage :=
  ⟨4, 4, true, fun i =>
    if i = 0 then 0 else if i = 1 then 50 else if i = 2 then 100
    else if i = 3 then 150 else if i = 4 then 25 else if i = 5 then 75
    else if i = 6 then 125 else if i = 7 then 175 else if i = 8 then 50
    else if i = 9 then 100 else if i = 10 then 150 else if i = 11 then 200
    else if i = 12 then 75 else if i = 13 then 125 else if i = 14 then 175
    else 225⟩

theorem c9_resize_eval : gs_resize 2 2 c9src 0 = 37 := by
  norm_num [gs_resize, bilinearSample, clampQ, c9src, min_def, max_def]
  rfl

theorem c9_perspective_eval :
    gs_perspective_correct 2 2 c9src (identQuad c9src) 0 = 0 := by
  norm_num [gs_perspective_correct, bilinearSample, clampQ, identQuad, c9src,
    min_def, max_def]

/-- C9 as stated is false: resizing the 4×4 test image to 2×2 with `gs_resize`
gives 37 at pixel (0,0) (pixel-centre mapping samples at source (0.5,0.5)),
while `gs_perspective_correct` with the identity quad spanning the full source
gives 0 there (endpoint-aligned mapping samples at source (0,0)).  Every float
operation at this instance is exactly representable, so the inequality holds
for the C float code verbatim. -/
theorem c9_counterexample :
    gs_resize 2 2 c9src 0 = 37 ∧
    gs_perspective_correct 2 2 c9src (identQuad c9src) 0 = 0 ∧
    gs_perspective_correct 2 2 c9src (identQuad c9src) 0 ≠
      gs_resize 2 2 c9src 0 := by
  refine ⟨c9_resize_eval, c9_perspective_eval, ?_⟩
  rw [c9_resize_eval, c9_perspective_eval]
  norm_num

/-- Witness for `c9_identity_same_size` at the concrete 4×4 test image. -/
theorem c9_identity_same_size_witness :
    (2 ≤ c9src.w ∧ 2 ≤ c9src.h) ∧
    ∀ idx < c9src.w * c9src.h,
      gs_perspective_correct c9src.w c9src.h c9src (identQuad c9src) idx =
        gs_resize c9src.w c9src.h c9src idx ∧
      gs_resize c9src.w c9src.h c9src idx = c9src.data idx :=
  ⟨⟨by decide, by decide⟩, c9_identity_same_size c9src (by decide) (by decide)⟩

/-!
## Connected components (`gs_blobs`)

Union-find with path halving, exactly `gs_root`:
`while (parents[x] != x) x = parents[x] = parents[parents[x]];`.
The C `parents` table always satisfies `parents[z] ≤ z` (labels are unioned by
attaching the larger root under the smaller), so the loop variable strictly
decreases and `x + 1` iterations always suffice; the fuel below makes the
recursion structural.
-/

/-- `gs_root` loop body with fuel, carrying the mutated parent table
(path halving writes `parents[x] = parents[parents[x]]` before jumping). -/
def gsRootAux : ℕ → (ℕ → ℕ) → ℕ → ℕ × (ℕ → ℕ)
  | 0, p, x => (x, p)
  | fuel + 1, p, x =>
    if p x = x then (x, p)
    else gsRootAux fuel (Function.update p x (p (p x))) (p (p x))

/-- `gs_root`: root of `x` with path halving; also returns the updated table. -/
def gsRoot (p : ℕ → ℕ) (x : ℕ) : ℕ × (ℕ → ℕ) := gsRootAux (x + 1) p x

/-- Pure root lookup (no mutation), used only in specifications. -/
def rootAux : ℕ → (ℕ → ℕ) → ℕ → ℕ
  | 0, _, x => x
  | fuel + 1, p, x => if p x = x then x else rootAux fuel p (p x)

/-- The representative of `x` in parent table `p` (specification side). -/
def rootOf (p : ℕ → ℕ) (x : ℕ) : ℕ := rootAux (x + 1) p x

/-- The parent-table invariant maintained by `gs_blobs`. -/
def Pinv (p : ℕ → ℕ) : Prop := ∀ z, p z ≤ z

theorem rootAux_congr (p : ℕ → ℕ) (hp : Pinv p) :
    ∀ f g x, x < f → x < g → rootAux f p x = rootAux g p x := by
  intro f
  induction f with
  | zero =>
    intro g x hf
    omega
  | succ f ih =>
    intro g x hf hg
    obtain ⟨g2, rfl⟩ : ∃ g2, g = g2 + 1 := ⟨g - 1, by omega⟩
    by_cases hx : p x = x
    · simp only [rootAux, if_pos hx]
    · simp only [rootAux, if_neg hx]
      have hlt : p x < x := lt_of_le_of_ne (hp x) hx
      exact ih g2 (p x) (by omega) (by omega)

theorem rootOf_parent (p : ℕ → ℕ) (hp : Pinv p) (x : ℕ) (hx : p x ≠ x) :
    rootOf p x = rootOf p (p x) := by
  have hxlt : p x < x := lt_of_le_of_ne (hp x) hx
  unfold rootOf
  conv_lhs => rw [show x + 1 = (x - 1) + 1 + 1 from by omega]
  simp only [rootAux, if_neg hx]
  have hlt : p x < x := lt_of_le_of_ne (hp x) hx
  exact rootAux_congr p hp (x - 1 + 1) (p x + 1) (p x) (by omega) (by omega)

theorem rootOf_of_fix (p : ℕ → ℕ) (x : ℕ) (hx : p x = x) : rootOf p x = x := by
  unfold rootOf
  simp only [rootAux, if_pos hx]

theorem rootOf_is_fix (p : ℕ → ℕ) (hp : Pinv p) :
    ∀ x, p (rootOf p x) = rootOf p x := by
  intro x
  induction x using Nat.strong_induction_on with
  | _ x ih =>
    by_cases hx : p x = x
    · rw [rootOf_of_fix p x hx, hx]
    · rw [rootOf_parent p hp x hx]
      exact ih (p x) (lt_of_le_of_ne (hp x) hx)

theorem rootOf_le (p : ℕ → ℕ) (hp : Pinv p) : ∀ x, rootOf p x ≤ x := by
  intro x
  induction x using Nat.strong_induction_on with
  | _ x ih =>
    by_cases hx : p x = x
    · rw [rootOf_of_fix p x hx]
    · rw [rootOf_parent p hp x hx]
      have hlt : p x < x := lt_of_le_of_ne (hp x) hx
      exact le_trans (ih (p x) hlt) (le_of_lt hlt)

theorem rootOf_pos (p : ℕ → ℕ) (hp : Pinv p) (hpos : ∀ z, 1 ≤ z → 1 ≤ p z) :
    ∀ x, 1 ≤ x → 1 ≤ rootOf p x := by
  intro x
  induction x using Nat.strong_induction_on with
  | _ x ih =>
    intro hx1
    by_cases hx : p x = x
    · rw [rootOf_of_fix p x hx]
      exact hx1
    · rw [rootOf_parent p hp x hx]
      exact ih (p x) (lt_of_le_of_ne (hp x) hx) (hpos x hx1)

/-- A path-halving write preserves every representative. -/
theorem rootOf_halve (p : ℕ → ℕ) (hp : Pinv p) (x : ℕ) (hx : p x ≠ x) :
    Pinv (Function.update p x (p (p x))) ∧
    ∀ y, rootOf (Function.update p x (p (p x))) y = rootOf p y := by
  have hpx : p x < x := lt_of_le_of_ne (hp x) hx
  have hppx : p (p x) ≤ p x := hp (p x)
  have hpinv : Pinv (Function.update p x (p (p x))) := by
    intro z
    by_cases hz : z = x
    · rw [hz, Function.update_same]
      omega
    · rw [Function.update_noteq hz]
      exact hp z
  refine ⟨hpinv, ?_⟩
  intro y
  induction y using Nat.strong_induction_on with
  | _ y ih =>
    by_cases hyx : y = x
    · subst hyx
      have hgp_lt : p (p y) < y := lt_of_le_of_lt hppx hpx
      have hup : Function.update p y (p (p y)) y = p (p y) := Function.update_same _ _ _
      have hne2 : Function.update p y (p (p y)) y ≠ y := by
        rw [hup]
        omega
      rw [rootOf_parent _ hpinv y hne2, hup, ih (p (p y)) hgp_lt]
      have hchain : rootOf p (p (p y)) = rootOf p (p y) := by
        by_cases hfix : p (p y) = p y
        · rw [hfix]
        · exact (rootOf_parent p hp (p y) hfix).symm
      rw [hchain, ← rootOf_parent p hp y hx]
    · have hpy : Function.update p x (p (p x)) y = p y := Function.update_noteq hyx _ _
      by_cases hfix : p y = y
      · rw [rootOf_of_fix p y hfix, rootOf_of_fix _ y (by rw [hpy, hfix])]
      · have hne2 : Function.update p x (p (p x)) y ≠ y := by
          rw [hpy]
          exact hfix
        rw [rootOf_parent _ hpinv y hne2, hpy,
          ih (p y) (lt_of_le_of_ne (hp y) hfix), ← rootOf_parent p hp y hfix]

/-- Specification of `gsRoot`: returns the pure representative of `x`, and the
halved parent table keeps the invariant and every representative. -/
theorem gsRootAux_spec : ∀ fuel (p : ℕ → ℕ) x, Pinv p → x < fuel →
    (gsRootAux fuel p x).1 = rootOf p x ∧
    Pinv (gsRootAux fuel p x).2 ∧
    ∀ y, rootOf (gsRootAux fuel p x).2 y = rootOf p y := by
  intro fuel
  induction fuel with
  | zero =>
    intro p x hp hf
    omega
  | succ fuel ih =>
    intro p x hp hf
    by_cases hx : p x = x
    · simp only [gsRootAux, if_pos hx]
      refine ⟨(rootOf_of_fix p x hx).symm, hp, ?_⟩
      intro y
      trivial
    · simp only [gsRootAux, if_neg hx]
      obtain ⟨hpinv2, hroots2⟩ := rootOf_halve p hp x hx
      have hgp_lt : p (p x) < x := lt_of_le_of_lt (hp (p x)) (lt_of_le_of_ne (hp x) hx)
      obtain ⟨h1, h2, h3⟩ := ih (Function.update p x (p (p x))) (p (p x)) hpinv2 (by omega)
      refine ⟨?_, h2, ?_⟩
      · rw [h1, hroots2]
        have hchain : rootOf p (p (p x)) = rootOf p (p x) := by
          by_cases hfix : p (p x) = p x
          · rw [hfix]
          · exact (rootOf_parent p hp (p x) hfix).symm
        rw [hchain, ← rootOf_parent p hp x hx]
      · intro y
        rw [h3 y, hroots2 y]

theorem gsRoot_spec (p : ℕ → ℕ) (x : ℕ) (hp : Pinv p) :
    (gsRoot p x).1 = rootOf p x ∧ Pinv (gsRoot p x).2 ∧
    ∀ y, rootOf (gsRoot p x).2 y = rootOf p y :=
  gsRootAux_spec (x + 1) p x hp (by omega)

/-- Union step `parents[max r1 r2] = min r1 r2` for two distinct roots: the
invariant is kept and every representative is redirected through the merge. -/
theorem rootOf_union (p : ℕ → ℕ) (hp : Pinv p) (r1 r2 : ℕ)
    (h1 : p r1 = r1) (h2 : p r2 = r2) (hne : r1 ≠ r2) :
    Pinv (Function.update p (max r1 r2) (min r1 r2)) ∧
    ∀ y, rootOf (Function.update p (max r1 r2) (min r1 r2)) y =
      if rootOf p y = max r1 r2 then min r1 r2 else rootOf p y := by
  have hminmax : min r1 r2 < max r1 r2 := by
    rcases Nat.lt_or_ge r1 r2 with h | h
    · rw [min_eq_left (le_of_lt h), max_eq_right (le_of_lt h)]
      exact h
    · have : r2 < r1 := by omega
      rw [min_eq_right (le_of_lt this), max_eq_left (le_of_lt this)]
      exact this
  have hmaxfix : p (max r1 r2) = max r1 r2 := by
    rcases Nat.lt_or_ge r1 r2 with h | h
    · rw [max_eq_right (le_of_lt h)]
      exact h2
    · rw [max_eq_left h]
      exact h1
  have hminfix : p (min r1 r2) = min r1 r2 := by
    rcases Nat.lt_or_ge r1 r2 with h | h
    · rw [min_eq_left (le_of_lt h)]
      exact h1
    · rw [min_eq_right h]
      exact h2
  have hpinv : Pinv (Function.update p (max r1 r2) (min r1 r2)) := by
    intro z
    by_cases hz : z = max r1 r2
    · rw [hz, Function.update_same]
      omega
    · rw [Function.update_noteq hz]
      exact hp z
  refine ⟨hpinv, ?_⟩
  intro y
  induction y using Nat.strong_induction_on with
  | _ y ih =>
    by_cases hyM : y = max r1 r2
    · have hupd : Function.update p (max r1 r2) (min r1 r2) y = min r1 r2 := by
        rw [hyM, Function.update_same]
      have hne2 : Function.update p (max r1 r2) (min r1 r2) y ≠ y := by
        rw [hupd, hyM]
        omega
      have hmlt : min r1 r2 < y := by
        rw [hyM]
        exact hminmax
      rw [rootOf_parent _ hpinv y hne2, hupd, ih (min r1 r2) hmlt]
      have hrmin : rootOf p (min r1 r2) = min r1 r2 := rootOf_of_fix p _ hminfix
      have hrmax : rootOf p y = y := by
        rw [hyM]
        exact rootOf_of_fix p _ hmaxfix
      rw [hrmin, if_neg (by omega : ¬ min r1 r2 = max r1 r2), hrmax, if_pos hyM]
    · have hpy : Function.update p (max r1 r2) (min r1 r2) y = p y :=
        Function.update_noteq hyM _ _
      by_cases hfix : p y = y
      · rw [rootOf_of_fix p y hfix, rootOf_of_fix _ y (by rw [hpy, hfix]),
          if_neg hyM]
      · have hne2 : Function.update p (max r1 r2) (min r1 r2) y ≠ y := by
          rw [hpy]
          exact hfix
        rw [rootOf_parent _ hpinv y hne2, hpy,
          ih (p y) (lt_of_le_of_ne (hp y) hfix), ← rootOf_parent p hp y hfix]

/-- `struct gs_rect`. -/
structure GsRect where
  x : ℕ
  y : ℕ
  w : ℕ
  h : ℕ
deriving DecidableEq

/-- `struct gs_point` (blob centroid). -/
structure BPoint where
  x : ℕ
  y : ℕ
deriving DecidableEq

/-- `struct gs_blob`. -/
structure GsBlob where
  label : ℕ
  area : ℕ
  box : GsRect
  centroid : BPoint
deriving DecidableEq

/-- The mutable state of `gs_blobs`: label grid, union-find table, blob array,
centroid accumulators, and the next fresh label.  In C the label type is
`uint16_t`; the ℕ model is faithful whenever `nblobs ≤ 65534`, so `next ≤
65535` never wraps (theorems below carry that hypothesis). -/
structure BlobState where
  labels : ℕ → ℕ
  parents : ℕ → ℕ
  blobs : ℕ → GsBlob
  cx : ℕ → ℕ
  cy : ℕ → ℕ
  next : ℕ

/-- State after the initialization loops of `gs_blobs`:
labels zeroed, `blobs[i] = {0, 0, {UINT_MAX, UINT_MAX, 0, 0}, {0, 0}}`,
`parents[i] = i`, `next = 1`. -/
def blobInit : BlobState where
  labels := fun _ => 0
  parents := fun i => i
  blobs := fun _ => ⟨0, 0, ⟨4294967295, 4294967295, 0, 0⟩, ⟨0, 0⟩⟩
  cx := fun _ => 0
  cy := fun _ => 0
  next := 1

/-- `(x > 0) ? labels[y*w + (x-1)] : 0` at flat index `i = y*w + x`. -/
def leftLabel (st : BlobState) (w i : ℕ) : ℕ :=
  if i % w ≠ 0 then st.labels (i - 1) else 0

/-- `(y > 0) ? labels[(y-1)*w + x] : 0` at flat index `i = y*w + x`. -/
def topLabel (st : BlobState) (w i : ℕ) : ℕ :=
  if w ≤ i then st.labels (i - w) else 0

/-- 4-connectivity label choice:
`left && top ? GS_MIN(left, top) : (left ? left : (top ? top : 0))`. -/
def pickLabel (left top : ℕ) : ℕ :=
  if left ≠ 0 ∧ top ≠ 0 then min left top
  else if left ≠ 0 then left else top

/-- New-component branch: skip when out of labels, else initialize
`blobs[next-1]`, the centroid accumulators, and write the fresh label. -/
def blobNew (st : BlobState) (x y i nblobs : ℕ) : BlobState :=
  if nblobs < st.next then st
  else
    { st with
      blobs := Function.update st.blobs (st.next - 1)
        ⟨st.next, 1, ⟨x, y, x, y⟩, ⟨x, y⟩⟩,
      cx := Function.update st.cx (st.next - 1) x,
      cy := Function.update st.cy (st.next - 1) y,
      labels := Function.update st.labels i st.next,
      next := st.next + 1 }

/-- Existing-component branch (before the union): write label `n`, bump the
blob's accumulators and bounding box. -/
def blobAdopt (st : BlobState) (x y i n : ℕ) : BlobState :=
  let b := st.blobs (n - 1)
  { st with
    labels := Function.update st.labels i n,
    blobs := Function.update st.blobs (n - 1)
      ⟨b.label, b.area + 1,
        ⟨min x b.box.x, min y b.box.y, max x b.box.w, max y b.box.h⟩,
        b.centroid⟩,
    cx := Function.update st.cx (n - 1) (st.cx (n - 1) + x),
    cy := Function.update st.cy (n - 1) (st.cy (n - 1) + y) }

/-- `if (left && top && left != top)` union of the two classes via two
path-compressing root lookups, attaching the larger root under the smaller. -/
def blobUnion (st : BlobState) (left top : ℕ) : BlobState :=
  if left ≠ 0 ∧ top ≠ 0 ∧ left ≠ top then
    let r1p := gsRoot st.parents left
    let r2p := gsRoot r1p.2 top
    if r1p.1 ≠ r2p.1 then
      { st with parents :=
          Function.update r2p.2 (max r1p.1 r2p.1) (min r1p.1 r2p.1) }
    else { st with parents := r2p.2 }
  else st

/-- One pixel of the first labeling pass of `gs_blobs`, at flat index
`i = y*w + x`: skip background (`< 128`), read left/top labels, adopt the
smallest or allocate a fresh label (silently skipping when out of capacity),
update the adopted blob's accumulators, and union distinct left/top labels. -/
def blobStep (img : ℕ → ℕ) (w nblobs : ℕ) (st : BlobState) (i : ℕ) :
    BlobState :=
  if img i < 128 then st
  else
    let left := leftLabel st w i
    let top := topLabel st w i
    let n := pickLabel left top
    if n = 0 then blobNew st (i % w) (i / w) i nblobs
    else blobUnion (blobAdopt st (i % w) (i / w) i n) left top

/-- The first labeling pass over the whole grid in raster order. -/
def blobScan (img : ℕ → ℕ) (w h nblobs : ℕ) : BlobState :=
  (List.range (w * h)).foldl (blobStep img w nblobs) blobInit

/-- One step of the `// merge blobs` loop at array index `i` (provisional
label `i + 1`): find the root of the blob's label (with path compression), and
if the blob is not its own root, fold its area, bounding box and centroid sums
into the root blob and zero its area.  (In reachable states
`blobs[i].label = i+1`, so on a merge the root index differs from `i` and
the two writes do not alias, matching the C pointer code.) -/
def mergeStep (st : BlobState) (i : ℕ) : BlobState :=
  let rp := gsRoot st.parents ((st.blobs i).label)
  let st1 := { st with parents := rp.2 }
  if rp.1 ≠ (st1.blobs i).label then
    let br := st1.blobs (rp.1 - 1)
    let bi := st1.blobs i
    { st1 with
      blobs := Function.update
        (Function.update st1.blobs (rp.1 - 1)
          ⟨br.label, br.area + bi.area,
            ⟨min br.box.x bi.box.x, min br.box.y bi.box.y,
             max br.box.w bi.box.w, max br.box.h bi.box.h⟩,
            br.centroid⟩)
        i ⟨bi.label, 0, bi.box, bi.centroid⟩,
      cx := Function.update st1.cx (rp.1 - 1) (st1.cx (rp.1 - 1) + st1.cx i),
      cy := Function.update st1.cy (rp.1 - 1) (st1.cy (rp.1 - 1) + st1.cy i) }
  else st1

/-- One pixel of the second pass: resolve a nonzero label to its class
representative (with path compression). -/
def relabelStep (st : BlobState) (i : ℕ) : BlobState :=
  if st.labels i ≠ 0 then
    let rp := gsRoot st.parents (st.labels i)
    { st with labels := Function.update st.labels i rp.1, parents := rp.2 }
  else st

/-- One step of the `// compact blobs` loop: skip empty blobs, fix the
bounding box from its stored bottom-right point to width/height, compute the
centroid, and append.  (ℕ subtraction matches the C unsigned subtraction
because a surviving blob's stored `box.w` is the max x of its pixels,
at least `box.x`.) -/
def compactStep (st : BlobState) (acc : List GsBlob) (i : ℕ) : List GsBlob :=
  let b := st.blobs i
  if b.area = 0 then acc
  else acc ++ [⟨b.label, b.area,
    ⟨b.box.x, b.box.y, b.box.w - b.box.x + 1, b.box.h - b.box.y + 1⟩,
    ⟨st.cx i / b.area, st.cy i / b.area⟩⟩]

/-- Result of `gs_blobs`: the return value `m`, the output label grid, and the
compacted prefix `blobs[0..m-1]` of the caller's blob array. -/
structure BlobResult where
  count : ℕ
  labels : ℕ → ℕ
  blobs : List GsBlob

/-- `gs_blobs`: first labeling pass, merge pass over provisional labels,
second relabeling pass, compaction. -/
def gs_blobs (img : GsImage) (nblobs : ℕ) : BlobResult :=
  let st1 := blobScan img.data img.w img.h nblobs
  let st2 := (List.range (st1.next - 1)).foldl mergeStep st1
  let st3 := (List.range (img.w * img.h)).foldl relabelStep st2
  let bl := (List.range (st3.next - 1)).foldl (compactStep st3) []
  ⟨bl.length, st3.labels, bl⟩

/-- Number of grid cells among the first `N` carrying label `l`. -/
def labelCount (labels : ℕ → ℕ) (N l : ℕ) : ℕ :=
  (List.range N).countP (fun i => decide (labels i = l))

/-- Number of labeled (nonzero) grid cells among the first `N`. -/
def labeledCount (labels : ℕ → ℕ) (N : ℕ) : ℕ :=
  (List.range N).countP (fun i => decide (labels i ≠ 0))

theorem countP_range_succ (P : ℕ → Bool) (N : ℕ) :
    (List.range (N + 1)).countP P =
      (List.range N).countP P + if P N then 1 else 0 := by
  rw [List.range_succ, List.countP_append]
  simp [List.countP_cons]

theorem labelCount_update_other (labels : ℕ → ℕ) (N j v l : ℕ)
    (hold : labels j ≠ l) (hv : v ≠ l) :
    labelCount (Function.update labels j v) N l = labelCount labels N l := by
  unfold labelCount
  induction N with
  | zero => rfl
  | succ N ih =>
    rw [countP_range_succ, countP_range_succ, ih]
    by_cases hj : N = j
    · subst hj
      rw [Function.update_same]
      simp [hv, hold]
    · rw [Function.update_noteq hj]

theorem labelCount_update_new (labels : ℕ → ℕ) (N j v l : ℕ) (hj : j < N)
    (hold : labels j ≠ l) (hv : v = l) :
    labelCount (Function.update labels j v) N l = labelCount labels N l + 1 := by
  unfold labelCount
  induction N with
  | zero => omega
  | succ N ih =>
    rw [countP_range_succ, countP_range_succ]
    by_cases hjN : j = N
    · subst hjN
      rw [Function.update_same]
      have hsame : (List.range j).countP
          (fun i => decide (Function.update labels j v i = l)) =
          (List.range j).countP (fun i => decide (labels i = l)) := by
        apply List.countP_congr
        intro i hi
        rw [List.mem_range] at hi
        rw [Function.update_noteq (by omega)]
      rw [hsame]
      simp [hv, hold]
    · have hj2 : j < N := by omega
      rw [ih hj2, Function.update_noteq (fun h => hjN h.symm)]
      ring

theorem labelCount_eq_zero (labels : ℕ → ℕ) (N l : ℕ)
    (h : ∀ i, i < N → labels i ≠ l) : labelCount labels N l = 0 := by
  unfold labelCount
  rw [List.countP_eq_zero]
  intro i hi
  rw [List.mem_range] at hi
  simp [h i hi]

/-- Partition of a counted predicate over the (bounded) values of `f`. -/
theorem countP_comp_partition (f : ℕ → ℕ) (N M : ℕ)
    (hf : ∀ i, i < N → f i < M) (P : ℕ → Bool) :
    (List.range N).countP (fun i => P (f i)) =
      ∑ t ∈ Finset.range M, if P t then labelCount f N t else 0 := by
  induction N with
  | zero =>
    simp [labelCount]
  | succ N ih =>
    have hf2 : ∀ i, i < N → f i < M := fun i hi => hf i (by omega)
    rw [countP_range_succ, ih hf2]
    have hcnt : ∀ t, labelCount f (N + 1) t =
        labelCount f N t + if f N = t then 1 else 0 := by
      intro t
      unfold labelCount
      rw [countP_range_succ]
      by_cases ht : f N = t
      · simp [ht]
      · simp [ht]
    have hsplit : ∑ t ∈ Finset.range M, (if P t then labelCount f (N + 1) t else 0) =
        (∑ t ∈ Finset.range M, if P t then labelCount f N t else 0) +
        ∑ t ∈ Finset.range M, (if P t then (if f N = t then 1 else 0) else 0) := by
      rw [← Finset.sum_add_distrib]
      apply Finset.sum_congr rfl
      intro t ht
      rw [hcnt t]
      by_cases hp : P t
      · rw [if_pos hp, if_pos hp, if_pos hp]
      · rw [if_neg hp, if_neg hp, if_neg hp]
    rw [hsplit]
    congr 1
    have hcong : ∀ t ∈ Finset.range M, (if P t then (if f N = t then 1 else 0) else 0) =
        if t = f N then (if P (f N) then 1 else 0) else 0 := by
      intro t ht
      by_cases hft : t = f N
      · subst hft
        rw [if_pos rfl, if_pos rfl]
      · rw [if_neg hft]
        by_cases hp : P t
        · rw [if_pos hp, if_neg (fun h => hft h.symm)]
        · rw [if_neg hp]
    rw [Finset.sum_congr rfl hcong,
      Finset.sum_ite_eq' (Finset.range M) (f N) (fun _ => if P (f N) then 1 else 0)]
    rw [if_pos (Finset.mem_range.mpr (hf N (by omega)))]

/-- Invariant of the first labeling pass after the first `k` pixels. -/
structure ScanInv (img : ℕ → ℕ) (w N nblobs k : ℕ) (st : BlobState) : Prop where
  next_ge : 1 ≤ st.next
  next_le : st.next ≤ nblobs + 1
  labels_hi : ∀ i, k ≤ i → st.labels i = 0
  labels_lt : ∀ i, st.labels i < st.next
  labels_fg : ∀ i, st.labels i ≠ 0 → 128 ≤ img i
  par_le : Pinv st.parents
  par_pos : ∀ z, 1 ≤ z → 1 ≤ st.parents z
  par_hi : ∀ z, st.next ≤ z → st.parents z = z
  blob_label : ∀ l, 1 ≤ l → l < st.next → (st.blobs (l - 1)).label = l
  blob_area : ∀ l, 1 ≤ l → l < st.next →
      (st.blobs (l - 1)).area = labelCount st.labels N l
  label_ex : ∀ l, 1 ≤ l → l < st.next → ∃ i, i < k ∧ st.labels i = l
  adj_left : ∀ i, i < k → i % w ≠ 0 → st.labels i ≠ 0 → st.labels (i - 1) ≠ 0 →
      rootOf st.parents (st.labels i) = rootOf st.parents (st.labels (i - 1))
  adj_top : ∀ i, i < k → w ≤ i → st.labels i ≠ 0 → st.labels (i - w) ≠ 0 →
      rootOf st.parents (st.labels i) = rootOf st.parents (st.labels (i - w))

theorem scanInv_init (img : ℕ → ℕ) (w N nblobs : ℕ) :
    ScanInv img w N nblobs 0 blobInit := by
  have hnext : blobInit.next = 1 := rfl
  refine ⟨le_rfl, ?_, fun i _ => rfl, fun i => Nat.zero_lt_one, ?_, fun z => le_rfl,
    fun z hz => hz, fun z _ => rfl, ?_, ?_, ?_, ?_, ?_⟩
  · rw [hnext]
    omega
  · intro i hi
    exact absurd rfl hi
  · intro l hl1 hl2
    rw [hnext] at hl2
    omega
  · intro l hl1 hl2
    rw [hnext] at hl2
    omega
  · intro l hl1 hl2
    rw [hnext] at hl2
    omega
  · intro i hi
    omega
  · intro i hi
    omega

/-- Path halving also preserves positivity of parents, the identity above any
bound, and all fixpoints. -/
theorem gsRootAux_pres (B : ℕ) : ∀ fuel (p : ℕ → ℕ) x, Pinv p →
    (∀ z, 1 ≤ z → 1 ≤ p z) → (∀ z, B ≤ z → p z = z) →
    (∀ z, 1 ≤ z → 1 ≤ (gsRootAux fuel p x).2 z) ∧
    (∀ z, B ≤ z → (gsRootAux fuel p x).2 z = z) ∧
    (∀ z, p z = z → (gsRootAux fuel p x).2 z = z) := by
  intro fuel
  induction fuel with
  | zero =>
    intro p x hp hpos hhi
    exact ⟨hpos, hhi, fun z hz => hz⟩
  | succ fuel ih =>
    intro p x hp hpos hhi
    by_cases hx : p x = x
    · simp only [gsRootAux, if_pos hx]
      exact ⟨hpos, hhi, fun z hz => hz⟩
    · simp only [gsRootAux, if_neg hx]
      have hx1 : 1 ≤ x := by
        rcases Nat.eq_zero_or_pos x with h0 | h1
        · exfalso
          apply hx
          have := hp x
          omega
        · exact h1
      have hpinv2 := (rootOf_halve p hp x hx).1
      have hpos2 : ∀ z, 1 ≤ z → 1 ≤ Function.update p x (p (p x)) z := by
        intro z hz
        by_cases hzx : z = x
        · rw [hzx, Function.update_same]
          exact hpos (p x) (hpos x hx1)
        · rw [Function.update_noteq hzx]
          exact hpos z hz
      have hhi2 : ∀ z, B ≤ z → Function.update p x (p (p x)) z = z := by
        intro z hz
        by_cases hzx : z = x
        · exfalso
          rw [hzx] at hz
          exact hx (hhi x hz)
        · rw [Function.update_noteq hzx]
          exact hhi z hz
      obtain ⟨i1, i2, i3⟩ := ih (Function.update p x (p (p x))) (p (p x)) hpinv2 hpos2 hhi2
      refine ⟨i1, i2, ?_⟩
      intro z hz
      apply i3
      by_cases hzx : z = x
      · exfalso
        rw [hzx] at hz
        exact hx hz
      · rw [Function.update_noteq hzx]
        exact hz

/-- Effect of `blobUnion` on the state: every non-parent field is unchanged,
the parent-table invariants survive, existing root equalities survive, and
afterwards the (nonzero) left and top labels share a root. -/
theorem blobUnion_spec (st : BlobState) (left top B : ℕ)
    (hp : Pinv st.parents) (hpos : ∀ z, 1 ≤ z → 1 ≤ st.parents z)
    (hhi : ∀ z, B ≤ z → st.parents z = z) (hl : left < B) (ht : top < B) :
    (blobUnion st left top).labels = st.labels ∧
    (blobUnion st left top).blobs = st.blobs ∧
    (blobUnion st left top).cx = st.cx ∧
    (blobUnion st left top).cy = st.cy ∧
    (blobUnion st left top).next = st.next ∧
    Pinv (blobUnion st left top).parents ∧
    (∀ z, 1 ≤ z → 1 ≤ (blobUnion st left top).parents z) ∧
    (∀ z, B ≤ z → (blobUnion st left top).parents z = z) ∧
    (∀ a b, rootOf st.parents a = rootOf st.parents b →
      rootOf (blobUnion st left top).parents a =
        rootOf (blobUnion st left top).parents b) ∧
    (left ≠ 0 → top ≠ 0 →
      rootOf (blobUnion st left top).parents left =
        rootOf (blobUnion st left top).parents top) := by
  by_cases hcond : left ≠ 0 ∧ top ≠ 0 ∧ left ≠ top
  · obtain ⟨hl0, ht0, hlt⟩ := hcond
    have hs1 := gsRoot_spec st.parents left hp
    obtain ⟨hr1, hp1, hroots1⟩ := hs1
    have hpres1 := gsRootAux_pres B (left + 1) st.parents left hp hpos hhi
    obtain ⟨hpos1, hhi1, hfix1⟩ := hpres1
    have hs2 := gsRoot_spec (gsRoot st.parents left).2 top hp1
    obtain ⟨hr2, hp2, hroots2⟩ := hs2
    have hpres2 := gsRootAux_pres B (top + 1) (gsRoot st.parents left).2 top hp1
      hpos1 hhi1
    obtain ⟨hpos2, hhi2, hfix2⟩ := hpres2
    set p0 := st.parents with hp0def
    set p1 := (gsRoot p0 left).2 with hp1def
    set p2 := (gsRoot p1 top).2 with hp2def
    set r1 := (gsRoot p0 left).1 with hr1def
    set r2 := (gsRoot p1 top).1 with hr2def
    have hr1v : r1 = rootOf p0 left := hr1
    have hr2v : r2 = rootOf p0 top := by
      rw [hr2]
      exact hroots1 top
    -- r1 and r2 are fixpoints of p2
    have hfix_r1_p0 : p0 r1 = r1 := by
      rw [hr1v]
      exact rootOf_is_fix p0 hp left
    have hfix_r2_p0 : p0 r2 = r2 := by
      rw [hr2v]
      exact rootOf_is_fix p0 hp top
    have hfix_r1 : p2 r1 = r1 := hfix2 r1 (hfix1 r1 hfix_r1_p0)
    have hfix_r2 : p2 r2 = r2 := hfix2 r2 (hfix1 r2 hfix_r2_p0)
    have hroots12 : ∀ y, rootOf p2 y = rootOf p0 y := by
      intro y
      rw [hroots2 y, hroots1 y]
    have hr1le : r1 < B := by
      rw [hr1v]
      exact lt_of_le_of_lt (rootOf_le p0 hp left) hl
    have hr2le : r2 < B := by
      rw [hr2v]
      exact lt_of_le_of_lt (rootOf_le p0 hp top) ht
    have hr1pos : 1 ≤ r1 := by
      rw [hr1v]
      exact rootOf_pos p0 hp hpos left (Nat.one_le_iff_ne_zero.mpr hl0)
    have hr2pos : 1 ≤ r2 := by
      rw [hr2v]
      exact rootOf_pos p0 hp hpos top (Nat.one_le_iff_ne_zero.mpr ht0)
    have hstep : blobUnion st left top =
        if r1 ≠ r2 then
          { st with parents := Function.update p2 (max r1 r2) (min r1 r2) }
        else { st with parents := p2 } := by
      unfold blobUnion
      rw [if_pos ⟨hl0, ht0, hlt⟩]
    by_cases hrne : r1 ≠ r2
    · rw [hstep, if_pos hrne]
      obtain ⟨hp3, hmap⟩ := rootOf_union p2 hp2 r1 r2 hfix_r1 hfix_r2 hrne
      refine ⟨rfl, rfl, rfl, rfl, rfl, hp3, ?_, ?_, ?_, ?_⟩
      · intro z hz
        show 1 ≤ Function.update p2 (max r1 r2) (min r1 r2) z
        by_cases hzM : z = max r1 r2
        · rw [hzM, Function.update_same]
          exact le_min hr1pos hr2pos
        · rw [Function.update_noteq hzM]
          exact hpos2 z hz
      · intro z hz
        show Function.update p2 (max r1 r2) (min r1 r2) z = z
        by_cases hzM : z = max r1 r2
        · exfalso
          have : max r1 r2 < B := by
            rcases max_choice r1 r2 with h | h <;> omega
          omega
        · rw [Function.update_noteq hzM]
          exact hhi2 z hz
      · intro a b hab
        show rootOf (Function.update p2 (max r1 r2) (min r1 r2)) a =
          rootOf (Function.update p2 (max r1 r2) (min r1 r2)) b
        rw [hmap a, hmap b, hroots12 a, hroots12 b, hab]
      · intro _ _
        show rootOf (Function.update p2 (max r1 r2) (min r1 r2)) left =
          rootOf (Function.update p2 (max r1 r2) (min r1 r2)) top
        rw [hmap left, hmap top, hroots12 left, hroots12 top, ← hr1v, ← hr2v]
        rcases Nat.lt_or_ge r1 r2 with h | h
        · rw [max_eq_right (le_of_lt h), min_eq_left (le_of_lt h)]
          rw [if_neg (by omega), if_pos rfl]
        · have h2 : r2 < r1 := by omega
          rw [max_eq_left (le_of_lt h2), min_eq_right (le_of_lt h2)]
          rw [if_pos rfl, if_neg (by omega)]
    · rw [hstep, if_neg hrne]
      push_neg at hrne
      refine ⟨rfl, rfl, rfl, rfl, rfl, hp2, hpos2, hhi2, ?_, ?_⟩
      · intro a b hab
        show rootOf p2 a = rootOf p2 b
        rw [hroots12 a, hroots12 b, hab]
      · intro _ _
        show rootOf p2 left = rootOf p2 top
        rw [hroots12 left, hroots12 top, ← hr1v, ← hr2v]
        exact hrne
  · have hstep : blobUnion st left top = st := by
      unfold blobUnion
      rw [if_neg hcond]
    rw [hstep]
    refine ⟨rfl, rfl, rfl, rfl, rfl, hp, hpos, hhi, fun a b hab => hab, ?_⟩
    intro hl0 ht0
    push_neg at hcond
    rw [hcond hl0 ht0]

theorem foldl_range_succ {β : Type} (f : β → ℕ → β) (init : β) (n : ℕ) :
    (List.range (n + 1)).foldl f init = f ((List.range n).foldl f init) n := by
  rw [List.range_succ, List.foldl_append, List.foldl_cons, List.foldl_nil]

/-- A pixel that leaves the state unchanged and unlabeled extends the scan
invariant by one position. -/
theorem scanInv_extend {img : ℕ → ℕ} {w N nblobs k : ℕ} {st : BlobState}
    (hinv : ScanInv img w N nblobs k st) (hlab0 : st.labels k = 0) :
    ScanInv img w N nblobs (k + 1) st := by
  obtain ⟨h1, h2, h3, h4, h5, h6, h7, h8, h9, h10, h11, h12, h13⟩ := hinv
  refine ⟨h1, h2, ?_, h4, h5, h6, h7, h8, h9, h10, ?_, ?_, ?_⟩
  · intro i hi
    exact h3 i (by omega)
  · intro l hl1 hl2
    obtain ⟨i, hik, hil⟩ := h11 l hl1 hl2
    exact ⟨i, by omega, hil⟩
  · intro i hik hw hi hi1
    rcases Nat.lt_succ_iff_lt_or_eq.mp hik with hik | hik
    · exact h12 i hik hw hi hi1
    · rw [hik] at hi
      exact absurd hlab0 hi
  · intro i hik hw hi hiw
    rcases Nat.lt_succ_iff_lt_or_eq.mp hik with hik | hik
    · exact h13 i hik hw hi hiw
    · rw [hik] at hi
      exact absurd hlab0 hi

theorem scanInv_step (img : ℕ → ℕ) (w N nblobs k : ℕ) (st : BlobState)
    (hw0 : 0 < w) (hinv : ScanInv img w N nblobs k st) (hk : k < N) :
    ScanInv img w N nblobs (k + 1) (blobStep img w nblobs st k) := by
  have hlabk : st.labels k = 0 := hinv.labels_hi k le_rfl
  by_cases hbg : img k < 128
  · rw [show blobStep img w nblobs st k = st from by
      unfold blobStep
      rw [if_pos hbg]]
    exact scanInv_extend hinv hlabk
  · have hfg : 128 ≤ img k := by omega
    have hstep : blobStep img w nblobs st k =
        (if pickLabel (leftLabel st w k) (topLabel st w k) = 0 then
          blobNew st (k % w) (k / w) k nblobs
        else blobUnion (blobAdopt st (k % w) (k / w) k
          (pickLabel (leftLabel st w k) (topLabel st w k)))
          (leftLabel st w k) (topLabel st w k)) := by
      unfold blobStep
      rw [if_neg hbg]
    rw [hstep]
    set L := leftLabel st w k with hLdef
    set T := topLabel st w k with hTdef
    have hLlt : L < st.next := by
      rw [hLdef]
      unfold leftLabel
      by_cases h : k % w ≠ 0
      · rw [if_pos h]
        exact hinv.labels_lt _
      · rw [if_neg h]
        exact hinv.next_ge
    have hTlt : T < st.next := by
      rw [hTdef]
      unfold topLabel
      by_cases h : w ≤ k
      · rw [if_pos h]
        exact hinv.labels_lt _
      · rw [if_neg h]
        exact hinv.next_ge
    have hLval : k % w ≠ 0 → L = st.labels (k - 1) := by
      intro h
      rw [hLdef]
      unfold leftLabel
      rw [if_pos h]
    have hTval : w ≤ k → T = st.labels (k - w) := by
      intro h
      rw [hTdef]
      unfold topLabel
      rw [if_pos h]
    by_cases hn : pickLabel L T = 0
    · rw [if_pos hn]
      have hLT0 : L = 0 ∧ T = 0 := by
        unfold pickLabel at hn
        by_cases h1 : L ≠ 0 ∧ T ≠ 0
        · rw [if_pos h1] at hn
          have := lt_min (Nat.pos_of_ne_zero h1.1) (Nat.pos_of_ne_zero h1.2)
          omega
        · rw [if_neg h1] at hn
          by_cases h2 : L ≠ 0
          · rw [if_pos h2] at hn
            exact absurd hn h2
          · rw [if_neg h2] at hn
            push_neg at h2
            exact ⟨h2, hn⟩
      unfold blobNew
      by_cases hcap : nblobs < st.next
      · rw [if_pos hcap]
        exact scanInv_extend hinv hlabk
      · rw [if_neg hcap]
        push_neg at hcap
        have hnext1 : 1 ≤ st.next := hinv.next_ge
        refine ⟨?_, ?_, ?_, ?_, ?_, hinv.par_le, hinv.par_pos, ?_, ?_, ?_, ?_, ?_, ?_⟩
        · show 1 ≤ st.next + 1
          omega
        · show st.next + 1 ≤ nblobs + 1
          omega
        · intro i hi
          show Function.update st.labels k st.next i = 0
          rw [Function.update_noteq (by omega)]
          exact hinv.labels_hi i (by omega)
        · intro i
          show Function.update st.labels k st.next i < st.next + 1
          by_cases hik : i = k
          · rw [hik, Function.update_same]
            omega
          · rw [Function.update_noteq hik]
            have := hinv.labels_lt i
            omega
        · intro i hi
          show 128 ≤ img i
          by_cases hik : i = k
          · rw [hik]
            exact hfg
          · apply hinv.labels_fg
            show st.labels i ≠ 0
            have : Function.update st.labels k st.next i ≠ 0 := hi
            rw [Function.update_noteq hik] at this
            exact this
        · intro z hz
          apply hinv.par_hi
          show st.next ≤ z
          have : st.next + 1 ≤ z := hz
          omega
        · intro l hl1 hl2
          show (Function.update st.blobs (st.next - 1)
            ⟨st.next, 1, ⟨k % w, k / w, k % w, k / w⟩, ⟨k % w, k / w⟩⟩ (l - 1)).label = l
          have hl2' : l < st.next + 1 := hl2
          by_cases hleq : l = st.next
          · rw [hleq, Function.update_same]
          · rw [Function.update_noteq (by omega)]
            exact hinv.blob_label l hl1 (by omega)
        · intro l hl1 hl2
          show (Function.update st.blobs (st.next - 1)
            ⟨st.next, 1, ⟨k % w, k / w, k % w, k / w⟩, ⟨k % w, k / w⟩⟩ (l - 1)).area =
            labelCount (Function.update st.labels k st.next) N l
          have hl2' : l < st.next + 1 := hl2
          by_cases hleq : l = st.next
          · rw [hleq, Function.update_same]
            rw [labelCount_update_new st.labels N k st.next st.next hk
              (by rw [hlabk]; omega) rfl]
            rw [labelCount_eq_zero st.labels N st.next
              (fun i _ => by have := hinv.labels_lt i; omega)]
          · rw [Function.update_noteq (by omega)]
            rw [labelCount_update_other st.labels N k st.next l
              (by rw [hlabk]; omega) (by omega)]
            exact hinv.blob_area l hl1 (by omega)
        · intro l hl1 hl2
          have hl2' : l < st.next + 1 := hl2
          by_cases hleq : l = st.next
          · refine ⟨k, by omega, ?_⟩
            show Function.update st.labels k st.next k = l
            rw [Function.update_same, hleq]
          · obtain ⟨i, hik, hil⟩ := hinv.label_ex l hl1 (by omega)
            refine ⟨i, by omega, ?_⟩
            show Function.update st.labels k st.next i = l
            rw [Function.update_noteq (by omega)]
            exact hil
        · intro i hik hw hi hi1
          have hi2 : Function.update st.labels k st.next i ≠ 0 := hi
          have hi3 : Function.update st.labels k st.next (i - 1) ≠ 0 := hi1
          show rootOf st.parents (Function.update st.labels k st.next i) =
            rootOf st.parents (Function.update st.labels k st.next (i - 1))
          rcases Nat.lt_succ_iff_lt_or_eq.mp hik with hik | hik
          · have e1 : Function.update st.labels k st.next i = st.labels i :=
              Function.update_noteq (by omega) _ _
            have e2 : Function.update st.labels k st.next (i - 1) = st.labels (i - 1) :=
              Function.update_noteq (by omega) _ _
            rw [e1] at hi2 ⊢
            rw [e2] at hi3 ⊢
            exact hinv.adj_left i hik hw hi2 hi3
          · exfalso
            have hk1 : 1 ≤ k := by
              rcases Nat.eq_zero_or_pos k with h0 | h1
              · rw [hik, h0] at hw
                simp at hw
              · exact h1
            have e2 : Function.update st.labels k st.next (i - 1) = st.labels (i - 1) :=
              Function.update_noteq (by omega) _ _
            rw [e2] at hi3
            apply hi3
            rw [hik, ← hLval (by rw [← hik]; exact hw)]
            exact hLT0.1
        · intro i hik hw hi hiw
          have hi2 : Function.update st.labels k st.next i ≠ 0 := hi
          have hi3 : Function.update st.labels k st.next (i - w) ≠ 0 := hiw
          show rootOf st.parents (Function.update st.labels k st.next i) =
            rootOf st.parents (Function.update st.labels k st.next (i - w))
          rcases Nat.lt_succ_iff_lt_or_eq.mp hik with hik | hik
          · have e1 : Function.update st.labels k st.next i = st.labels i :=
              Function.update_noteq (by omega) _ _
            have e2 : Function.update st.labels k st.next (i - w) = st.labels (i - w) :=
              Function.update_noteq (by omega) _ _
            rw [e1] at hi2 ⊢
            rw [e2] at hi3 ⊢
            exact hinv.adj_top i hik hw hi2 hi3
          · exfalso
            have hw1 : 1 ≤ w := hw0
            have e2 : Function.update st.labels k st.next (i - w) = st.labels (i - w) :=
              Function.update_noteq (by omega) _ _
            rw [e2] at hi3
            apply hi3
            rw [hik, ← hTval (by rw [← hik]; exact hw)]
            exact hLT0.2
    · rw [if_neg hn]
      set n := pickLabel L T with hndef
      have hn1 : 1 ≤ n := Nat.one_le_iff_ne_zero.mpr hn
      have hpick : (L ≠ 0 ∧ T ≠ 0 ∧ n = min L T) ∨ (T = 0 ∧ n = L) ∨
          (L = 0 ∧ n = T) := by
        rw [hndef]
        unfold pickLabel
        by_cases h1 : L ≠ 0 ∧ T ≠ 0
        · rw [if_pos h1]
          exact Or.inl ⟨h1.1, h1.2, rfl⟩
        · rw [if_neg h1]
          by_cases h2 : L ≠ 0
          · rw [if_pos h2]
            push_neg at h1
            exact Or.inr (Or.inl ⟨h1 h2, rfl⟩)
          · rw [if_neg h2]
            push_neg at h2
            exact Or.inr (Or.inr ⟨h2, rfl⟩)
      have hnlt : n < st.next := by
        rcases hpick with ⟨_, _, h⟩ | ⟨_, h⟩ | ⟨_, h⟩
        · rw [h]
          exact lt_of_le_of_lt (min_le_left L T) hLlt
        · rw [h]
          exact hLlt
        · rw [h]
          exact hTlt
      have hA_par : (blobAdopt st (k % w) (k / w) k n).parents = st.parents := rfl
      have hA_next : (blobAdopt st (k % w) (k / w) k n).next = st.next := rfl
      have hA_lab : (blobAdopt st (k % w) (k / w) k n).labels =
          Function.update st.labels k n := rfl
      have hA_blobs : (blobAdopt st (k % w) (k / w) k n).blobs =
          Function.update st.blobs (n - 1)
            ⟨(st.blobs (n - 1)).label, (st.blobs (n - 1)).area + 1,
              ⟨min (k % w) (st.blobs (n - 1)).box.x,
               min (k / w) (st.blobs (n - 1)).box.y,
               max (k % w) (st.blobs (n - 1)).box.w,
               max (k / w) (st.blobs (n - 1)).box.h⟩,
              (st.blobs (n - 1)).centroid⟩ := rfl
      obtain ⟨hbl, hbb, hbcx, hbcy, hbnext, hbpinv, hbpos, hbhi, hbpres, hbeq⟩ :=
        blobUnion_spec (blobAdopt st (k % w) (k / w) k n) L T st.next
          (by rw [hA_par]; exact hinv.par_le)
          (by rw [hA_par]; exact hinv.par_pos)
          (by rw [hA_par]; exact hinv.par_hi)
          hLlt hTlt
      rw [hA_par] at hbpres
      rw [hA_lab] at hbl
      rw [hA_next] at hbnext
      rw [hA_blobs] at hbb
      refine ⟨?_, ?_, ?_, ?_, ?_, hbpinv, hbpos, ?_, ?_, ?_, ?_, ?_, ?_⟩
      · rw [hbnext]
        exact hinv.next_ge
      · rw [hbnext]
        exact hinv.next_le
      · intro i hi
        rw [hbl, Function.update_noteq (by omega)]
        exact hinv.labels_hi i (by omega)
      · intro i
        rw [hbl, hbnext]
        by_cases hik : i = k
        · rw [hik, Function.update_same]
          exact hnlt
        · rw [Function.update_noteq hik]
          exact hinv.labels_lt i
      · intro i hi
        rw [hbl] at hi
        by_cases hik : i = k
        · rw [hik]
          exact hfg
        · rw [Function.update_noteq hik] at hi
          exact hinv.labels_fg i hi
      · intro z hz
        rw [hbnext] at hz
        exact hbhi z hz
      · intro l hl1 hl2
        rw [hbnext] at hl2
        rw [hbb]
        by_cases hleq : l = n
        · rw [hleq, Function.update_same]
          exact hinv.blob_label n hn1 hnlt
        · rw [Function.update_noteq (by omega)]
          exact hinv.blob_label l hl1 hl2
      · intro l hl1 hl2
        rw [hbnext] at hl2
        rw [hbb, hbl]
        by_cases hleq : l = n
        · subst hleq
          rw [Function.update_same]
          show (st.blobs (n - 1)).area + 1 =
            labelCount (Function.update st.labels k n) N n
          rw [labelCount_update_new st.labels N k n n hk
            (by rw [hlabk]; omega) rfl]
          rw [hinv.blob_area n hn1 hnlt]
        · rw [Function.update_noteq (by omega)]
          rw [labelCount_update_other st.labels N k n l
            (by rw [hlabk]; omega) (by omega)]
          exact hinv.blob_area l hl1 hl2
      · intro l hl1 hl2
        rw [hbnext] at hl2
        obtain ⟨i, hik, hil⟩ := hinv.label_ex l hl1 hl2
        refine ⟨i, by omega, ?_⟩
        rw [hbl, Function.update_noteq (by omega)]
        exact hil
      · intro i hik hw hi hi1
        rw [hbl] at hi hi1 ⊢
        rcases Nat.lt_succ_iff_lt_or_eq.mp hik with hik | hik
        · have e1 : Function.update st.labels k n i = st.labels i :=
            Function.update_noteq (by omega) _ _
          have e2 : Function.update st.labels k n (i - 1) = st.labels (i - 1) :=
            Function.update_noteq (by omega) _ _
          rw [e1] at hi ⊢
          rw [e2] at hi1 ⊢
          exact hbpres _ _ (hinv.adj_left i hik hw hi hi1)
        · subst hik
        -- adjacent to the left neighbor whose label is L
          have hk0 : i ≠ 0 := by
            intro h0
            rw [h0, Nat.zero_mod] at hw
            exact hw rfl
          have e1 : Function.update st.labels i n i = n :=
            Function.update_same _ _ _
          have e2 : Function.update st.labels i n (i - 1) = st.labels (i - 1) :=
            Function.update_noteq (by omega) _ _
          rw [e1]
          rw [e2] at hi1 ⊢
          have hLv : L = st.labels (i - 1) := hLval hw
          rw [← hLv] at hi1 ⊢
          rcases hpick with ⟨hL0, hT0, hmin⟩ | ⟨hT0, hnL⟩ | ⟨hL0, hnT⟩
          · rcases min_choice L T with hm | hm
            · rw [hmin, hm]
            · rw [hmin, hm]
              have h := (hbeq hL0 hT0).symm
              rw [hmin, hm] at h
              exact h
          · rw [hnL]
          · exact absurd hL0 hi1
      · intro i hik hw hi hiw
        rw [hbl] at hi hiw ⊢
        rcases Nat.lt_succ_iff_lt_or_eq.mp hik with hik | hik
        · have e1 : Function.update st.labels k n i = st.labels i :=
            Function.update_noteq (by omega) _ _
          have e2 : Function.update st.labels k n (i - w) = st.labels (i - w) :=
            Function.update_noteq (by omega) _ _
          rw [e1] at hi ⊢
          rw [e2] at hiw ⊢
          exact hbpres _ _ (hinv.adj_top i hik hw hi hiw)
        · subst hik
        -- adjacent to the top neighbor whose label is T
          have hw1 : 1 ≤ w := hw0
          have e1 : Function.update st.labels i n i = n :=
            Function.update_same _ _ _
          have e2 : Function.update st.labels i n (i - w) = st.labels (i - w) :=
            Function.update_noteq (by omega) _ _
          rw [e1]
          rw [e2] at hiw ⊢
          have hTv : T = st.labels (i - w) := hTval hw
          rw [← hTv] at hiw ⊢
          rcases hpick with ⟨hL0, hT0, hmin⟩ | ⟨hT0, hnL⟩ | ⟨hL0, hnT⟩
          · rcases min_choice L T with hm | hm
            · rw [hmin, hm]
              have h := hbeq hL0 hT0
              rw [hmin, hm] at h
              exact h
            · rw [hmin, hm]
          · exact absurd hT0 hiw
          · rw [hnT]

/-- The invariant holds after the whole first pass. -/
theorem blobScan_inv (img : ℕ → ℕ) (w h nblobs : ℕ) (hw0 : 0 < w) :
    ScanInv img w (w * h) nblobs (w * h) (blobScan img w h nblobs) := by
  unfold blobScan
  suffices H : ∀ k, k ≤ w * h → ScanInv img w (w * h) nblobs k
      ((List.range k).foldl (blobStep img w nblobs) blobInit) by
    exact H (w * h) le_rfl
  intro k
  induction k with
  | zero =>
    intro _
    exact scanInv_init img w (w * h) nblobs
  | succ k ih =>
    intro hk
    rw [foldl_range_succ]
    exact scanInv_step img w (w * h) nblobs k _ hw0 (ih (by omega)) (by omega)

/-- Invariant of the `// merge blobs` loop after processing the first `j`
blob array slots (provisional labels `1..j`), relative to the post-scan state
`st1`: merged-away classes are zeroed, every class representative has
accumulated the pixel counts of the classes already folded into it, and the
union-find roots are unchanged (the loop only path-compresses). -/
structure MergeInv (st1 : BlobState) (N j : ℕ) (st : BlobState) : Prop where
  lab : st.labels = st1.labels
  nxt : st.next = st1.next
  par_le : Pinv st.parents
  par_pos : ∀ z, 1 ≤ z → 1 ≤ st.parents z
  par_hi : ∀ z, st1.next ≤ z → st.parents z = z
  roots : ∀ y, rootOf st.parents y = rootOf st1.parents y
  blob_label : ∀ l, 1 ≤ l → l < st1.next → (st.blobs (l - 1)).label = l
  area_root : ∀ l, 1 ≤ l → l < st1.next → rootOf st1.parents l = l →
      (st.blobs (l - 1)).area = labelCount st1.labels N l +
        ∑ t ∈ Finset.Icc 1 j,
          if rootOf st1.parents t = l ∧ t ≠ l then labelCount st1.labels N t
          else 0
  area_done : ∀ l, 1 ≤ l → l ≤ j → rootOf st1.parents l ≠ l →
      (st.blobs (l - 1)).area = 0
  area_todo : ∀ l, j < l → l < st1.next → rootOf st1.parents l ≠ l →
      (st.blobs (l - 1)).area = labelCount st1.labels N l

theorem mergeInv_init (st1 : BlobState) (img : ℕ → ℕ) (w N nblobs : ℕ)
    (hinv : ScanInv img w N nblobs N st1) : MergeInv st1 N 0 st1 := by
  refine ⟨rfl, rfl, hinv.par_le, hinv.par_pos, hinv.par_hi, fun y => rfl,
    hinv.blob_label, ?_, ?_, ?_⟩
  · intro l hl1 hl2 _
    rw [Finset.Icc_eq_empty (by omega), Finset.sum_empty, Nat.add_zero]
    exact hinv.blob_area l hl1 hl2
  · intro l hl1 hl2 _
    omega
  · intro l _ hl2 _
    exact hinv.blob_area l (by omega) hl2

theorem mergeInv_step (st1 : BlobState) (N j : ℕ) (st : BlobState)
    (hinv : MergeInv st1 N j st) (hj : j + 1 < st1.next) :
    MergeInv st1 N (j + 1) (mergeStep st j) := by
  have hlabj : (st.blobs j).label = j + 1 := hinv.blob_label (j + 1) (by omega) hj
  have hstep : mergeStep st j =
      if (gsRoot st.parents ((st.blobs j).label)).1 ≠ (st.blobs j).label then
        { st with
          parents := (gsRoot st.parents ((st.blobs j).label)).2,
          blobs := Function.update
            (Function.update st.blobs
              ((gsRoot st.parents ((st.blobs j).label)).1 - 1)
              ⟨(st.blobs ((gsRoot st.parents ((st.blobs j).label)).1 - 1)).label,
                (st.blobs ((gsRoot st.parents ((st.blobs j).label)).1 - 1)).area +
                  (st.blobs j).area,
                ⟨min (st.blobs ((gsRoot st.parents ((st.blobs j).label)).1 - 1)).box.x
                   (st.blobs j).box.x,
                 min (st.blobs ((gsRoot st.parents ((st.blobs j).label)).1 - 1)).box.y
                   (st.blobs j).box.y,
                 max (st.blobs ((gsRoot st.parents ((st.blobs j).label)).1 - 1)).box.w
                   (st.blobs j).box.w,
                 max (st.blobs ((gsRoot st.parents ((st.blobs j).label)).1 - 1)).box.h
                   (st.blobs j).box.h⟩,
                (st.blobs ((gsRoot st.parents ((st.blobs j).label)).1 - 1)).centroid⟩)
            j ⟨(st.blobs j).label, 0, (st.blobs j).box, (st.blobs j).centroid⟩,
          cx := Function.update st.cx
            ((gsRoot st.parents ((st.blobs j).label)).1 - 1)
            (st.cx ((gsRoot st.parents ((st.blobs j).label)).1 - 1) + st.cx j),
          cy := Function.update st.cy
            ((gsRoot st.parents ((st.blobs j).label)).1 - 1)
            (st.cy ((gsRoot st.parents ((st.blobs j).label)).1 - 1) + st.cy j) }
      else { st with parents := (gsRoot st.parents ((st.blobs j).label)).2 } := rfl
  obtain ⟨hr1, hp2, hroots2⟩ := gsRoot_spec st.parents ((st.blobs j).label) hinv.par_le
  obtain ⟨hpos2, hhi2, _⟩ := gsRootAux_pres st1.next ((st.blobs j).label + 1)
    st.parents ((st.blobs j).label) hinv.par_le hinv.par_pos hinv.par_hi
  rw [hstep]
  rw [hlabj] at hr1 hp2 hroots2 hpos2 hhi2 ⊢
  have hrp1 : (gsRoot st.parents (j + 1)).1 = rootOf st1.parents (j + 1) := by
    rw [hr1, hinv.roots]
  rw [hrp1]
  set r := rootOf st1.parents (j + 1) with hrdef
  have hr_le : r ≤ j + 1 := by
    rw [hrdef, ← hinv.roots]
    exact rootOf_le st.parents hinv.par_le (j + 1)
  have hr_pos : 1 ≤ r := by
    rw [hrdef, ← hinv.roots]
    exact rootOf_pos st.parents hinv.par_le hinv.par_pos (j + 1) (by omega)
  have hr_root : rootOf st1.parents r = r := by
    rw [← hinv.roots]
    apply rootOf_of_fix
    have hfix : st.parents (rootOf st.parents (j + 1)) = rootOf st.parents (j + 1) :=
      rootOf_is_fix st.parents hinv.par_le (j + 1)
    rw [hinv.roots] at hfix
    exact hfix
  -- the parents facts hold in both branches
  have hroots3 : ∀ y, rootOf (gsRoot st.parents (j + 1)).2 y =
      rootOf st1.parents y := by
    intro y
    rw [hroots2 y, hinv.roots]
  by_cases hne : r ≠ j + 1
  · rw [if_pos hne]
    have hrj : r ≤ j := by omega
    have hnonroot : rootOf st1.parents (j + 1) ≠ j + 1 := by
      rw [← hrdef]
      exact hne
    set bR : GsBlob := ⟨(st.blobs (r - 1)).label,
      (st.blobs (r - 1)).area + (st.blobs j).area,
      ⟨min (st.blobs (r - 1)).box.x (st.blobs j).box.x,
       min (st.blobs (r - 1)).box.y (st.blobs j).box.y,
       max (st.blobs (r - 1)).box.w (st.blobs j).box.w,
       max (st.blobs (r - 1)).box.h (st.blobs j).box.h⟩,
      (st.blobs (r - 1)).centroid⟩ with hbR
    set bZ : GsBlob := ⟨j + 1, 0, (st.blobs j).box, (st.blobs j).centroid⟩
      with hbZ
    refine ⟨hinv.lab, hinv.nxt, hp2, hpos2, hhi2, hroots3, ?_, ?_, ?_, ?_⟩
    · intro l hl1 hl2
      show (Function.update (Function.update st.blobs (r - 1) bR) j bZ
        (l - 1)).label = l
      by_cases hlj : l = j + 1
      · rw [hlj]
        show (Function.update (Function.update st.blobs (r - 1) bR) j bZ
          j).label = j + 1
        rw [Function.update_same, hbZ]
      · rw [Function.update_noteq (by omega)]
        by_cases hlr : l = r
        · rw [hlr, Function.update_same, hbR]
          exact hinv.blob_label r hr_pos (by omega)
        · rw [Function.update_noteq (by omega)]
          exact hinv.blob_label l hl1 hl2
    · intro l hl1 hl2 hroot
      have hlj : l ≠ j + 1 := by
        intro h
        rw [h] at hroot
        exact hnonroot hroot
      show (Function.update (Function.update st.blobs (r - 1) bR) j bZ
        (l - 1)).area = labelCount st1.labels N l +
        ∑ t ∈ Finset.Icc 1 (j + 1),
          (if rootOf st1.parents t = l ∧ t ≠ l then labelCount st1.labels N t
           else 0)
      rw [Function.update_noteq (by omega)]
      rw [Finset.sum_Icc_succ_top (by omega)]
      by_cases hlr : l = r
      · rw [hlr, Function.update_same, hbR]
        have harea_r : (st.blobs (r - 1)).area = labelCount st1.labels N r +
            ∑ t ∈ Finset.Icc 1 j,
              (if rootOf st1.parents t = r ∧ t ≠ r then labelCount st1.labels N t
               else 0) := hinv.area_root r hr_pos (by omega) hr_root
        have harea_j : (st.blobs j).area = labelCount st1.labels N (j + 1) :=
          hinv.area_todo (j + 1) (by omega) hj hnonroot
        show (st.blobs (r - 1)).area + (st.blobs j).area = _
        rw [harea_r, harea_j]
        rw [if_pos ⟨by rw [← hrdef], by omega⟩]
        exact Nat.add_assoc _ _ _
      · rw [Function.update_noteq (by omega)]
        rw [if_neg (by
          intro hcon
          rw [← hrdef] at hcon
          exact hlr hcon.1.symm)]
        rw [Nat.add_zero]
        exact hinv.area_root l hl1 hl2 hroot
    · intro l hl1 hl2 hroot
      show (Function.update (Function.update st.blobs (r - 1) bR) j bZ
        (l - 1)).area = 0
      by_cases hlj : l = j + 1
      · rw [hlj]
        show (Function.update (Function.update st.blobs (r - 1) bR) j bZ
          j).area = 0
        rw [Function.update_same, hbZ]
      · have hlr : l ≠ r := by
          intro h
          rw [h] at hroot
          exact hroot hr_root
        rw [Function.update_noteq (by omega), Function.update_noteq (by omega)]
        exact hinv.area_done l hl1 (by omega) hroot
    · intro l hl1 hl2 hroot
      have hlr : l ≠ r := by
        intro h
        rw [h] at hroot
        exact hroot hr_root
      show (Function.update (Function.update st.blobs (r - 1) bR) j bZ
        (l - 1)).area = labelCount st1.labels N l
      rw [Function.update_noteq (by omega), Function.update_noteq (by omega)]
      exact hinv.area_todo l (by omega) hl2 hroot
  · rw [if_neg hne]
    push_neg at hne
    have hne' : rootOf st1.parents (j + 1) = j + 1 := hrdef.symm.trans hne
    refine ⟨hinv.lab, hinv.nxt, hp2, hpos2, hhi2, hroots3, hinv.blob_label,
      ?_, ?_, ?_⟩
    · intro l hl1 hl2 hroot
      show (st.blobs (l - 1)).area = labelCount st1.labels N l +
        ∑ t ∈ Finset.Icc 1 (j + 1),
          (if rootOf st1.parents t = l ∧ t ≠ l then labelCount st1.labels N t
           else 0)
      rw [Finset.sum_Icc_succ_top (by omega)]
      have hzero : (if rootOf st1.parents (j + 1) = l ∧ j + 1 ≠ l then
          labelCount st1.labels N (j + 1) else 0) = 0 := by
        by_cases hlj : l = j + 1
        · rw [if_neg]
          intro hcon
          exact hcon.2 hlj.symm
        · rw [if_neg]
          intro hcon
          exact hlj (hne'.symm.trans hcon.1).symm
      rw [hzero, Nat.add_zero]
      exact hinv.area_root l hl1 hl2 hroot
    · intro l hl1 hl2 hroot
      by_cases hlj : l = j + 1
      · exfalso
        rw [hlj] at hroot
        exact hroot hne'
      · exact hinv.area_done l hl1 (by omega) hroot
    · intro l hl1 hl2 hroot
      exact hinv.area_todo l (by omega) hl2 hroot

/-- The merge invariant holds after the whole `// merge blobs` loop. -/
theorem mergeFold_inv (st1 : BlobState) (N : ℕ) (h0 : MergeInv st1 N 0 st1) :
    MergeInv st1 N (st1.next - 1)
      ((List.range (st1.next - 1)).foldl mergeStep st1) := by
  suffices H : ∀ j, j ≤ st1.next - 1 →
      MergeInv st1 N j ((List.range j).foldl mergeStep st1) by
    exact H _ le_rfl
  intro j
  induction j with
  | zero =>
    intro _
    exact h0
  | succ j ih =>
    intro hj
    rw [foldl_range_succ]
    exact mergeInv_step st1 N j _ (ih (by omega)) (by omega)

/-- Invariant of the second (relabeling) pass after the first `j` pixels: the
blob array is untouched, roots are unchanged (lookups only path-compress), and
processed cells carry their class representative. -/
structure RelabelInv (st2 : BlobState) (j : ℕ) (st : BlobState) : Prop where
  nxt : st.next = st2.next
  blobs_eq : st.blobs = st2.blobs
  par_le : Pinv st.parents
  roots : ∀ y, rootOf st.parents y = rootOf st2.parents y
  lab_lo : ∀ i, i < j → st.labels i =
      if st2.labels i = 0 then 0 else rootOf st2.parents (st2.labels i)
  lab_hi : ∀ i, j ≤ i → st.labels i = st2.labels i

theorem relabelInv_init (st2 : BlobState) (hp : Pinv st2.parents) :
    RelabelInv st2 0 st2 :=
  ⟨rfl, rfl, hp, fun _ => rfl, fun i hi => absurd hi (by omega), fun _ _ => rfl⟩

theorem relabelInv_step (st2 : BlobState) (j : ℕ) (st : BlobState)
    (hinv : RelabelInv st2 j st) : RelabelInv st2 (j + 1) (relabelStep st j) := by
  have hstep : relabelStep st j =
      if st.labels j ≠ 0 then
        { st with
          labels := Function.update st.labels j (gsRoot st.parents (st.labels j)).1,
          parents := (gsRoot st.parents (st.labels j)).2 }
      else st := rfl
  rw [hstep]
  by_cases h0 : st.labels j ≠ 0
  · rw [if_pos h0]
    obtain ⟨hr1, hp2, hroots2⟩ := gsRoot_spec st.parents (st.labels j) hinv.par_le
    refine ⟨hinv.nxt, hinv.blobs_eq, hp2, ?_, ?_, ?_⟩
    · intro y
      show rootOf (gsRoot st.parents (st.labels j)).2 y = rootOf st2.parents y
      rw [hroots2 y, hinv.roots]
    · intro i hi
      show Function.update st.labels j (gsRoot st.parents (st.labels j)).1 i = _
      rcases Nat.lt_succ_iff_lt_or_eq.mp hi with hii | hii
      · rw [Function.update_noteq (by omega)]
        exact hinv.lab_lo i hii
      · subst hii
        rw [Function.update_same, hr1]
        have hlj : st.labels i = st2.labels i := hinv.lab_hi i le_rfl
        rw [hlj] at h0 ⊢
        rw [if_neg h0, hinv.roots]
    · intro i hi
      show Function.update st.labels j (gsRoot st.parents (st.labels j)).1 i = _
      rw [Function.update_noteq (by omega)]
      exact hinv.lab_hi i (by omega)
  · rw [if_neg h0]
    push_neg at h0
    refine ⟨hinv.nxt, hinv.blobs_eq, hinv.par_le, hinv.roots, ?_, ?_⟩
    · intro i hi
      rcases Nat.lt_succ_iff_lt_or_eq.mp hi with hii | hii
      · exact hinv.lab_lo i hii
      · subst hii
        have hlj : st.labels i = st2.labels i := hinv.lab_hi i le_rfl
        have h2 : st2.labels i = 0 := hlj.symm.trans h0
        rw [if_pos h2]
        exact h0
    · intro i hi
      exact hinv.lab_hi i (by omega)

/-- The relabel invariant holds after the whole second pass. -/
theorem relabelFold_inv (st2 : BlobState) (N : ℕ) (hp : Pinv st2.parents) :
    RelabelInv st2 N ((List.range N).foldl relabelStep st2) := by
  suffices H : ∀ j, RelabelInv st2 j ((List.range j).foldl relabelStep st2) from
    H N
  intro j
  induction j with
  | zero => exact relabelInv_init st2 hp
  | succ j ih =>
    rw [foldl_range_succ]
    exact relabelInv_step st2 j _ ih

/-- The record appended by one compaction step: bounding box fixed from its
stored bottom-right point to width/height, centroid from the accumulators. -/
def fixBlob (st : BlobState) (i : ℕ) : GsBlob :=
  ⟨(st.blobs i).label, (st.blobs i).area,
   ⟨(st.blobs i).box.x, (st.blobs i).box.y,
    (st.blobs i).box.w - (st.blobs i).box.x + 1,
    (st.blobs i).box.h - (st.blobs i).box.y + 1⟩,
   ⟨st.cx i / (st.blobs i).area, st.cy i / (st.blobs i).area⟩⟩

/-- Optional variant of one compaction step: `none` for an empty blob. -/
def compactFix (st : BlobState) (i : ℕ) : Option GsBlob :=
  if (st.blobs i).area = 0 then none else some (fixBlob st i)

theorem fixBlob_label (st : BlobState) (i : ℕ) :
    (fixBlob st i).label = (st.blobs i).label := rfl

theorem fixBlob_area (st : BlobState) (i : ℕ) :
    (fixBlob st i).area = (st.blobs i).area := rfl

theorem compactStep_eq (st : BlobState) (acc : List GsBlob) (i : ℕ) :
    compactStep st acc i =
      if (st.blobs i).area = 0 then acc else acc ++ [fixBlob st i] := rfl

/-- The compaction loop is the in-order `filterMap` of the non-empty blobs. -/
theorem compactFold_eq (st : BlobState) :
    ∀ (rng : List ℕ) (acc : List GsBlob),
      rng.foldl (compactStep st) acc = acc ++ rng.filterMap (compactFix st) := by
  intro rng
  induction rng with
  | nil =>
    intro acc
    rw [List.foldl_nil, List.filterMap_nil, List.append_nil]
  | cons a l ih =>
    intro acc
    rw [List.foldl_cons, ih, compactStep_eq, List.filterMap_cons]
    by_cases h : (st.blobs a).area = 0
    · rw [if_pos h]
      have h2 : compactFix st a = none := by
        unfold compactFix
        rw [if_pos h]
      rw [h2]
    · rw [if_neg h]
      have h2 : compactFix st a = some (fixBlob st a) := by
        unfold compactFix
        rw [if_neg h]
      rw [h2, List.append_assoc, List.singleton_append]

/-- Summed areas of the compacted list: empty blobs contribute nothing, so the
total is the plain sum of the blob-array areas over the scanned range. -/
theorem compact_area_sum (st : BlobState) :
    ∀ rng : List ℕ,
      ((rng.filterMap (compactFix st)).map GsBlob.area).sum =
        (rng.map fun i => (st.blobs i).area).sum := by
  intro rng
  induction rng with
  | nil => rfl
  | cons a l ih =>
    rw [List.map_cons, List.sum_cons, List.filterMap_cons]
    by_cases h : (st.blobs a).area = 0
    · have h2 : compactFix st a = none := by
        unfold compactFix
        rw [if_pos h]
      rw [h2]
      show ((l.filterMap (compactFix st)).map GsBlob.area).sum =
        (st.blobs a).area + (l.map fun i => (st.blobs i).area).sum
      rw [ih, h, Nat.zero_add]
    · have h2 : compactFix st a = some (fixBlob st a) := by
        unfold compactFix
        rw [if_neg h]
      rw [h2]
      show ((fixBlob st a :: l.filterMap (compactFix st)).map GsBlob.area).sum =
        (st.blobs a).area + (l.map fun i => (st.blobs i).area).sum
      rw [List.map_cons, List.sum_cons, ih, fixBlob_area]

/-- What membership in the compacted list says about the source slot. -/
theorem compactFix_some (st : BlobState) (i : ℕ) (b : GsBlob)
    (h : compactFix st i = some b) :
    b.label = (st.blobs i).label ∧ b.area = (st.blobs i).area ∧
      (st.blobs i).area ≠ 0 := by
  unfold compactFix at h
  by_cases h0 : (st.blobs i).area = 0
  · rw [if_pos h0] at h
    exact absurd h (by simp)
  · rw [if_neg h0] at h
    have hb : fixBlob st i = b := Option.some.inj h
    exact ⟨by rw [← hb, fixBlob_label], by rw [← hb, fixBlob_area], h0⟩

theorem sum_range_eq_zero_add (f : ℕ → ℕ) (M : ℕ) (hM : 1 ≤ M) :
    ∑ t ∈ Finset.range M, f t = f 0 + ∑ t ∈ Finset.Icc 1 (M - 1), f t := by
  have h : Finset.range M = insert 0 (Finset.Icc 1 (M - 1)) := by
    ext t
    simp only [Finset.mem_range, Finset.mem_insert, Finset.mem_Icc]
    omega
  rw [h, Finset.sum_insert (by simp)]

/-- Pixel count of a root label in the final grid: its own provisional pixels
plus those of every provisional class that resolves to it. -/
theorem labelCount_final_root (lab1 lab3 R : ℕ → ℕ) (N M l : ℕ)
    (hM : 1 ≤ M) (hlt : ∀ i, i < N → lab1 i < M)
    (hform : ∀ i, lab3 i = if lab1 i = 0 then 0 else R (lab1 i))
    (hl1 : 1 ≤ l) (hlM : l < M) (hroot : R l = l) :
    labelCount lab3 N l = labelCount lab1 N l +
      ∑ t ∈ Finset.Icc 1 (M - 1),
        (if R t = l ∧ t ≠ l then labelCount lab1 N t else 0) := by
  have hcong : labelCount lab3 N l =
      (List.range N).countP fun i => decide (lab1 i ≠ 0 ∧ R (lab1 i) = l) := by
    unfold labelCount
    apply List.countP_congr
    intro i _
    rw [hform i]
    simp only [decide_eq_true_eq]
    by_cases h0 : lab1 i = 0
    · rw [if_pos h0, h0]
      constructor
      · intro h
        exact absurd h (by omega)
      · intro h
        exact absurd rfl h.1
    · rw [if_neg h0]
      constructor
      · intro h
        exact ⟨h0, h⟩
      · intro h
        exact h.2
  rw [hcong,
    countP_comp_partition lab1 N M hlt (fun t => decide (t ≠ 0 ∧ R t = l))]
  simp only [decide_eq_true_eq]
  rw [sum_range_eq_zero_add _ M hM]
  rw [show (if ((0 : ℕ) ≠ 0 ∧ R 0 = l) then labelCount lab1 N 0 else 0) = 0 from
    if_neg (fun hc => hc.1 rfl)]
  rw [Nat.zero_add]
  have hstep2 : ∀ t ∈ Finset.Icc 1 (M - 1),
      (if t ≠ 0 ∧ R t = l then labelCount lab1 N t else 0) =
        (if t = l then labelCount lab1 N l else 0) +
        (if R t = l ∧ t ≠ l then labelCount lab1 N t else 0) := by
    intro t ht
    rw [Finset.mem_Icc] at ht
    by_cases htl : t = l
    · subst htl
      rw [if_pos ⟨by omega, hroot⟩, if_pos rfl,
        if_neg (fun hc => hc.2 rfl), Nat.add_zero]
    · by_cases hrt : R t = l
      · rw [if_pos ⟨by omega, hrt⟩, if_neg htl, if_pos ⟨hrt, htl⟩,
          Nat.zero_add]
      · rw [if_neg (fun hc => hrt hc.2), if_neg htl,
          if_neg (fun hc => hrt hc.1), Nat.add_zero]
  rw [Finset.sum_congr rfl hstep2, Finset.sum_add_distrib]
  congr 1
  rw [Finset.sum_ite_eq' (Finset.Icc 1 (M - 1)) l fun _ => labelCount lab1 N l]
  rw [if_pos (Finset.mem_Icc.mpr ⟨hl1, by omega⟩)]

/-- Every provisional class contributes its pixels to exactly one root, so the
root totals sum to the total over all provisional labels. -/
theorem sum_root_partition (R g : ℕ → ℕ) (M : ℕ)
    (hR : ∀ t, 1 ≤ t → t < M → 1 ≤ R t ∧ R t < M ∧ R (R t) = R t) :
    ∑ l ∈ Finset.Icc 1 (M - 1),
      (if R l = l then
        g l + ∑ t ∈ Finset.Icc 1 (M - 1), (if R t = l ∧ t ≠ l then g t else 0)
       else 0) =
      ∑ t ∈ Finset.Icc 1 (M - 1), g t := by
  have hS0 : ∀ l ∈ Finset.Icc 1 (M - 1), R l ≠ l →
      ∑ t ∈ Finset.Icc 1 (M - 1), (if R t = l ∧ t ≠ l then g t else 0) = 0 := by
    intro l _ hnl
    apply Finset.sum_eq_zero
    intro t ht
    rw [Finset.mem_Icc] at ht
    rw [if_neg]
    intro hc
    exact hnl (by
      rw [← hc.1]
      exact (hR t ht.1 (by omega)).2.2)
  have hpt : ∀ l ∈ Finset.Icc 1 (M - 1),
      (if R l = l then
        g l + ∑ t ∈ Finset.Icc 1 (M - 1), (if R t = l ∧ t ≠ l then g t else 0)
       else 0) =
        (if R l = l then g l else 0) +
        ∑ t ∈ Finset.Icc 1 (M - 1), (if R t = l ∧ t ≠ l then g t else 0) := by
    intro l hl
    by_cases hr : R l = l
    · rw [if_pos hr, if_pos hr]
    · rw [if_neg hr, if_neg hr, hS0 l hl hr]
  rw [Finset.sum_congr rfl hpt, Finset.sum_add_distrib, Finset.sum_comm]
  have hinner : ∀ t ∈ Finset.Icc 1 (M - 1),
      ∑ l ∈ Finset.Icc 1 (M - 1), (if R t = l ∧ t ≠ l then g t else 0) =
        if t ≠ R t then g t else 0 := by
    intro t ht
    rw [Finset.mem_Icc] at ht
    have hpt2 : ∀ l ∈ Finset.Icc 1 (M - 1),
        (if R t = l ∧ t ≠ l then g t else 0) =
          if l = R t then (if t ≠ R t then g t else 0) else 0 := by
      intro l _
      by_cases hlr : l = R t
      · rw [hlr]
        by_cases htr : t ≠ R t
        · rw [if_pos ⟨rfl, htr⟩, if_pos rfl, if_pos htr]
        · rw [if_neg (fun hc => htr hc.2), if_pos rfl, if_neg htr]
      · rw [if_neg (fun hc => hlr hc.1.symm), if_neg hlr]
    rw [Finset.sum_congr rfl hpt2,
      Finset.sum_ite_eq' (Finset.Icc 1 (M - 1)) (R t)
        fun _ => if t ≠ R t then g t else 0]
    rw [if_pos (Finset.mem_Icc.mpr
      ⟨(hR t ht.1 (by omega)).1, by
        have := (hR t ht.1 (by omega)).2.1
        omega⟩)]
  rw [Finset.sum_congr rfl hinner, ← Finset.sum_add_distrib]
  apply Finset.sum_congr rfl
  intro t _
  by_cases hr : R t = t
  · rw [if_pos hr, if_neg (fun hc => hc hr.symm), Nat.add_zero]
  · rw [if_neg hr, if_pos (fun hc => hr hc.symm), Nat.zero_add]

/-- State after the `// merge blobs` loop of `gs_blobs`. -/
def blobMerged (img : GsImage) (nblobs : ℕ) : BlobState :=
  (List.range ((blobScan img.data img.w img.h nblobs).next - 1)).foldl mergeStep
    (blobScan img.data img.w img.h nblobs)

/-- State after the second (relabeling) pass of `gs_blobs`. -/
def blobRelabeled (img : GsImage) (nblobs : ℕ) : BlobState :=
  (List.range (img.w * img.h)).foldl relabelStep (blobMerged img nblobs)

theorem gs_blobs_eq (img : GsImage) (nblobs : ℕ) :
    gs_blobs img nblobs =
      ⟨((List.range ((blobRelabeled img nblobs).next - 1)).filterMap
          (compactFix (blobRelabeled img nblobs))).length,
        (blobRelabeled img nblobs).labels,
        (List.range ((blobRelabeled img nblobs).next - 1)).filterMap
          (compactFix (blobRelabeled img nblobs))⟩ := by
  have h0 : gs_blobs img nblobs =
      ⟨((List.range ((blobRelabeled img nblobs).next - 1)).foldl
          (compactStep (blobRelabeled img nblobs)) []).length,
        (blobRelabeled img nblobs).labels,
        (List.range ((blobRelabeled img nblobs).next - 1)).foldl
          (compactStep (blobRelabeled img nblobs)) []⟩ := rfl
  rw [h0, compactFold_eq, List.nil_append]

theorem gs_blobs_blobs (img : GsImage) (nblobs : ℕ) :
    (gs_blobs img nblobs).blobs =
      (List.range ((blobRelabeled img nblobs).next - 1)).filterMap
        (compactFix (blobRelabeled img nblobs)) := by
  rw [gs_blobs_eq]

theorem gs_blobs_labels (img : GsImage) (nblobs : ℕ) :
    (gs_blobs img nblobs).labels = (blobRelabeled img nblobs).labels := by
  rw [gs_blobs_eq]

theorem gs_blobs_count (img : GsImage) (nblobs : ℕ) :
    (gs_blobs img nblobs).count =
      ((List.range ((blobRelabeled img nblobs).next - 1)).filterMap
        (compactFix (blobRelabeled img nblobs))).length := by
  rw [gs_blobs_eq]

theorem blobMerged_inv (img : GsImage) (nblobs : ℕ) (hw0 : 0 < img.w) :
    MergeInv (blobScan img.data img.w img.h nblobs) (img.w * img.h)
      ((blobScan img.data img.w img.h nblobs).next - 1) (blobMerged img nblobs) :=
  mergeFold_inv _ _
    (mergeInv_init _ img.data img.w _ nblobs
      (blobScan_inv img.data img.w img.h nblobs hw0))

theorem blobRelabeled_inv (img : GsImage) (nblobs : ℕ) (hw0 : 0 < img.w) :
    RelabelInv (blobMerged img nblobs) (img.w * img.h)
      (blobRelabeled img nblobs) :=
  relabelFold_inv _ _ (blobMerged_inv img nblobs hw0).par_le

/-- Final label grid: every cell holds the class representative of its
provisional label (0 stays 0). -/
theorem blobFinal_labels (img : GsImage) (nblobs : ℕ) (hw0 : 0 < img.w) :
    ∀ i, (blobRelabeled img nblobs).labels i =
      if (blobScan img.data img.w img.h nblobs).labels i = 0 then 0
      else rootOf (blobScan img.data img.w img.h nblobs).parents
        ((blobScan img.data img.w img.h nblobs).labels i) := by
  intro i
  have hs := blobScan_inv img.data img.w img.h nblobs hw0
  have hm := blobMerged_inv img nblobs hw0
  have hr := blobRelabeled_inv img nblobs hw0
  by_cases hi : i < img.w * img.h
  · rw [hr.lab_lo i hi, hm.lab]
    by_cases h0 : (blobScan img.data img.w img.h nblobs).labels i = 0
    · rw [if_pos h0, if_pos h0]
    · rw [if_neg h0, if_neg h0, hm.roots]
  · have h0 : (blobScan img.data img.w img.h nblobs).labels i = 0 :=
      hs.labels_hi i (by omega)
    rw [hr.lab_hi i (by omega), hm.lab, h0, if_pos rfl]

theorem blobFinal_next (img : GsImage) (nblobs : ℕ) (hw0 : 0 < img.w) :
    (blobRelabeled img nblobs).next =
      (blobScan img.data img.w img.h nblobs).next := by
  rw [(blobRelabeled_inv img nblobs hw0).nxt, (blobMerged_inv img nblobs hw0).nxt]

/-- Final blob array slot `l - 1`: the label is still `l`, and the area is the
final pixel count of label `l` for a class representative, `0` otherwise. -/
theorem blobFinal_blobs (img : GsImage) (nblobs : ℕ) (hw0 : 0 < img.w) (l : ℕ)
    (hl1 : 1 ≤ l) (hlM : l < (blobScan img.data img.w img.h nblobs).next) :
    ((blobRelabeled img nblobs).blobs (l - 1)).label = l ∧
    ((blobRelabeled img nblobs).blobs (l - 1)).area =
      (if rootOf (blobScan img.data img.w img.h nblobs).parents l = l then
        labelCount (blobRelabeled img nblobs).labels (img.w * img.h) l
       else 0) := by
  have hs := blobScan_inv img.data img.w img.h nblobs hw0
  have hm := blobMerged_inv img nblobs hw0
  have hr := blobRelabeled_inv img nblobs hw0
  constructor
  · rw [hr.blobs_eq]
    exact hm.blob_label l hl1 hlM
  · rw [hr.blobs_eq]
    by_cases hroot :
        rootOf (blobScan img.data img.w img.h nblobs).parents l = l
    · rw [if_pos hroot, hm.area_root l hl1 hlM hroot]
      rw [labelCount_final_root (blobScan img.data img.w img.h nblobs).labels
        (blobRelabeled img nblobs).labels
        (rootOf (blobScan img.data img.w img.h nblobs).parents)
        (img.w * img.h) (blobScan img.data img.w img.h nblobs).next l
        hs.next_ge (fun i _ => hs.labels_lt i)
        (blobFinal_labels img nblobs hw0) hl1 hlM hroot]
    · rw [if_neg hroot]
      exact hm.area_done l hl1 (by omega) hroot

theorem list_sum_range_eq (f : ℕ → ℕ) (n : ℕ) :
    ((List.range n).map f).sum = ∑ i ∈ Finset.range n, f i := by
  induction n with
  | zero => rfl
  | succ n ih =>
    rw [List.range_succ, List.map_append, List.sum_append,
      Finset.sum_range_succ, ih]
    simp

theorem sum_range_shift (g : ℕ → ℕ) (n : ℕ) :
    ∑ i ∈ Finset.range n, g (i + 1) = ∑ l ∈ Finset.Icc 1 n, g l := by
  induction n with
  | zero => simp
  | succ n ih =>
    rw [Finset.sum_range_succ, Finset.sum_Icc_succ_top (by omega), ih]

/-- Class representatives of live provisional labels are positive, in range,
and fixed under another root lookup. -/
theorem scan_root_facts (img : GsImage) (nblobs : ℕ) (hw0 : 0 < img.w) :
    ∀ t, 1 ≤ t → t < (blobScan img.data img.w img.h nblobs).next →
      1 ≤ rootOf (blobScan img.data img.w img.h nblobs).parents t ∧
      rootOf (blobScan img.data img.w img.h nblobs).parents t <
        (blobScan img.data img.w img.h nblobs).next ∧
      rootOf (blobScan img.data img.w img.h nblobs).parents
        (rootOf (blobScan img.data img.w img.h nblobs).parents t) =
        rootOf (blobScan img.data img.w img.h nblobs).parents t := by
  intro t ht1 htM
  have hs := blobScan_inv img.data img.w img.h nblobs hw0
  refine ⟨rootOf_pos _ hs.par_le hs.par_pos t ht1, ?_, ?_⟩
  · exact lt_of_le_of_lt (rootOf_le _ hs.par_le t) htM
  · exact rootOf_of_fix _ _ (rootOf_is_fix _ hs.par_le t)

theorem labeledCount_parts (lab : ℕ → ℕ) (N M : ℕ) (hM : 1 ≤ M)
    (hlt : ∀ i, i < N → lab i < M) :
    labeledCount lab N = ∑ t ∈ Finset.Icc 1 (M - 1), labelCount lab N t := by
  unfold labeledCount
  rw [countP_comp_partition lab N M hlt (fun t => decide (t ≠ 0))]
  simp only [decide_eq_true_eq]
  rw [sum_range_eq_zero_add _ M hM,
    show (if (0 : ℕ) ≠ 0 then labelCount lab N 0 else 0) = 0 from
      if_neg (fun hc => hc rfl),
    Nat.zero_add]
  apply Finset.sum_congr rfl
  intro t ht
  rw [Finset.mem_Icc] at ht
  rw [if_pos (by omega)]

/-- The relabeling pass neither creates nor destroys labeled cells. -/
theorem labeledCount_final_eq (img : GsImage) (nblobs : ℕ) (hw0 : 0 < img.w) :
    labeledCount (blobRelabeled img nblobs).labels (img.w * img.h) =
      labeledCount (blobScan img.data img.w img.h nblobs).labels
        (img.w * img.h) := by
  have hs := blobScan_inv img.data img.w img.h nblobs hw0
  unfold labeledCount
  apply List.countP_congr
  intro i _
  simp only [decide_eq_true_eq]
  rw [blobFinal_labels img nblobs hw0 i]
  by_cases h0 : (blobScan img.data img.w img.h nblobs).labels i = 0
  · rw [if_pos h0, h0]
  · rw [if_neg h0]
    constructor
    · intro _
      exact h0
    · intro _
      have hpos := (scan_root_facts img nblobs hw0
        ((blobScan img.data img.w img.h nblobs).labels i)
        (by omega) (hs.labels_lt i)).1
      omega

/-- The areas of the compacted blob list add up to the number of labeled
cells of the final grid. -/
theorem blobFinal_area_total (img : GsImage) (nblobs : ℕ) (hw0 : 0 < img.w) :
    (((List.range ((blobRelabeled img nblobs).next - 1)).filterMap
        (compactFix (blobRelabeled img nblobs))).map GsBlob.area).sum =
      labeledCount (blobRelabeled img nblobs).labels (img.w * img.h) := by
  have hs := blobScan_inv img.data img.w img.h nblobs hw0
  have h1 : ∑ i ∈ Finset.range ((blobScan img.data img.w img.h nblobs).next - 1),
      ((blobRelabeled img nblobs).blobs i).area =
      ∑ l ∈ Finset.Icc 1 ((blobScan img.data img.w img.h nblobs).next - 1),
        ((blobRelabeled img nblobs).blobs (l - 1)).area := by
    rw [← sum_range_shift (fun l => ((blobRelabeled img nblobs).blobs (l - 1)).area)]
    apply Finset.sum_congr rfl
    intro i _
    rw [Nat.add_sub_cancel]
  have h2 : ∑ l ∈ Finset.Icc 1 ((blobScan img.data img.w img.h nblobs).next - 1),
      ((blobRelabeled img nblobs).blobs (l - 1)).area =
      ∑ l ∈ Finset.Icc 1 ((blobScan img.data img.w img.h nblobs).next - 1),
        (if rootOf (blobScan img.data img.w img.h nblobs).parents l = l then
          labelCount (blobRelabeled img nblobs).labels (img.w * img.h) l
         else 0) := by
    apply Finset.sum_congr rfl
    intro l hl
    rw [Finset.mem_Icc] at hl
    exact (blobFinal_blobs img nblobs hw0 l (by omega) (by omega)).2
  have h3 : ∑ l ∈ Finset.Icc 1 ((blobScan img.data img.w img.h nblobs).next - 1),
      (if rootOf (blobScan img.data img.w img.h nblobs).parents l = l then
        labelCount (blobRelabeled img nblobs).labels (img.w * img.h) l
       else 0) =
      ∑ l ∈ Finset.Icc 1 ((blobScan img.data img.w img.h nblobs).next - 1),
        (if rootOf (blobScan img.data img.w img.h nblobs).parents l = l then
          labelCount (blobScan img.data img.w img.h nblobs).labels
            (img.w * img.h) l +
          ∑ t ∈ Finset.Icc 1 ((blobScan img.data img.w img.h nblobs).next - 1),
            (if rootOf (blobScan img.data img.w img.h nblobs).parents t = l ∧
                t ≠ l then
              labelCount (blobScan img.data img.w img.h nblobs).labels
                (img.w * img.h) t
             else 0)
         else 0) := by
    apply Finset.sum_congr rfl
    intro l hl
    rw [Finset.mem_Icc] at hl
    by_cases hroot :
        rootOf (blobScan img.data img.w img.h nblobs).parents l = l
    · rw [if_pos hroot, if_pos hroot,
        labelCount_final_root (blobScan img.data img.w img.h nblobs).labels
          (blobRelabeled img nblobs).labels
          (rootOf (blobScan img.data img.w img.h nblobs).parents)
          (img.w * img.h) (blobScan img.data img.w img.h nblobs).next l
          hs.next_ge (fun i _ => hs.labels_lt i)
          (blobFinal_labels img nblobs hw0) (by omega) (by omega) hroot]
    · rw [if_neg hroot, if_neg hroot]
  rw [compact_area_sum, list_sum_range_eq, blobFinal_next img nblobs hw0,
    h1, h2, h3,
    sum_root_partition (rootOf (blobScan img.data img.w img.h nblobs).parents)
      (labelCount (blobScan img.data img.w img.h nblobs).labels
        (img.w * img.h))
      (blobScan img.data img.w img.h nblobs).next
      (scan_root_facts img nblobs hw0),
    labeledCount_final_eq img nblobs hw0,
    labeledCount_parts (blobScan img.data img.w img.h nblobs).labels
      (img.w * img.h) (blobScan img.data img.w img.h nblobs).next hs.next_ge
      (fun i _ => hs.labels_lt i)]

/-- What membership in the returned blob list implies: the label is a live
class representative and the area is its final pixel count. -/
theorem gs_blobs_mem (img : GsImage) (nblobs : ℕ) (hw0 : 0 < img.w) (b : GsBlob)
    (hb : b ∈ (gs_blobs img nblobs).blobs) :
    1 ≤ b.label ∧ b.label < (blobScan img.data img.w img.h nblobs).next ∧
    rootOf (blobScan img.data img.w img.h nblobs).parents b.label = b.label ∧
    b.area = labelCount (gs_blobs img nblobs).labels (img.w * img.h) b.label ∧
    b.area ≠ 0 := by
  rw [gs_blobs_blobs] at hb
  obtain ⟨i, hi, hsome⟩ := List.mem_filterMap.mp hb
  rw [List.mem_range, blobFinal_next img nblobs hw0] at hi
  obtain ⟨hblab, hbarea, hane⟩ := compactFix_some _ _ _ hsome
  have hfacts := blobFinal_blobs img nblobs hw0 (i + 1) (by omega) (by omega)
  have hlab : ((blobRelabeled img nblobs).blobs i).label = i + 1 := hfacts.1
  have harea : ((blobRelabeled img nblobs).blobs i).area =
      (if rootOf (blobScan img.data img.w img.h nblobs).parents (i + 1) = i + 1
       then labelCount (blobRelabeled img nblobs).labels (img.w * img.h) (i + 1)
       else 0) := hfacts.2
  rw [hlab] at hblab
  by_cases hroot :
      rootOf (blobScan img.data img.w img.h nblobs).parents (i + 1) = i + 1
  · rw [if_pos hroot] at harea
    refine ⟨by omega, by omega, ?_, ?_, ?_⟩
    · rw [hblab]
      exact hroot
    · rw [gs_blobs_labels, hbarea, harea, hblab]
    · rw [hbarea]
      exact hane
  · rw [if_neg hroot] at harea
    exact absurd harea hane

/-- Every nonzero cell of the final grid carries the label of some returned
blob. -/
theorem gs_blobs_label_covered (img : GsImage) (nblobs : ℕ) (hw0 : 0 < img.w)
    (i : ℕ) (hi : (gs_blobs img nblobs).labels i ≠ 0) :
    ∃ b ∈ (gs_blobs img nblobs).blobs,
      b.label = (gs_blobs img nblobs).labels i := by
  have hs := blobScan_inv img.data img.w img.h nblobs hw0
  rw [gs_blobs_labels] at hi ⊢
  have hform := blobFinal_labels img nblobs hw0 i
  by_cases h0 : (blobScan img.data img.w img.h nblobs).labels i = 0
  · rw [hform, if_pos h0] at hi
    exact absurd rfl hi
  · rw [hform, if_neg h0] at hi ⊢
    set r := rootOf (blobScan img.data img.w img.h nblobs).parents
      ((blobScan img.data img.w img.h nblobs).labels i) with hrdef
    have hrf := scan_root_facts img nblobs hw0
      ((blobScan img.data img.w img.h nblobs).labels i) (by omega)
      (hs.labels_lt i)
    have hr1 : 1 ≤ r := hrf.1
    have hr2 : r < (blobScan img.data img.w img.h nblobs).next := hrf.2.1
    have hroot : rootOf (blobScan img.data img.w img.h nblobs).parents r = r :=
      hrf.2.2
    have hiN : i < img.w * img.h := by
      by_contra h
      push_neg at h
      exact h0 (hs.labels_hi i h)
    have hcnt : 0 < labelCount (blobRelabeled img nblobs).labels
        (img.w * img.h) r := by
      unfold labelCount
      rw [List.countP_pos_iff]
      refine ⟨i, List.mem_range.mpr hiN, ?_⟩
      simp only [decide_eq_true_eq]
      rw [hform, if_neg h0]
    have hfb := blobFinal_blobs img nblobs hw0 r hr1 hr2
    have hlabr : ((blobRelabeled img nblobs).blobs (r - 1)).label = r := hfb.1
    have harear : ((blobRelabeled img nblobs).blobs (r - 1)).area =
        labelCount (blobRelabeled img nblobs).labels (img.w * img.h) r := by
      rw [hfb.2, if_pos hroot]
    refine ⟨fixBlob (blobRelabeled img nblobs) (r - 1), ?_, ?_⟩
    · rw [gs_blobs_blobs]
      apply List.mem_filterMap.mpr
      refine ⟨r - 1, ?_, ?_⟩
      · rw [List.mem_range, blobFinal_next img nblobs hw0]
        omega
      · unfold compactFix
        rw [if_neg (by
          intro hc
          rw [harear] at hc
          omega)]
    · rw [fixBlob_label, hlabr]

/-- The returned blob count never exceeds the capacity. -/
theorem gs_blobs_count_le (img : GsImage) (nblobs : ℕ) (hw0 : 0 < img.w) :
    (gs_blobs img nblobs).count ≤ nblobs := by
  rw [gs_blobs_count, blobFinal_next img nblobs hw0]
  have h1 := List.length_filterMap_le (compactFix (blobRelabeled img nblobs))
    (List.range ((blobScan img.data img.w img.h nblobs).next - 1))
  rw [List.length_range] at h1
  have h2 := (blobScan_inv img.data img.w img.h nblobs hw0).next_le
  omega

/-- An all-background image leaves the first pass at its initial state. -/
theorem blobScan_empty (img : ℕ → ℕ) (w h nblobs : ℕ)
    (hbg : ∀ i, i < w * h → img i < 128) :
    blobScan img w h nblobs = blobInit := by
  unfold blobScan
  suffices H : ∀ k, k ≤ w * h →
      (List.range k).foldl (blobStep img w nblobs) blobInit = blobInit by
    exact H _ le_rfl
  intro k
  induction k with
  | zero =>
    intro _
    rfl
  | succ k ih =>
    intro hk
    rw [foldl_range_succ, ih (by omega)]
    unfold blobStep
    rw [if_pos (hbg k (by omega))]

theorem relabel_blobInit (N : ℕ) :
    (List.range N).foldl relabelStep blobInit = blobInit := by
  induction N with
  | zero => rfl
  | succ N ih =>
    rw [foldl_range_succ, ih]
    unfold relabelStep
    rw [if_neg (fun h => h rfl)]

/-- An image with no pixel at intensity `128` or above produces zero blobs. -/
theorem gs_blobs_empty (img : GsImage) (nblobs : ℕ)
    (hbg : ∀ i, i < img.w * img.h → img.data i < 128) :
    (gs_blobs img nblobs).count = 0 := by
  have h1 : blobScan img.data img.w img.h nblobs = blobInit :=
    blobScan_empty img.data img.w img.h nblobs hbg
  have h2 : blobMerged img nblobs = blobInit := by
    unfold blobMerged
    rw [h1]
    rfl
  have h3 : blobRelabeled img nblobs = blobInit := by
    unfold blobRelabeled
    rw [h2, relabel_blobInit]
  rw [gs_blobs_count, h3]
  rfl

theorem matchStep_length (kps1 kps2 : List GsKeypoint) (cap : ℕ) (maxd : ℚ)
    (ms : List GsMatch) (i : ℕ) (h : ms.length ≤ cap) :
    (matchStep kps1 kps2 cap maxd ms i).length ≤ cap := by
  have hstep : matchStep kps1 kps2 cap maxd ms i =
      if ms.length < cap then
        (if (gs_match_inner (kps1.getD i kpDefault).descriptor kps2 maxd).1 ≤
              maxd ∧
            (gs_match_inner (kps1.getD i kpDefault).descriptor kps2 maxd).1 <
              (4 / 5 : ℚ) *
                (gs_match_inner (kps1.getD i kpDefault).descriptor kps2
                  maxd).2.1 then
          ms ++ [⟨i,
            (gs_match_inner (kps1.getD i kpDefault).descriptor kps2 maxd).2.2,
            ((gs_match_inner (kps1.getD i kpDefault).descriptor kps2
              maxd).1.floor).toNat⟩]
        else ms)
      else ms := rfl
  rw [hstep]
  by_cases h1 : ms.length < cap
  · rw [if_pos h1]
    by_cases h2 : (gs_match_inner (kps1.getD i kpDefault).descriptor kps2
        maxd).1 ≤ maxd ∧
        (gs_match_inner (kps1.getD i kpDefault).descriptor kps2 maxd).1 <
          (4 / 5 : ℚ) *
            (gs_match_inner (kps1.getD i kpDefault).descriptor kps2 maxd).2.1
    · rw [if_pos h2, List.length_append]
      simp only [List.length_singleton]
      omega
    · rw [if_neg h2]
      exact h
  · rw [if_neg h1]
    exact h

/-- A 5×2 test image with three foreground runs: `{255,0,255,0,255}` over
`{255,255,255,0,255}`.  The left two columns-runs merge into one component;
the surviving provisional labels are 1 and 3. -/
def c1img : GsImage :=
  ⟨5, 2, true, fun i =>
    if i = 0 then 255 else if i = 1 then 0 else if i = 2 then 255
    else if i = 3 then 0 else if i = 4 then 255
    else if i = 5 then 255 else if i = 6 then 255 else if i = 7 then 255
    else if i = 8 then 0 else if i = 9 then 255 else 0⟩

/-- C1 (amended): for every image with positive width, the blob list returned
by `gs_blobs` carries strictly increasing (hence pairwise distinct) label ids
in order of first encounter — the surviving provisional class representatives,
which are NOT renumbered to a dense `1..N` — and every nonzero entry of the
output label grid is the label of one of the returned blobs. -/
theorem c1_label_structure (img : GsImage) (nblobs : ℕ) (hw0 : 0 < img.w) :
    (gs_blobs img nblobs).blobs.Pairwise (fun a b => a.label < b.label) ∧
    ∀ i, (gs_blobs img nblobs).labels i ≠ 0 →
      ∃ b ∈ (gs_blobs img nblobs).blobs,
        b.label = (gs_blobs img nblobs).labels i := by
  constructor
  · rw [gs_blobs_blobs, List.pairwise_filterMap]
    apply List.Pairwise.imp_of_mem ?_ (List.pairwise_lt_range _)
    intro a b ha hb hab x hx y hy
    rw [List.mem_range, blobFinal_next img nblobs hw0] at ha hb
    rw [Option.mem_def] at hx hy
    obtain ⟨hxl, _, _⟩ := compactFix_some _ _ _ hx
    obtain ⟨hyl, _, _⟩ := compactFix_some _ _ _ hy
    have h1 : ((blobRelabeled img nblobs).blobs a).label = a + 1 :=
      (blobFinal_blobs img nblobs hw0 (a + 1) (by omega) (by omega)).1
    have h2 : ((blobRelabeled img nblobs).blobs b).label = b + 1 :=
      (blobFinal_blobs img nblobs hw0 (b + 1) (by omega) (by omega)).1
    rw [hxl, h1, hyl, h2]
    omega
  · exact gs_blobs_label_covered img nblobs hw0

theorem c1_label_structure_witness :
    0 < c1img.w ∧
    ((gs_blobs c1img 16).blobs.Pairwise (fun a b => a.label < b.label) ∧
    ∀ i, (gs_blobs c1img 16).labels i ≠ 0 →
      ∃ b ∈ (gs_blobs c1img 16).blobs,
        b.label = (gs_blobs c1img 16).labels i) :=
  ⟨by decide, c1_label_structure c1img 16 (by decide)⟩

/-- C1 counterexample: on the 5×2 image above, `gs_blobs` returns 2 blobs but
the second carries label 3, not 2 — labels are not compacted to dense `1..N`
(the repository's own `test_blobs` likewise expects labels `{1,2,6}`). -/
theorem c1_counterexample :
    (gs_blobs c1img 16).count = 2 ∧
    ((gs_blobs c1img 16).blobs.map (fun b => b.label)) = [1, 3] := by
  constructor
  · decide
  · decide

/-- A 1×1 image whose single pixel has intensity exactly 128: labeled by the
code (foreground test `>= 128`), but not foreground under the spec's
`> 128`. -/
def c2img : GsImage := ⟨1, 1, true, fun _ => 128⟩

/-- C2 (amended): for every image with positive width, the areas of the blobs
returned by `gs_blobs` sum to the number of labeled cells of the output grid,
each returned blob's area is the exact number of grid cells carrying its
label, and every labeled cell has intensity at least 128 — the code's
foreground threshold is `>= 128`, not the spec's `> 128`. -/
theorem c2_area_accounting (img : GsImage) (nblobs : ℕ) (hw0 : 0 < img.w) :
    (((gs_blobs img nblobs).blobs.map GsBlob.area).sum =
      labeledCount (gs_blobs img nblobs).labels (img.w * img.h)) ∧
    (∀ b ∈ (gs_blobs img nblobs).blobs,
      b.area = labelCount (gs_blobs img nblobs).labels (img.w * img.h)
        b.label) ∧
    (∀ i, (gs_blobs img nblobs).labels i ≠ 0 → 128 ≤ img.data i) := by
  refine ⟨?_, ?_, ?_⟩
  · rw [gs_blobs_blobs, gs_blobs_labels]
    exact blobFinal_area_total img nblobs hw0
  · intro b hb
    exact (gs_blobs_mem img nblobs hw0 b hb).2.2.2.1
  · intro i hi
    have hs := blobScan_inv img.data img.w img.h nblobs hw0
    rw [gs_blobs_labels, blobFinal_labels img nblobs hw0 i] at hi
    by_cases h0 : (blobScan img.data img.w img.h nblobs).labels i = 0
    · rw [if_pos h0] at hi
      exact absurd rfl hi
    · exact hs.labels_fg i h0

theorem c2_area_accounting_witness :
    0 < c2img.w ∧
    ((((gs_blobs c2img 4).blobs.map GsBlob.area).sum =
      labeledCount (gs_blobs c2img 4).labels (c2img.w * c2img.h)) ∧
    (∀ b ∈ (gs_blobs c2img 4).blobs,
      b.area = labelCount (gs_blobs c2img 4).labels (c2img.w * c2img.h)
        b.label) ∧
    (∀ i, (gs_blobs c2img 4).labels i ≠ 0 → 128 ≤ c2img.data i)) :=
  ⟨by decide, c2_area_accounting c2img 4 (by decide)⟩

/-- C2 counterexample: the 1×1 image at intensity 128 has no `> 128` pixel at
all, yet `gs_blobs` labels its pixel and returns one blob of area 1 — the
area total counts `>= 128` pixels, not the spec's `> 128` foreground. -/
theorem c2_counterexample :
    (gs_blobs c2img 4).count = 1 ∧
    ((gs_blobs c2img 4).blobs.map GsBlob.area).sum = 1 ∧
    c2img.data 0 = 128 := by
  refine ⟨by decide, by decide, by decide⟩

/-- A 2×2 image with two diagonally adjacent foreground pixels: a single
component under 8-connectivity, two under the code's fixed 4-connectivity. -/
def c3img : GsImage :=
  ⟨2, 2, true, fun i => if i = 0 then 255 else if i = 3 then 255 else 0⟩

/-- C3 (amended): the labeler is hard-wired to 4-connectivity — each
foreground pixel inspects only its left and top neighbors, and there is no
selectable connectivity flag (`gs_blobs` takes none).  Consequently any two
horizontally or vertically adjacent labeled cells end up with the same final
label. -/
theorem c3_four_connectivity (img : GsImage) (nblobs : ℕ) (hw0 : 0 < img.w) :
    ∀ i, (i % img.w ≠ 0 → (gs_blobs img nblobs).labels i ≠ 0 →
        (gs_blobs img nblobs).labels (i - 1) ≠ 0 →
        (gs_blobs img nblobs).labels i =
          (gs_blobs img nblobs).labels (i - 1)) ∧
      (img.w ≤ i → (gs_blobs img nblobs).labels i ≠ 0 →
        (gs_blobs img nblobs).labels (i - img.w) ≠ 0 →
        (gs_blobs img nblobs).labels i =
          (gs_blobs img nblobs).labels (i - img.w)) := by
  intro i
  have hs := blobScan_inv img.data img.w img.h nblobs hw0
  have hform := blobFinal_labels img nblobs hw0
  constructor
  · intro hmod hi hi1
    rw [gs_blobs_labels] at hi hi1 ⊢
    rw [hform i] at hi ⊢
    rw [hform (i - 1)] at hi1 ⊢
    by_cases h0 : (blobScan img.data img.w img.h nblobs).labels i = 0
    · rw [if_pos h0] at hi
      exact absurd rfl hi
    by_cases h1 : (blobScan img.data img.w img.h nblobs).labels (i - 1) = 0
    · rw [if_pos h1] at hi1
      exact absurd rfl hi1
    rw [if_neg h0, if_neg h1]
    have hiN : i < img.w * img.h := by
      by_contra h
      push_neg at h
      exact h0 (hs.labels_hi i h)
    rw [hs.adj_left i hiN hmod h0 h1]
  · intro hle hi hiw
    rw [gs_blobs_labels] at hi hiw ⊢
    rw [hform i] at hi ⊢
    rw [hform (i - img.w)] at hiw ⊢
    by_cases h0 : (blobScan img.data img.w img.h nblobs).labels i = 0
    · rw [if_pos h0] at hi
      exact absurd rfl hi
    by_cases h1 : (blobScan img.data img.w img.h nblobs).labels (i - img.w) = 0
    · rw [if_pos h1] at hiw
      exact absurd rfl hiw
    rw [if_neg h0, if_neg h1]
    have hiN : i < img.w * img.h := by
      by_contra h
      push_neg at h
      exact h0 (hs.labels_hi i h)
    rw [hs.adj_top i hiN hle h0 h1]

theorem c3_four_connectivity_witness :
    0 < c3img.w ∧
    ∀ i, (i % c3img.w ≠ 0 → (gs_blobs c3img 4).labels i ≠ 0 →
        (gs_blobs c3img 4).labels (i - 1) ≠ 0 →
        (gs_blobs c3img 4).labels i = (gs_blobs c3img 4).labels (i - 1)) ∧
      (c3img.w ≤ i → (gs_blobs c3img 4).labels i ≠ 0 →
        (gs_blobs c3img 4).labels (i - c3img.w) ≠ 0 →
        (gs_blobs c3img 4).labels i =
          (gs_blobs c3img 4).labels (i - c3img.w)) :=
  ⟨by decide, c3_four_connectivity c3img 4 (by decide)⟩

/-- C3 counterexample: two diagonally adjacent foreground pixels yield TWO
blobs — `gs_blobs` has no 8-connectivity mode and no flag to select one, so
the claimed selectable diagonal-neighbor inspection does not exist. -/
theorem c3_counterexample : (gs_blobs c3img 4).count = 2 := by decide

/-- The matcher never emits more than the caller's match capacity. -/
theorem gs_match_orb_length_le (kps1 kps2 : List GsKeypoint) (cap : ℕ)
    (maxd : ℚ) : (gs_match_orb kps1 kps2 cap maxd).length ≤ cap := by
  rw [gs_match_orb_eq_foldl]
  suffices H : ∀ (rng : List ℕ) (ms : List GsMatch), ms.length ≤ cap →
      ((rng.foldl (matchStep kps1 kps2 cap maxd) ms).length ≤ cap) by
    exact H _ [] (Nat.zero_le cap)
  intro rng
  induction rng with
  | nil =>
    intro ms h
    exact h
  | cons a l ih =>
    intro ms h
    rw [List.foldl_cons]
    exact ih _ (matchStep_length kps1 kps2 cap maxd ms a h)

/-!
## FAST corner detector (`gs_fast`)

The C arrays `dx[16]`, `dy[16]` hold offsets in `[-3, 3]`; the model stores
them shifted by `+3` so all coordinates remain in ℕ (`x + dxP - 3` never
truncates for interior pixels `x ≥ 3`).  The comparisons `v > p + threshold`
and `v < p - threshold` promote `p` to `unsigned` (C usual arithmetic
conversions), so they are modelled with the explicit `% 2^32` wraparound: in
particular `p - threshold` wraps to a huge value when `threshold > p`.
For `img.h < 3` the C loop bound `img.h - 3` itself wraps and the code reads
out of bounds (undefined behaviour); the model's ℕ subtraction makes those
loops empty instead.
-/

/-- `dx[16] + 3`. -/
def fastDxP : ℕ → ℕ := fun i =>
  [3, 4, 5, 6, 6, 6, 5, 4, 3, 2, 1, 0, 0, 0, 1, 2].getD i 0

/-- `dy[16] + 3`. -/
def fastDyP : ℕ → ℕ := fun i =>
  [0, 0, 1, 2, 3, 4, 5, 6, 6, 6, 5, 4, 3, 2, 1, 0].getD i 0

/-- `v > p + threshold` with C unsigned arithmetic (sum taken mod `2^32`). -/
def fastBright (v p t : ℕ) : Prop := (p + t) % 4294967296 < v

/-- `v < p - threshold` with C unsigned arithmetic: the subtraction wraps
around when `threshold > p`. -/
def fastDark (v p t : ℕ) : Prop :=
  v < (p + 4294967296 - t % 4294967296) % 4294967296

instance (v p t : ℕ) : Decidable (fastBright v p t) :=
  inferInstanceAs (Decidable ((p + t) % 4294967296 < v))

instance (v p t : ℕ) : Decidable (fastDark v p t) :=
  inferInstanceAs
    (Decidable (v < (p + 4294967296 - t % 4294967296) % 4294967296))

/-- Ring sample `idx` around interior pixel `(x, y)`, read by direct buffer
indexing as in the first pass. -/
def fastSample (img : GsImage) (x y idx : ℕ) : ℕ :=
  img.data ((y + fastDyP idx - 3) * img.w + (x + fastDxP idx - 3))

/-- The `score` computation on a break: minimum absolute deviation from the
center over all 16 ring samples, read through `gs_get` as the C does. -/
def fastRingMin (img : GsImage) (p x y : ℕ) : ℕ :=
  (List.range 16).foldl
    (fun score j =>
      let d := ((gs_get img (x + fastDxP j - 3) (y + fastDyP j - 3) : ℤ) -
        (p : ℤ)).natAbs
      if d < score then d else score)
    255

/-- One step of the 16+9 run scan: state is the signed run counter and the
score found on a break (`none` while still scanning). -/
def fastScanStep (img : GsImage) (threshold p x y : ℕ) (st : ℤ × Option ℕ)
    (i : ℕ) : ℤ × Option ℕ :=
  match st.2 with
  | some _ => st
  | none =>
    let v := fastSample img x y (i % 16)
    let run : ℤ :=
      if fastBright v p threshold then (if 0 < st.1 then st.1 + 1 else 1)
      else if fastDark v p threshold then (if st.1 < 0 then st.1 - 1 else -1)
      else 0
    if 9 ≤ run ∨ run ≤ -9 then (run, some (fastRingMin img p x y))
    else (run, none)

/-- Score-map value computed by the first pass of `gs_fast` at interior
`(x, y)`: 0 unless the run scan breaks, then the ring minimum. -/
def fastScan (img : GsImage) (threshold x y : ℕ) : ℕ :=
  match ((List.range 25).foldl
      (fastScanStep img threshold (img.data (y * img.w + x)) x y)
      ((0 : ℤ), (none : Option ℕ))).2 with
  | some s => s
  | none => 0

/-- Interior pixels (margin 3) in raster-scan order, as `(x, y)` pairs. -/
def fastInterior (w h : ℕ) : List (ℕ × ℕ) :=
  (List.range (h - 6)).flatMap
    (fun r => (List.range (w - 6)).map (fun c => (c + 3, r + 3)))

/-- First pass of `gs_fast`: fill the caller's score map over the interior. -/
def fastScoremap (img : GsImage) (sm0 : ℕ → ℕ) (threshold : ℕ) : ℕ → ℕ :=
  (fastInterior img.w img.h).foldl
    (fun sm xy => Function.update sm (xy.2 * img.w + xy.1)
      (fastScan img threshold xy.1 xy.2))
    sm0

/-- The 8-neighbour offsets `(xx + 1, yy + 1)` scanned by the NMS pass, in
the C loop order. -/
def fastNeighbors : List (ℕ × ℕ) :=
  [(0, 0), (1, 0), (2, 0), (0, 1), (2, 1), (0, 2), (1, 2), (2, 2)]

/-- `is_max`: no 8-neighbour's score-map value strictly exceeds `s`. -/
def fastIsMax (sm : ℕ → ℕ) (w s x y : ℕ) : Bool :=
  fastNeighbors.all fun d => decide (sm ((y + d.2 - 1) * w + (x + d.1 - 1)) ≤ s)

/-- Second pass of `gs_fast`: scan the interior in raster order, skip zero
scores, and append a keypoint for every local maximum while below capacity. -/
def fastNMS (img : GsImage) (sm : ℕ → ℕ) (nkps : ℕ) : List GsKeypoint :=
  (fastInterior img.w img.h).foldl
    (fun kps xy =>
      if sm (xy.2 * img.w + xy.1) = 0 then kps
      else if fastIsMax sm img.w (sm (xy.2 * img.w + xy.1)) xy.1 xy.2 ∧
          kps.length < nkps then
        kps ++ [⟨xy.1, xy.2, sm (xy.2 * img.w + xy.1), 0, fun _ => 0⟩]
      else kps)
    []

/-- `gs_fast`: returns the keypoint count, the filled score map, and the
emitted keypoints (the count is the length of the emitted prefix). -/
def gs_fast (img : GsImage) (sm0 : ℕ → ℕ) (nkps threshold : ℕ) :
    ℕ × (ℕ → ℕ) × List GsKeypoint :=
  let sm := fastScoremap img sm0 threshold
  let kps := fastNMS img sm nkps
  (kps.length, sm, kps)

/-- The run-counter transition of one scan step, by sample class (`1` bright,
`-1` dark, anything else neither). -/
def runUpd (t r : ℤ) : ℤ :=
  if t = 1 then (if 0 < r then r + 1 else 1)
  else if t = -1 then (if r < 0 then r - 1 else -1)
  else 0

/-- Classification of ring sample `idx`: bright `1`, dark `-1`, neither `0`
(with the C's unsigned comparisons). -/
def fastType (img : GsImage) (threshold p x y idx : ℕ) : ℤ :=
  if fastBright (fastSample img x y idx) p threshold then 1
  else if fastDark (fastSample img x y idx) p threshold then -1
  else 0

theorem fastType_cases (img : GsImage) (threshold p x y idx : ℕ) :
    fastType img threshold p x y idx = 1 ∨ fastType img threshold p x y idx = -1 ∨
    fastType img threshold p x y idx = 0 := by
  unfold fastType
  by_cases hb : fastBright (fastSample img x y idx) p threshold
  · rw [if_pos hb]
    exact Or.inl rfl
  · rw [if_neg hb]
    by_cases hd : fastDark (fastSample img x y idx) p threshold
    · rw [if_pos hd]
      exact Or.inr (Or.inl rfl)
    · rw [if_neg hd]
      exact Or.inr (Or.inr rfl)

theorem runUpd_one_pos (r : ℤ) (h : 0 < r) : runUpd 1 r = r + 1 := by
  unfold runUpd
  rw [if_pos rfl, if_pos h]

theorem runUpd_one_nonpos (r : ℤ) (h : ¬ 0 < r) : runUpd 1 r = 1 := by
  unfold runUpd
  rw [if_pos rfl, if_neg h]

theorem runUpd_negone_neg (r : ℤ) (h : r < 0) : runUpd (-1) r = r - 1 := by
  unfold runUpd
  rw [if_neg (by decide), if_pos rfl, if_pos h]

theorem runUpd_negone_nonneg (r : ℤ) (h : ¬ r < 0) : runUpd (-1) r = -1 := by
  unfold runUpd
  rw [if_neg (by decide), if_pos rfl, if_neg h]

theorem runUpd_zero (t r : ℤ) (h1 : t ≠ 1) (h2 : t ≠ -1) : runUpd t r = 0 := by
  unfold runUpd
  rw [if_neg h1, if_neg h2]

/-- A break (`run` hitting `±9`) forces a saturated run of the same sign. -/
theorem runUpd_break (t r : ℤ) (hr : -8 ≤ r ∧ r ≤ 8)
    (hb : 9 ≤ runUpd t r ∨ runUpd t r ≤ -9) :
    (t = 1 ∧ r = 8) ∨ (t = -1 ∧ r = -8) := by
  unfold runUpd at hb
  by_cases h1 : t = 1
  · left
    refine ⟨h1, ?_⟩
    rw [if_pos h1] at hb
    by_cases hp : 0 < r
    · rw [if_pos hp] at hb
      omega
    · rw [if_neg hp] at hb
      omega
  · by_cases h2 : t = -1
    · right
      refine ⟨h2, ?_⟩
      rw [if_neg h1, if_pos h2] at hb
      by_cases hn : r < 0
      · rw [if_pos hn] at hb
        omega
      · rw [if_neg hn] at hb
        omega
    · rw [if_neg h1, if_neg h2] at hb
      omega

theorem runUpd_eq (img : GsImage) (threshold p x y : ℕ) (r : ℤ) (i : ℕ) :
    (if fastBright (fastSample img x y (i % 16)) p threshold then
      (if 0 < r then r + 1 else 1)
    else if fastDark (fastSample img x y (i % 16)) p threshold then
      (if r < 0 then r - 1 else -1)
    else 0) = runUpd (fastType img threshold p x y (i % 16)) r := by
  by_cases hb : fastBright (fastSample img x y (i % 16)) p threshold
  · rw [if_pos hb]
    have ht : fastType img threshold p x y (i % 16) = 1 := by
      unfold fastType
      rw [if_pos hb]
    rw [ht]
    by_cases hp : 0 < r
    · rw [if_pos hp, runUpd_one_pos r hp]
    · rw [if_neg hp, runUpd_one_nonpos r hp]
  · rw [if_neg hb]
    by_cases hd : fastDark (fastSample img x y (i % 16)) p threshold
    · rw [if_pos hd]
      have ht : fastType img threshold p x y (i % 16) = -1 := by
        unfold fastType
        rw [if_neg hb, if_pos hd]
      rw [ht]
      by_cases hn : r < 0
      · rw [if_pos hn, runUpd_negone_neg r hn]
      · rw [if_neg hn, runUpd_negone_nonneg r hn]
    · rw [if_neg hd]
      have ht : fastType img threshold p x y (i % 16) = 0 := by
        unfold fastType
        rw [if_neg hb, if_neg hd]
      rw [ht, runUpd_zero 0 r (by decide) (by decide)]

theorem fastScanStep_some (img : GsImage) (threshold p x y : ℕ) (r : ℤ)
    (s : ℕ) (i : ℕ) :
    fastScanStep img threshold p x y (r, some s) i = (r, some s) := rfl

theorem fastScanStep_none (img : GsImage) (threshold p x y : ℕ) (r : ℤ)
    (i : ℕ) :
    fastScanStep img threshold p x y (r, none) i =
      (if 9 ≤ runUpd (fastType img threshold p x y (i % 16)) r ∨
          runUpd (fastType img threshold p x y (i % 16)) r ≤ -9 then
        (runUpd (fastType img threshold p x y (i % 16)) r,
          some (fastRingMin img p x y))
       else (runUpd (fastType img threshold p x y (i % 16)) r, none)) := by
  rw [← runUpd_eq img threshold p x y r i]
  rfl

/-- A contiguous window of nine uniformly bright or uniformly dark ring
samples starting at scan position `j` (sample indices taken mod 16): the
spec's "contiguous run of at least 9 samples" under the code's comparisons. -/
def fastWindow (img : GsImage) (threshold p x y j : ℕ) : Prop :=
  (∀ k, k < 9 → fastType img threshold p x y ((j + k) % 16) = 1) ∨
  (∀ k, k < 9 → fastType img threshold p x y ((j + k) % 16) = -1)

/-- Some circular run of ≥ 9 uniform samples exists around `(x, y)`. -/
def fastHasRun (img : GsImage) (threshold p x y : ℕ) : Prop :=
  ∃ j, j < 16 ∧ fastWindow img threshold p x y j

instance (img : GsImage) (threshold p x y j : ℕ) :
    Decidable (fastWindow img threshold p x y j) := by
  unfold fastWindow
  infer_instance

instance (img : GsImage) (threshold p x y : ℕ) :
    Decidable (fastHasRun img threshold p x y) := by
  unfold fastHasRun
  infer_instance

/-- What the signed run counter encodes after `n` scan steps without a break:
the exact length and sign of the maximal uniform suffix, capped below 9. -/
def RunEnc (img : GsImage) (threshold p x y n : ℕ) (r : ℤ) : Prop :=
  (r = 0 ∧ (n = 0 ∨ fastType img threshold p x y ((n - 1) % 16) = 0)) ∨
  (∃ m : ℕ, 1 ≤ m ∧ m ≤ 8 ∧ r = (m : ℤ) ∧ m ≤ n ∧
    (∀ k, k < m → fastType img threshold p x y ((n - 1 - k) % 16) = 1) ∧
    (m = n ∨ fastType img threshold p x y ((n - 1 - m) % 16) ≠ 1)) ∨
  (∃ m : ℕ, 1 ≤ m ∧ m ≤ 8 ∧ r = -(m : ℤ) ∧ m ≤ n ∧
    (∀ k, k < m → fastType img threshold p x y ((n - 1 - k) % 16) = -1) ∧
    (m = n ∨ fastType img threshold p x y ((n - 1 - m) % 16) ≠ -1))

/-- Invariant of the 16+9 run scan after `n` steps. -/
def ScanInvF (img : GsImage) (threshold p x y n : ℕ)
    (st : ℤ × Option ℕ) : Prop :=
  (∀ s, st.2 = some s → s = fastRingMin img p x y ∧
      ∃ j, j + 9 ≤ n ∧ fastWindow img threshold p x y j) ∧
  (st.2 = none →
    (∀ j, j + 9 ≤ n → ¬ fastWindow img threshold p x y j) ∧
    RunEnc img threshold p x y n st.1)

theorem runEnc_bound (img : GsImage) (threshold p x y n : ℕ) (r : ℤ)
    (h : RunEnc img threshold p x y n r) : -8 ≤ r ∧ r ≤ 8 := by
  unfold RunEnc at h
  rcases h with ⟨h0, _⟩ | ⟨m, hm1, hm8, hrm, _⟩ | ⟨m, hm1, hm8, hrm, _⟩ <;> omega

/-- A saturated uniform suffix turns into a 9-window with the next sample. -/
theorem window_of_run (img : GsImage) (threshold p x y n : ℕ) (t : ℤ)
    (hn : 8 ≤ n) (ht : fastType img threshold p x y (n % 16) = t)
    (htrail : ∀ k, k < 8 → fastType img threshold p x y ((n - 1 - k) % 16) = t) :
    ∀ k, k < 9 → fastType img threshold p x y ((n - 8 + k) % 16) = t := by
  intro k hk
  by_cases hk8 : k = 8
  · rw [show n - 8 + k = n from by omega]
    exact ht
  · rw [show n - 8 + k = n - 1 - (7 - k) from by omega]
    exact htrail (7 - k) (by omega)

/-- Conversely, a 9-window ending at scan position `n` gives the current
sample's class and a uniform suffix of length 8. -/
theorem trailing_of_window (img : GsImage) (threshold p x y n j : ℕ) (t : ℤ)
    (hj : j + 9 = n + 1)
    (hw : ∀ k, k < 9 → fastType img threshold p x y ((j + k) % 16) = t) :
    fastType img threshold p x y (n % 16) = t ∧
    (∀ k, k < 8 → fastType img threshold p x y ((n - 1 - k) % 16) = t) := by
  constructor
  · rw [show n = j + 8 from by omega]
    exact hw 8 (by omega)
  · intro k hk
    rw [show n - 1 - k = j + (7 - k) from by omega]
    exact hw (7 - k) (by omega)

theorem runEnc_sat_pos (img : GsImage) (threshold p x y n : ℕ) (r : ℤ)
    (henc : RunEnc img threshold p x y n r) (hn : 8 ≤ n)
    (ht : fastType img threshold p x y (n % 16) = 1)
    (htrail : ∀ k, k < 8 →
      fastType img threshold p x y ((n - 1 - k) % 16) = 1) :
    r = 8 := by
  unfold RunEnc at henc
  rcases henc with ⟨hr0, hz⟩ | ⟨m, hm1, hm8, hrm, hmn, htr, hbd⟩ |
    ⟨m, hm1, hm8, hrm, hmn, htr, hbd⟩
  · exfalso
    rcases hz with h0 | hzt
    · omega
    · have h1 := htrail 0 (by omega)
      rw [show n - 1 - 0 = n - 1 from by omega] at h1
      rw [h1] at hzt
      exact absurd hzt (by decide)
  · have hm8' : m = 8 := by
      by_contra hm'
      rcases hbd with hmn' | hb
      · omega
      · exact hb (htrail m (by omega))
    omega
  · exfalso
    have h1 := htrail 0 (by omega)
    have h2 := htr 0 (by omega)
    omega

theorem runEnc_sat_neg (img : GsImage) (threshold p x y n : ℕ) (r : ℤ)
    (henc : RunEnc img threshold p x y n r) (hn : 8 ≤ n)
    (ht : fastType img threshold p x y (n % 16) = -1)
    (htrail : ∀ k, k < 8 →
      fastType img threshold p x y ((n - 1 - k) % 16) = -1) :
    r = -8 := by
  unfold RunEnc at henc
  rcases henc with ⟨hr0, hz⟩ | ⟨m, hm1, hm8, hrm, hmn, htr, hbd⟩ |
    ⟨m, hm1, hm8, hrm, hmn, htr, hbd⟩
  · exfalso
    rcases hz with h0 | hzt
    · omega
    · have h1 := htrail 0 (by omega)
      rw [show n - 1 - 0 = n - 1 from by omega] at h1
      rw [h1] at hzt
      exact absurd hzt (by decide)
  · exfalso
    have h1 := htrail 0 (by omega)
    have h2 := htr 0 (by omega)
    omega
  · have hm8' : m = 8 := by
      by_contra hm'
      rcases hbd with hmn' | hb
      · omega
      · exact hb (htrail m (by omega))
    omega

theorem scanInvF_init (img : GsImage) (threshold p x y : ℕ) :
    ScanInvF img threshold p x y 0 ((0 : ℤ), none) := by
  unfold ScanInvF
  refine ⟨?_, ?_⟩
  · intro s hs
    exact Option.noConfusion hs
  · intro _
    refine ⟨?_, ?_⟩
    · intro j hj
      exact absurd hj (by omega)
    · unfold RunEnc
      left
      exact ⟨rfl, Or.inl rfl⟩

theorem scanInvF_step (img : GsImage) (threshold p x y n : ℕ)
    (st : ℤ × Option ℕ) (hinv : ScanInvF img threshold p x y n st) :
    ScanInvF img threshold p x y (n + 1)
      (fastScanStep img threshold p x y st n) := by
  unfold ScanInvF at hinv ⊢
  obtain ⟨r, fo⟩ := st
  cases fo with
  | some s =>
    rw [fastScanStep_some]
    obtain ⟨hs, j, hj, hw⟩ := hinv.1 s rfl
    refine ⟨?_, ?_⟩
    · intro s' hs'
      have he : s = s' := Option.some.inj hs'
      subst he
      exact ⟨hs, j, by omega, hw⟩
    · intro hnone
      exact Option.noConfusion hnone
  | none =>
    obtain ⟨hnowin, henc0⟩ := hinv.2 rfl
    have henc : RunEnc img threshold p x y n r := henc0
    rw [fastScanStep_none]
    set t := fastType img threshold p x y (n % 16) with htdef
    set rq := runUpd t r with hrqdef
    have hbound := runEnc_bound img threshold p x y n r henc
    by_cases hbr : 9 ≤ rq ∨ rq ≤ -9
    · rw [if_pos hbr]
      refine ⟨?_, ?_⟩
      · intro s' hs'
        have hs : fastRingMin img p x y = s' := Option.some.inj hs'
        refine ⟨hs.symm, ?_⟩
        have hcase := runUpd_break t r hbound (by rw [← hrqdef]; exact hbr)
        rcases hcase with ⟨ht1, hr8⟩ | ⟨htm1, hrm8⟩
        · unfold RunEnc at henc
          rcases henc with ⟨h0, _⟩ | ⟨m, hm1, hm8, hrm, hmn, htr, _⟩ |
            ⟨m, hm1, _, hrm, _, _, _⟩
          · omega
          · have hm8' : m = 8 := by omega
            subst hm8'
            rw [htdef] at ht1
            refine ⟨n - 8, by omega, Or.inl ?_⟩
            exact window_of_run img threshold p x y n 1 (by omega) ht1 htr
          · omega
        · unfold RunEnc at henc
          rcases henc with ⟨h0, _⟩ | ⟨m, hm1, _, hrm, _, _, _⟩ |
            ⟨m, hm1, hm8, hrm, hmn, htr, _⟩
          · omega
          · omega
          · have hm8' : m = 8 := by omega
            subst hm8'
            rw [htdef] at htm1
            refine ⟨n - 8, by omega, Or.inr ?_⟩
            exact window_of_run img threshold p x y n (-1) (by omega) htm1 htr
      · intro hnone
        exact Option.noConfusion hnone
    · rw [if_neg hbr]
      refine ⟨?_, ?_⟩
      · intro s' hs'
        exact Option.noConfusion hs'
      · intro _
        refine ⟨?_, ?_⟩
        · intro j hj hw
          by_cases hjn : j + 9 ≤ n
          · exact hnowin j hjn hw
          · have hj1 : j + 9 = n + 1 := by omega
            unfold fastWindow at hw
            rcases hw with hw1 | hwm
            · obtain ⟨hth, htrail⟩ :=
                trailing_of_window img threshold p x y n j 1 hj1 hw1
              have h8 : r = 8 :=
                runEnc_sat_pos img threshold p x y n r henc (by omega) hth
                  htrail
              apply hbr
              left
              rw [hrqdef, htdef, hth, runUpd_one_pos r (by omega), h8]
              decide
            · obtain ⟨hth, htrail⟩ :=
                trailing_of_window img threshold p x y n j (-1) hj1 hwm
              have h8 : r = -8 :=
                runEnc_sat_neg img threshold p x y n r henc (by omega) hth
                  htrail
              apply hbr
              right
              rw [hrqdef, htdef, hth, runUpd_negone_neg r (by omega), h8]
              decide
        · have hc := fastType_cases img threshold p x y (n % 16)
          rw [← htdef] at hc
          unfold RunEnc at henc ⊢
          rcases hc with ht1 | htm1 | ht0
          · rcases henc with ⟨hr0, hz⟩ | ⟨m, hm1, hm8, hrm, hmn, htr, hbd⟩ |
              ⟨m, hm1, hm8, hrm, hmn, htr, hbd⟩
            · right
              left
              refine ⟨1, by omega, by omega, ?_, by omega, ?_, ?_⟩
              · rw [hrqdef, ht1, runUpd_one_nonpos r (by omega)]
                omega
              · intro k hk
                rw [show n + 1 - 1 - k = n from by omega]
                rw [htdef] at ht1
                exact ht1
              · rcases hz with hn0 | hzt
                · left
                  omega
                · right
                  rw [show n + 1 - 1 - 1 = n - 1 from by omega]
                  intro hcon
                  rw [hzt] at hcon
                  exact absurd hcon (by decide)
            · have hm7 : m ≤ 7 := by
                by_contra hm'
                have hm8' : m = 8 := by omega
                apply hbr
                left
                rw [hrqdef, ht1, runUpd_one_pos r (by omega), hrm, hm8']
                decide
              right
              left
              refine ⟨m + 1, by omega, by omega, ?_, by omega, ?_, ?_⟩
              · rw [hrqdef, ht1, runUpd_one_pos r (by omega), hrm]
                push_cast
                ring
              · intro k hk
                by_cases hk0 : k = 0
                · rw [hk0, show n + 1 - 1 - 0 = n from by omega]
                  rw [htdef] at ht1
                  exact ht1
                · rw [show n + 1 - 1 - k = n - 1 - (k - 1) from by omega]
                  exact htr (k - 1) (by omega)
              · rcases hbd with hmn' | hb
                · left
                  omega
                · right
                  rw [show n + 1 - 1 - (m + 1) = n - 1 - m from by omega]
                  exact hb
            · right
              left
              refine ⟨1, by omega, by omega, ?_, by omega, ?_, ?_⟩
              · rw [hrqdef, ht1, runUpd_one_nonpos r (by omega)]
                omega
              · intro k hk
                rw [show n + 1 - 1 - k = n from by omega]
                rw [htdef] at ht1
                exact ht1
              · right
                rw [show n + 1 - 1 - 1 = n - 1 from by omega]
                have h0 := htr 0 (by omega)
                rw [show n - 1 - 0 = n - 1 from by omega] at h0
                intro hcon
                rw [h0] at hcon
                exact absurd hcon (by decide)
          · rcases henc with ⟨hr0, hz⟩ | ⟨m, hm1, hm8, hrm, hmn, htr, hbd⟩ |
              ⟨m, hm1, hm8, hrm, hmn, htr, hbd⟩
            · right
              right
              refine ⟨1, by omega, by omega, ?_, by omega, ?_, ?_⟩
              · rw [hrqdef, htm1, runUpd_negone_nonneg r (by omega)]
                omega
              · intro k hk
                rw [show n + 1 - 1 - k = n from by omega]
                rw [htdef] at htm1
                exact htm1
              · rcases hz with hn0 | hzt
                · left
                  omega
                · right
                  rw [show n + 1 - 1 - 1 = n - 1 from by omega]
                  intro hcon
                  rw [hzt] at hcon
                  exact absurd hcon (by decide)
            · right
              right
              refine ⟨1, by omega, by omega, ?_, by omega, ?_, ?_⟩
              · rw [hrqdef, htm1, runUpd_negone_nonneg r (by omega)]
                omega
              · intro k hk
                rw [show n + 1 - 1 - k = n from by omega]
                rw [htdef] at htm1
                exact htm1
              · right
                rw [show n + 1 - 1 - 1 = n - 1 from by omega]
                have h0 := htr 0 (by omega)
                rw [show n - 1 - 0 = n - 1 from by omega] at h0
                intro hcon
                rw [h0] at hcon
                exact absurd hcon (by decide)
            · have hm7 : m ≤ 7 := by
                by_contra hm'
                have hm8' : m = 8 := by omega
                apply hbr
                right
                rw [hrqdef, htm1, runUpd_negone_neg r (by omega), hrm, hm8']
                decide
              right
              right
              refine ⟨m + 1, by omega, by omega, ?_, by omega, ?_, ?_⟩
              · rw [hrqdef, htm1, runUpd_negone_neg r (by omega), hrm]
                push_cast
                ring
              · intro k hk
                by_cases hk0 : k = 0
                · rw [hk0, show n + 1 - 1 - 0 = n from by omega]
                  rw [htdef] at htm1
                  exact htm1
                · rw [show n + 1 - 1 - k = n - 1 - (k - 1) from by omega]
                  exact htr (k - 1) (by omega)
              · rcases hbd with hmn' | hb
                · left
                  omega
                · right
                  rw [show n + 1 - 1 - (m + 1) = n - 1 - m from by omega]
                  exact hb
          · left
            refine ⟨?_, Or.inr ?_⟩
            · rw [hrqdef, ht0, runUpd_zero 0 r (by decide) (by decide)]
            · rw [show n + 1 - 1 = n from by omega]
              rw [htdef] at ht0
              exact ht0

/-- The run scan breaks exactly when a circular 9-window of uniformly bright
or uniformly dark samples exists, and then the score is the ring minimum. -/
theorem fastScan_eq_run (img : GsImage) (threshold x y : ℕ) :
    fastScan img threshold x y =
      if fastHasRun img threshold (img.data (y * img.w + x)) x y then
        fastRingMin img (img.data (y * img.w + x)) x y
      else 0 := by
  have H : ∀ n, ScanInvF img threshold (img.data (y * img.w + x)) x y n
      ((List.range n).foldl
        (fastScanStep img threshold (img.data (y * img.w + x)) x y)
        ((0 : ℤ), none)) := by
    intro n
    induction n with
    | zero => exact scanInvF_init img threshold _ x y
    | succ n ih =>
      rw [foldl_range_succ]
      exact scanInvF_step img threshold _ x y n _ ih
  have h25 := H 25
  unfold ScanInvF at h25
  unfold fastScan
  cases hm : ((List.range 25).foldl
      (fastScanStep img threshold (img.data (y * img.w + x)) x y)
      ((0 : ℤ), none)).2 with
  | none =>
    obtain ⟨hnw, _⟩ := h25.2 hm
    have hno : ¬ fastHasRun img threshold (img.data (y * img.w + x)) x y := by
      intro hr
      obtain ⟨j, hj16, hw⟩ := hr
      exact hnw j (by omega) hw
    rw [if_neg hno]
  | some s =>
    obtain ⟨hs, j, hj, hw⟩ := h25.1 s hm
    have hw' : fastWindow img threshold (img.data (y * img.w + x)) x y
        (j % 16) := by
      unfold fastWindow at hw ⊢
      rcases hw with h | h
      · left
        intro k hk
        rw [show (j % 16 + k) % 16 = (j + k) % 16 from Nat.mod_add_mod j 16 k]
        exact h k hk
      · right
        intro k hk
        rw [show (j % 16 + k) % 16 = (j + k) % 16 from Nat.mod_add_mod j 16 k]
        exact h k hk
    have hyes : fastHasRun img threshold (img.data (y * img.w + x)) x y :=
      ⟨j % 16, by omega, hw'⟩
    rw [hs, if_pos hyes]

/-- Per-pixel emission decision of the NMS pass, ignoring capacity. -/
def nmsCandidate (img : GsImage) (sm : ℕ → ℕ) (xy : ℕ × ℕ) :
    Option GsKeypoint :=
  if sm (xy.2 * img.w + xy.1) ≠ 0 ∧
      fastIsMax sm img.w (sm (xy.2 * img.w + xy.1)) xy.1 xy.2 then
    some ⟨xy.1, xy.2, sm (xy.2 * img.w + xy.1), 0, fun _ => 0⟩
  else none

/-- The NMS fold emits, in raster order, exactly the first `nkps` interior
pixels whose nonzero score no 8-neighbour strictly exceeds. -/
theorem fastNMS_eq (img : GsImage) (sm : ℕ → ℕ) (nkps : ℕ) :
    fastNMS img sm nkps =
      ((fastInterior img.w img.h).filterMap (nmsCandidate img sm)).take
        nkps := by
  unfold fastNMS
  suffices H : ∀ (l : List (ℕ × ℕ)) (acc : List GsKeypoint),
      acc.length ≤ nkps →
      l.foldl
        (fun kps xy =>
          if sm (xy.2 * img.w + xy.1) = 0 then kps
          else if fastIsMax sm img.w (sm (xy.2 * img.w + xy.1)) xy.1 xy.2 ∧
              kps.length < nkps then
            kps ++ [⟨xy.1, xy.2, sm (xy.2 * img.w + xy.1), 0, fun _ => 0⟩]
          else kps)
        acc =
        acc ++ (l.filterMap (nmsCandidate img sm)).take (nkps - acc.length) by
    rw [H (fastInterior img.w img.h) [] (Nat.zero_le nkps)]
    rw [List.nil_append, List.length_nil, Nat.sub_zero]
  intro l
  induction l with
  | nil =>
    intro acc _
    rw [List.foldl_nil, List.filterMap_nil, List.take_nil, List.append_nil]
  | cons a t ih =>
    intro acc hacc
    rw [List.foldl_cons, List.filterMap_cons]
    by_cases h0 : sm (a.2 * img.w + a.1) = 0
    · rw [if_pos h0]
      have hc : nmsCandidate img sm a = none := by
        unfold nmsCandidate
        rw [if_neg (fun hc => hc.1 h0)]
      rw [hc, ih acc hacc]
    · rw [if_neg h0]
      by_cases hmax : fastIsMax sm img.w (sm (a.2 * img.w + a.1)) a.1 a.2
      · have hc : nmsCandidate img sm a =
            some ⟨a.1, a.2, sm (a.2 * img.w + a.1), 0, fun _ => 0⟩ := by
          unfold nmsCandidate
          rw [if_pos ⟨h0, hmax⟩]
        rw [hc]
        by_cases hlen : acc.length < nkps
        · rw [if_pos ⟨hmax, hlen⟩]
          have harg : (acc ++
              [(⟨a.1, a.2, sm (a.2 * img.w + a.1), 0, fun _ => 0⟩ :
                GsKeypoint)]).length ≤ nkps := by
            rw [List.length_append, List.length_singleton]
            omega
          have hstep := ih
            (acc ++ [(⟨a.1, a.2, sm (a.2 * img.w + a.1), 0, fun _ => 0⟩ :
              GsKeypoint)]) harg
          rw [hstep]
          rw [List.length_append, List.length_singleton]
          rw [show nkps - acc.length = (nkps - (acc.length + 1)) + 1 from
            by omega]
          rw [List.take_succ_cons, List.append_assoc, List.singleton_append]
        · rw [if_neg (fun hc => hlen hc.2)]
          rw [ih acc hacc]
          rw [show nkps - acc.length = 0 from by omega, List.take_zero,
            List.take_zero]
      · have hc : nmsCandidate img sm a = none := by
          unfold nmsCandidate
          rw [if_neg (fun hc => hmax hc.2)]
        rw [hc]
        rw [if_neg (fun hc => hmax hc.1)]
        rw [ih acc hacc]

/-- The keypoint count returned by `gs_fast` never exceeds the capacity. -/
theorem gs_fast_count_le (img : GsImage) (sm0 : ℕ → ℕ)
    (nkps threshold : ℕ) : (gs_fast img sm0 nkps threshold).1 ≤ nkps := by
  show (fastNMS img (fastScoremap img sm0 threshold) nkps).length ≤ nkps
  rw [fastNMS_eq, List.length_take]
  omega

theorem foldl_update_notin (w : ℕ) (g : ℕ × ℕ → ℕ) :
    ∀ (l : List (ℕ × ℕ)) (sm : ℕ → ℕ) (k : ℕ),
      (∀ b ∈ l, b.2 * w + b.1 ≠ k) →
      l.foldl (fun sm ab => Function.update sm (ab.2 * w + ab.1) (g ab)) sm
        k = sm k := by
  intro l
  induction l with
  | nil =>
    intro sm k _
    rfl
  | cons a t ih =>
    intro sm k h
    rw [List.foldl_cons, ih _ k (fun b hb => h b (List.mem_cons_of_mem a hb))]
    rw [Function.update_noteq (Ne.symm (h a (List.mem_cons_self a t)))]

/-- In a fold of single-cell writes at pairwise-distinct flat indices, the
value at a written cell is its write. -/
theorem foldl_update_get (w : ℕ) (g : ℕ × ℕ → ℕ) :
    ∀ (l : List (ℕ × ℕ)) (sm : ℕ → ℕ) (xy : ℕ × ℕ), xy ∈ l →
      (∀ b ∈ l, b.1 < w) →
      l.foldl (fun sm ab => Function.update sm (ab.2 * w + ab.1) (g ab)) sm
        (xy.2 * w + xy.1) = g xy := by
  intro l
  induction l with
  | nil =>
    intro sm xy h _
    exact absurd h (List.not_mem_nil xy)
  | cons a t ih =>
    intro sm xy hmem hbound
    rw [List.foldl_cons]
    by_cases hxt : xy ∈ t
    · exact ih _ xy hxt (fun b hb => hbound b (List.mem_cons_of_mem a hb))
    · have hxa : xy = a := by
        rcases List.mem_cons.mp hmem with h | h
        · exact h
        · exact absurd h hxt
      subst hxa
      rw [foldl_update_notin w g t _ _ ?_]
      · rw [Function.update_same]
      · intro b hb hk
        have hb1 : b.1 < w := hbound b (List.mem_cons_of_mem xy hb)
        have ha1 : xy.1 < w := hbound xy (List.mem_cons_self xy t)
        have e1 : (b.2 * w + b.1) % w = b.1 := by
          rw [Nat.mul_comm, Nat.mul_add_mod]
          exact Nat.mod_eq_of_lt hb1
        have e2 : (xy.2 * w + xy.1) % w = xy.1 := by
          rw [Nat.mul_comm, Nat.mul_add_mod]
          exact Nat.mod_eq_of_lt ha1
        have hfst : b.1 = xy.1 := by
          rw [← e1, ← e2, hk]
        have hmul : b.2 * w = xy.2 * w := by omega
        have hsnd : b.2 = xy.2 :=
          Nat.eq_of_mul_eq_mul_right (by omega) hmul
        have hbx : b = xy := by
          rw [Prod.ext_iff]
          exact ⟨hfst, hsnd⟩
        rw [hbx] at hb
        exact hxt hb

theorem fastInterior_mem (w h : ℕ) (x y : ℕ) :
    (x, y) ∈ fastInterior w h ↔
      3 ≤ x ∧ x < w - 3 ∧ 3 ≤ y ∧ y < h - 3 := by
  unfold fastInterior
  rw [List.mem_flatMap]
  constructor
  · rintro ⟨r, hr, hmem⟩
    rw [List.mem_range] at hr
    rw [List.mem_map] at hmem
    obtain ⟨c, hc, heq⟩ := hmem
    rw [List.mem_range] at hc
    have hx : c + 3 = x := congrArg Prod.fst heq
    have hy : r + 3 = y := congrArg Prod.snd heq
    omega
  · intro hbox
    refine ⟨y - 3, ?_, ?_⟩
    · rw [List.mem_range]
      omega
    · rw [List.mem_map]
      refine ⟨x - 3, ?_, ?_⟩
      · rw [List.mem_range]
        omega
      · rw [show x - 3 + 3 = x from by omega, show y - 3 + 3 = y from by omega]

theorem fastInterior_fst_lt (w h : ℕ) : ∀ b ∈ fastInterior w h, b.1 < w := by
  intro b hb
  obtain ⟨bx, byy⟩ := b
  rw [fastInterior_mem] at hb
  show bx < w
  omega

/-- The first pass writes every interior cell exactly its run-scan score. -/
theorem fastScoremap_get (img : GsImage) (sm0 : ℕ → ℕ) (threshold x y : ℕ)
    (hx3 : 3 ≤ x) (hxw : x < img.w - 3) (hy3 : 3 ≤ y) (hyh : y < img.h - 3) :
    fastScoremap img sm0 threshold (y * img.w + x) =
      fastScan img threshold x y := by
  have hmem : (x, y) ∈ fastInterior img.w img.h := by
    rw [fastInterior_mem]
    exact ⟨hx3, hxw, hy3, hyh⟩
  exact foldl_update_get img.w
    (fun xy => fastScan img threshold xy.1 xy.2)
    (fastInterior img.w img.h) sm0 (x, y) hmem
    (fastInterior_fst_lt img.w img.h)

/-!
## Moore-neighbour boundary tracer (`gs_trace_contour`)

The C offset tables `dx[8]`, `dy[8]` (E, SE, S, SW, W, NW, N, NE with y
growing downward) hold values in `[-1, 1]`; the model stores them shifted by
`+1` and keeps all coordinates in ℕ: a neighbour `p.x + dx[d]` is in bounds
iff `1 ≤ p.x + dxP d` and `p.x + dxP d < img.w + 1`, and its coordinate is
`p.x + dxP d - 1`.  The C loop has no bound; the model burns explicit fuel,
and a finished state (`done`) absorbs any leftover fuel, so a terminating
C run equals the model at every sufficiently large fuel. -/

/-- `dx[8] + 1`. -/
def traceDxP : ℕ → ℕ := fun d => [2, 2, 1, 0, 0, 0, 1, 2].getD d 1

/-- `dy[8] + 1`. -/
def traceDyP : ℕ → ℕ := fun d => [1, 2, 2, 2, 1, 0, 0, 0].getD d 1

/-- One candidate of the 8-neighbour scan: the neighbour of `(px, py)` in
direction `d` when it is in bounds and strictly brighter than 128, with the
new arrival direction `(d + 6) % 8`. -/
def traceCand (img : GsImage) (px py d : ℕ) : Option (ℕ × ℕ × ℕ) :=
  if 1 ≤ px + traceDxP d ∧ px + traceDxP d < img.w + 1 ∧
      1 ≤ py + traceDyP d ∧ py + traceDyP d < img.h + 1 ∧
      128 < img.data ((py + traceDyP d - 1) * img.w + (px + traceDxP d - 1))
  then some (px + traceDxP d - 1, py + traceDyP d - 1, (d + 6) % 8)
  else none

/-- The 8-neighbour ring scan, starting one past the arrival direction: the
first qualifying neighbour in rotational order. -/
def traceFind (img : GsImage) (px py dir : ℕ) : Option (ℕ × ℕ × ℕ) :=
  (traceCand img px py ((dir + 1) % 8)).or
    ((traceCand img px py ((dir + 2) % 8)).or
      ((traceCand img px py ((dir + 3) % 8)).or
        ((traceCand img px py ((dir + 4) % 8)).or
          ((traceCand img px py ((dir + 5) % 8)).or
            ((traceCand img px py ((dir + 6) % 8)).or
              ((traceCand img px py ((dir + 7) % 8)).or
                (traceCand img px py ((dir + 8) % 8))))))))

/-- The mutable state of `gs_trace_contour`: current point, arrival
direction, the `seenstart` flag, the visited buffer, the distinct-pixel
counter, the running bounding box, and whether the loop has exited. -/
structure TraceState where
  p : ℕ × ℕ
  dir : ℕ
  seenstart : Bool
  visited : ℕ → ℕ
  length : ℕ
  box : GsRect
  done : Bool

/-- One iteration of the tracing loop: count/mark the current pixel, scan the
ring; stop on no qualifying neighbour (open curve), else move, grow the box,
and stop when the start is reached for the second time (closed curve). -/
def traceStep (img : GsImage) (start : ℕ × ℕ) (st : TraceState) : TraceState :=
  if st.done then st
  else
    let vis1 := Function.update st.visited (st.p.2 * img.w + st.p.1) 255
    let len1 := if st.visited (st.p.2 * img.w + st.p.1) = 0 then st.length + 1
                else st.length
    match traceFind img st.p.1 st.p.2 st.dir with
    | none => { st with visited := vis1, length := len1, done := true }
    | some (nx, ny, nd) =>
      { p := (nx, ny), dir := nd,
        seenstart := st.seenstart || decide ((nx, ny) = start),
        visited := vis1, length := len1,
        box := ⟨min st.box.x nx, min st.box.y ny,
          max st.box.w (nx - min st.box.x nx + 1),
          max st.box.h (ny - min st.box.y ny + 1)⟩,
        done := st.seenstart && decide ((nx, ny) = start) }

def traceLoop (img : GsImage) (start : ℕ × ℕ) : ℕ → TraceState → TraceState
  | 0, st => st
  | n + 1, st => traceLoop img start n (traceStep img start st)

/-- `gs_trace_contour` with start `(sx, sy)` and `dir = 7`, run for `fuel`
iterations of the unbounded C loop. -/
def gs_trace_contour (img : GsImage) (vis0 : ℕ → ℕ) (sx sy fuel : ℕ) :
    TraceState :=
  traceLoop img (sx, sy) fuel
    ⟨(sx, sy), 7, false, vis0, 0, ⟨sx, sy, 1, 1⟩, false⟩

/-- The 5×5 image of the repository's `test_trace_contour`. -/
def traceTestImg : GsImage :=
  ⟨5, 5, true, fun i =>
    [0, 255, 255, 255, 0,
     0, 255, 255, 255, 0,
     0, 255, 0, 255, 255,
     0, 255, 255, 255, 0,
     0, 0, 255, 0, 255].getD i 0⟩

/-- The embedding reproduces the repository's own trace test exactly: start
`(1, 0)`, contour length 10, bounding box `(1, 0, 4, 5)`, and the expected
visited pattern. -/
theorem trace_repo_test :
    (gs_trace_contour traceTestImg (fun _ => 0) 1 0 64).done = true ∧
    (gs_trace_contour traceTestImg (fun _ => 0) 1 0 64).length = 10 ∧
    (gs_trace_contour traceTestImg (fun _ => 0) 1 0 64).box = ⟨1, 0, 4, 5⟩ ∧
    (∀ i, i < 25 →
      (gs_trace_contour traceTestImg (fun _ => 0) 1 0 64).visited i =
        [0, 255, 255, 255, 0,
         0, 255, 0, 255, 0,
         0, 255, 0, 0, 255,
         0, 255, 0, 255, 0,
         0, 0, 255, 0, 0].getD i 0) := by
  refine ⟨by decide, by decide, by decide, by decide⟩

/-- An 8×8 image whose foreground is exactly the filled 6×6 rectangle with
origin `(1, 1)`. -/
def c8img : GsImage :=
  ⟨8, 8, true, fun i =>
    if 1 ≤ i % 8 ∧ i % 8 < 7 ∧ 1 ≤ i / 8 ∧ i / 8 < 7 then 255 else 0⟩

/-- The control-relevant part of a trace state: the visited buffer and the
length counter never influence the walk, the box, or termination. -/
structure CtrlState where
  p : ℕ × ℕ
  dir : ℕ
  seenstart : Bool
  done : Bool
  box : GsRect

def ctrlOf (st : TraceState) : CtrlState :=
  ⟨st.p, st.dir, st.seenstart, st.done, st.box⟩

/-- `traceStep` restricted to the control components. -/
def ctrlStep (img : GsImage) (start : ℕ × ℕ) (c : CtrlState) : CtrlState :=
  if c.done then c
  else
    match traceFind img c.p.1 c.p.2 c.dir with
    | none => { c with done := true }
    | some (nx, ny, nd) =>
      { p := (nx, ny), dir := nd,
        seenstart := c.seenstart || decide ((nx, ny) = start),
        done := c.seenstart && decide ((nx, ny) = start),
        box := ⟨min c.box.x nx, min c.box.y ny,
          max c.box.w (nx - min c.box.x nx + 1),
          max c.box.h (ny - min c.box.y ny + 1)⟩ }

def ctrlLoop (img : GsImage) (start : ℕ × ℕ) : ℕ → CtrlState → CtrlState
  | 0, c => c
  | n + 1, c => ctrlLoop img start n (ctrlStep img start c)

theorem traceStep_expand (img : GsImage) (start : ℕ × ℕ) (st : TraceState) :
    traceStep img start st =
      if st.done then st
      else
        match traceFind img st.p.1 st.p.2 st.dir with
        | none =>
          { st with
            visited := Function.update st.visited (st.p.2 * img.w + st.p.1) 255,
            length := if st.visited (st.p.2 * img.w + st.p.1) = 0
                      then st.length + 1 else st.length,
            done := true }
        | some (nx, ny, nd) =>
          { p := (nx, ny), dir := nd,
            seenstart := st.seenstart || decide ((nx, ny) = start),
            visited := Function.update st.visited (st.p.2 * img.w + st.p.1) 255,
            length := if st.visited (st.p.2 * img.w + st.p.1) = 0
                      then st.length + 1 else st.length,
            box := ⟨min st.box.x nx, min st.box.y ny,
              max st.box.w (nx - min st.box.x nx + 1),
              max st.box.h (ny - min st.box.y ny + 1)⟩,
            done := st.seenstart && decide ((nx, ny) = start) } := rfl

theorem ctrlOf_step (img : GsImage) (start : ℕ × ℕ) (st : TraceState) :
    ctrlOf (traceStep img start st) = ctrlStep img start (ctrlOf st) := by
  rw [traceStep_expand]
  unfold ctrlStep
  by_cases hd : st.done = true
  · rw [if_pos hd, if_pos (show (ctrlOf st).done = true from hd)]
  · rw [if_neg hd, if_neg (show ¬(ctrlOf st).done = true from hd)]
    cases hf : traceFind img st.p.1 st.p.2 st.dir with
    | none =>
      rw [show traceFind img (ctrlOf st).p.1 (ctrlOf st).p.2 (ctrlOf st).dir =
        traceFind img st.p.1 st.p.2 st.dir from rfl, hf]
      rfl
    | some v =>
      obtain ⟨nx, ny, nd⟩ := v
      rw [show traceFind img (ctrlOf st).p.1 (ctrlOf st).p.2 (ctrlOf st).dir =
        traceFind img st.p.1 st.p.2 st.dir from rfl, hf]
      rfl

theorem ctrlOf_loop (img : GsImage) (start : ℕ × ℕ) :
    ∀ (n : ℕ) (st : TraceState),
      ctrlOf (traceLoop img start n st) = ctrlLoop img start n (ctrlOf st) := by
  intro n
  induction n with
  | zero => intro st; rfl
  | succ n ih =>
    intro st
    show ctrlOf (traceLoop img start n (traceStep img start st)) =
      ctrlLoop img start n (ctrlStep img start (ctrlOf st))
    rw [ih, ctrlOf_step]

theorem ctrlStep_done (img : GsImage) (start : ℕ × ℕ) (c : CtrlState)
    (h : c.done = true) : ctrlStep img start c = c := by
  unfold ctrlStep
  rw [if_pos h]

theorem ctrlLoop_done (img : GsImage) (start : ℕ × ℕ) :
    ∀ (n : ℕ) (c : CtrlState), c.done = true → ctrlLoop img start n c = c := by
  intro n
  induction n with
  | zero => intro c _; rfl
  | succ n ih =>
    intro c h
    show ctrlLoop img start n (ctrlStep img start c) = c
    rw [ctrlStep_done img start c h, ih c h]

theorem ctrlLoop_add (img : GsImage) (start : ℕ × ℕ) :
    ∀ (m n : ℕ) (c : CtrlState),
      ctrlLoop img start (m + n) c =
        ctrlLoop img start n (ctrlLoop img start m c) := by
  intro m
  induction m with
  | zero =>
    intro n c
    rw [Nat.zero_add]
    rfl
  | succ m ih =>
    intro n c
    rw [show m + 1 + n = (m + n) + 1 from by omega]
    show ctrlLoop img start (m + n) (ctrlStep img start c) = _
    rw [ih n (ctrlStep img start c)]
    rfl

theorem ctrlStep_some (img : GsImage) (start : ℕ × ℕ) (c : CtrlState)
    (nx ny nd : ℕ) (hd : c.done = false)
    (hf : traceFind img c.p.1 c.p.2 c.dir = some (nx, ny, nd)) :
    ctrlStep img start c =
      ⟨(nx, ny), nd, c.seenstart || decide ((nx, ny) = start),
        c.seenstart && decide ((nx, ny) = start),
        ⟨min c.box.x nx, min c.box.y ny,
          max c.box.w (nx - min c.box.x nx + 1),
          max c.box.h (ny - min c.box.y ny + 1)⟩⟩ := by
  unfold ctrlStep
  rw [if_neg (by rw [hd]; exact Bool.false_ne_true), hf]

theorem ctrlStep_stop (img : GsImage) (start : ℕ × ℕ) (c : CtrlState)
    (hd : c.done = false)
    (hf : traceFind img c.p.1 c.p.2 c.dir = none) :
    ctrlStep img start c = { c with done := true } := by
  unfold ctrlStep
  rw [if_neg (by rw [hd]; exact Bool.false_ne_true), hf]

/-- The image's foreground (`> 128`) is exactly the filled rectangle with
origin `(x0, y0)` and size `w0 × h0`, and the rectangle is in bounds. -/
def rectImage (img : GsImage) (x0 y0 w0 h0 : ℕ) : Prop :=
  x0 + w0 ≤ img.w ∧ y0 + h0 ≤ img.h ∧
  ∀ x y, x < img.w → y < img.h →
    (128 < img.data (y * img.w + x) ↔
      x0 ≤ x ∧ x < x0 + w0 ∧ y0 ≤ y ∧ y < y0 + h0)

theorem traceCand_none_of (img : GsImage) (x0 y0 w0 h0 : ℕ)
    (h : rectImage img x0 y0 w0 h0) (px py d : ℕ)
    (hout : ¬(x0 + 1 ≤ px + traceDxP d ∧ px + traceDxP d ≤ x0 + w0 ∧
        y0 + 1 ≤ py + traceDyP d ∧ py + traceDyP d ≤ y0 + h0)) :
    traceCand img px py d = none := by
  obtain ⟨hxw, hyh, himg⟩ := h
  have hcond : ¬(1 ≤ px + traceDxP d ∧ px + traceDxP d < img.w + 1 ∧
      1 ≤ py + traceDyP d ∧ py + traceDyP d < img.h + 1 ∧
      128 < img.data ((py + traceDyP d - 1) * img.w + (px + traceDxP d - 1))) := by
    rintro ⟨h1, h2, h3, h4, h5⟩
    rw [himg (px + traceDxP d - 1) (py + traceDyP d - 1) (by omega) (by omega)]
      at h5
    exact hout (by omega)
  unfold traceCand
  rw [if_neg hcond]

theorem traceCand_some_of (img : GsImage) (x0 y0 w0 h0 : ℕ)
    (h : rectImage img x0 y0 w0 h0) (px py d : ℕ)
    (hin : x0 + 1 ≤ px + traceDxP d ∧ px + traceDxP d ≤ x0 + w0 ∧
        y0 + 1 ≤ py + traceDyP d ∧ py + traceDyP d ≤ y0 + h0) :
    traceCand img px py d =
      some (px + traceDxP d - 1, py + traceDyP d - 1, (d + 6) % 8) := by
  obtain ⟨hxw, hyh, himg⟩ := h
  have hcond : 1 ≤ px + traceDxP d ∧ px + traceDxP d < img.w + 1 ∧
      1 ≤ py + traceDyP d ∧ py + traceDyP d < img.h + 1 ∧
      128 < img.data ((py + traceDyP d - 1) * img.w + (px + traceDxP d - 1)) :=
    ⟨by omega, by omega, by omega, by omega,
      (himg (px + traceDxP d - 1) (py + traceDyP d - 1) (by omega)
        (by omega)).mpr ⟨by omega, by omega, by omega, by omega⟩⟩
  unfold traceCand
  rw [if_pos hcond]

/-- Direction 0 (east, offsets `(+1, 0)`): rejected. -/
theorem traceCand_E_none (img : GsImage) (x0 y0 w0 h0 : ℕ)
    (h : rectImage img x0 y0 w0 h0) (px py : ℕ)
    (hout : ¬(x0 + 1 ≤ px + 2 ∧ px + 2 ≤ x0 + w0 ∧
        y0 + 1 ≤ py + 1 ∧ py + 1 ≤ y0 + h0)) :
    traceCand img px py 0 = none :=
  traceCand_none_of img x0 y0 w0 h0 h px py 0 hout

/-- Direction 0 (east): accepted, moving to `(px + 1, py)` with new
direction 6. -/
theorem traceCand_E_some (img : GsImage) (x0 y0 w0 h0 : ℕ)
    (h : rectImage img x0 y0 w0 h0) (px py : ℕ)
    (hin : x0 + 1 ≤ px + 2 ∧ px + 2 ≤ x0 + w0 ∧
        y0 + 1 ≤ py + 1 ∧ py + 1 ≤ y0 + h0) :
    traceCand img px py 0 = some (px + 1, py, 6) :=
  traceCand_some_of img x0 y0 w0 h0 h px py 0 hin

/-- Direction 1 (south-east, offsets `(+1, +1)`): rejected. -/
theorem traceCand_SE_none (img : GsImage) (x0 y0 w0 h0 : ℕ)
    (h : rectImage img x0 y0 w0 h0) (px py : ℕ)
    (hout : ¬(x0 + 1 ≤ px + 2 ∧ px + 2 ≤ x0 + w0 ∧
        y0 + 1 ≤ py + 2 ∧ py + 2 ≤ y0 + h0)) :
    traceCand img px py 1 = none :=
  traceCand_none_of img x0 y0 w0 h0 h px py 1 hout

/-- Direction 2 (south, offsets `(0, +1)`): rejected. -/
theorem traceCand_S_none (img : GsImage) (x0 y0 w0 h0 : ℕ)
    (h : rectImage img x0 y0 w0 h0) (px py : ℕ)
    (hout : ¬(x0 + 1 ≤ px + 1 ∧ px + 1 ≤ x0 + w0 ∧
        y0 + 1 ≤ py + 2 ∧ py + 2 ≤ y0 + h0)) :
    traceCand img px py 2 = none :=
  traceCand_none_of img x0 y0 w0 h0 h px py 2 hout

/-- Direction 2 (south): accepted, moving to `(px, py + 1)` with new
direction 0. -/
theorem traceCand_S_some (img : GsImage) (x0 y0 w0 h0 : ℕ)
    (h : rectImage img x0 y0 w0 h0) (px py : ℕ)
    (hin : x0 + 1 ≤ px + 1 ∧ px + 1 ≤ x0 + w0 ∧
        y0 + 1 ≤ py + 2 ∧ py + 2 ≤ y0 + h0) :
    traceCand img px py 2 = some (px, py + 1, 0) :=
  traceCand_some_of img x0 y0 w0 h0 h px py 2 hin

/-- Direction 3 (south-west, offsets `(-1, +1)`): rejected. -/
theorem traceCand_SW_none (img : GsImage) (x0 y0 w0 h0 : ℕ)
    (h : rectImage img x0 y0 w0 h0) (px py : ℕ)
    (hout : ¬(x0 + 1 ≤ px ∧ px ≤ x0 + w0 ∧
        y0 + 1 ≤ py + 2 ∧ py + 2 ≤ y0 + h0)) :
    traceCand img px py 3 = none :=
  traceCand_none_of img x0 y0 w0 h0 h px py 3 hout

/-- Direction 4 (west, offsets `(-1, 0)`): rejected. -/
theorem traceCand_W_none (img : GsImage) (x0 y0 w0 h0 : ℕ)
    (h : rectImage img x0 y0 w0 h0) (px py : ℕ)
    (hout : ¬(x0 + 1 ≤ px ∧ px ≤ x0 + w0 ∧
        y0 + 1 ≤ py + 1 ∧ py + 1 ≤ y0 + h0)) :
    traceCand img px py 4 = none :=
  traceCand_none_of img x0 y0 w0 h0 h px py 4 hout

/-- Direction 4 (west): accepted, moving to `(px - 1, py)` with new
direction 2. -/
theorem traceCand_W_some (img : GsImage) (x0 y0 w0 h0 : ℕ)
    (h : rectImage img x0 y0 w0 h0) (px py : ℕ)
    (hin : x0 + 1 ≤ px ∧ px ≤ x0 + w0 ∧
        y0 + 1 ≤ py + 1 ∧ py + 1 ≤ y0 + h0) :
    traceCand img px py 4 = some (px - 1, py, 2) :=
  traceCand_some_of img x0 y0 w0 h0 h px py 4 hin

/-- Direction 5 (north-west, offsets `(-1, -1)`): rejected. -/
theorem traceCand_NW_none (img : GsImage) (x0 y0 w0 h0 : ℕ)
    (h : rectImage img x0 y0 w0 h0) (px py : ℕ)
    (hout : ¬(x0 + 1 ≤ px ∧ px ≤ x0 + w0 ∧
        y0 + 1 ≤ py ∧ py ≤ y0 + h0)) :
    traceCand img px py 5 = none :=
  traceCand_none_of img x0 y0 w0 h0 h px py 5 hout

/-- Direction 6 (north, offsets `(0, -1)`): rejected. -/
theorem traceCand_N_none (img : GsImage) (x0 y0 w0 h0 : ℕ)
    (h : rectImage img x0 y0 w0 h0) (px py : ℕ)
    (hout : ¬(x0 + 1 ≤ px + 1 ∧ px + 1 ≤ x0 + w0 ∧
        y0 + 1 ≤ py ∧ py ≤ y0 + h0)) :
    traceCand img px py 6 = none :=
  traceCand_none_of img x0 y0 w0 h0 h px py 6 hout

/-- Direction 6 (north): accepted, moving to `(px, py - 1)` with new
direction 4. -/
theorem traceCand_N_some (img : GsImage) (x0 y0 w0 h0 : ℕ)
    (h : rectImage img x0 y0 w0 h0) (px py : ℕ)
    (hin : x0 + 1 ≤ px + 1 ∧ px + 1 ≤ x0 + w0 ∧
        y0 + 1 ≤ py ∧ py ≤ y0 + h0) :
    traceCand img px py 6 = some (px, py - 1, 4) :=
  traceCand_some_of img x0 y0 w0 h0 h px py 6 hin

/-- Direction 7 (north-east, offsets `(+1, -1)`): rejected. -/
theorem traceCand_NE_none (img : GsImage) (x0 y0 w0 h0 : ℕ)
    (h : rectImage img x0 y0 w0 h0) (px py : ℕ)
    (hout : ¬(x0 + 1 ≤ px + 2 ∧ px + 2 ≤ x0 + w0 ∧
        y0 + 1 ≤ py ∧ py ≤ y0 + h0)) :
    traceCand img px py 7 = none :=
  traceCand_none_of img x0 y0 w0 h0 h px py 7 hout

theorem or_some_left {α : Type} (a : α) (o : Option α) :
    (some a).or o = some a := rfl

theorem or_none_left {α : Type} (o : Option α) : (Option.none).or o = o := rfl

/-- Ring order for arrival direction 7: directions 0, 1, …, 7. -/
theorem traceFind_d7 (img : GsImage) (px py : ℕ) :
    traceFind img px py 7 =
      (traceCand img px py 0).or ((traceCand img px py 1).or
        ((traceCand img px py 2).or ((traceCand img px py 3).or
          ((traceCand img px py 4).or ((traceCand img px py 5).or
            ((traceCand img px py 6).or (traceCand img px py 7))))))) := rfl

/-- Ring order for arrival direction 6: directions 7, 0, 1, …, 6. -/
theorem traceFind_d6 (img : GsImage) (px py : ℕ) :
    traceFind img px py 6 =
      (traceCand img px py 7).or ((traceCand img px py 0).or
        ((traceCand img px py 1).or ((traceCand img px py 2).or
          ((traceCand img px py 3).or ((traceCand img px py 4).or
            ((traceCand img px py 5).or (traceCand img px py 6))))))) := rfl

/-- Ring order for arrival direction 0: directions 1, 2, …, 0. -/
theorem traceFind_d0 (img : GsImage) (px py : ℕ) :
    traceFind img px py 0 =
      (traceCand img px py 1).or ((traceCand img px py 2).or
        ((traceCand img px py 3).or ((traceCand img px py 4).or
          ((traceCand img px py 5).or ((traceCand img px py 6).or
            ((traceCand img px py 7).or (traceCand img px py 0))))))) := rfl

/-- Ring order for arrival direction 2: directions 3, 4, …, 2. -/
theorem traceFind_d2 (img : GsImage) (px py : ℕ) :
    traceFind img px py 2 =
      (traceCand img px py 3).or ((traceCand img px py 4).or
        ((traceCand img px py 5).or ((traceCand img px py 6).or
          ((traceCand img px py 7).or ((traceCand img px py 0).or
            ((traceCand img px py 1).or (traceCand img px py 2))))))) := rfl

/-- Ring order for arrival direction 4: directions 5, 6, …, 4. -/
theorem traceFind_d4 (img : GsImage) (px py : ℕ) :
    traceFind img px py 4 =
      (traceCand img px py 5).or ((traceCand img px py 6).or
        ((traceCand img px py 7).or ((traceCand img px py 0).or
          ((traceCand img px py 1).or ((traceCand img px py 2).or
            ((traceCand img px py 3).or (traceCand img px py 4))))))) := rfl

/-- At the rectangle's top-left pixel with initial direction 7 the scan
moves east. -/
theorem traceFind_start7 (img : GsImage) (x0 y0 w0 h0 : ℕ)
    (h : rectImage img x0 y0 w0 h0) (hw2 : 2 ≤ w0) (hh1 : 1 ≤ h0) :
    traceFind img x0 y0 7 = some (x0 + 1, y0, 6) := by
  rw [traceFind_d7,
    traceCand_E_some img x0 y0 w0 h0 h x0 y0
      ⟨by omega, by omega, by omega, by omega⟩,
    or_some_left]

/-- At the rectangle's top-left pixel with arrival direction 4 (end of a
lap) the scan moves east again. -/
theorem traceFind_start4 (img : GsImage) (x0 y0 w0 h0 : ℕ)
    (h : rectImage img x0 y0 w0 h0) (hw2 : 2 ≤ w0) (hh1 : 1 ≤ h0) :
    traceFind img x0 y0 4 = some (x0 + 1, y0, 6) := by
  rw [traceFind_d4,
    traceCand_NW_none img x0 y0 w0 h0 h x0 y0 (by omega), or_none_left,
    traceCand_N_none img x0 y0 w0 h0 h x0 y0 (by omega), or_none_left,
    traceCand_NE_none img x0 y0 w0 h0 h x0 y0 (by omega), or_none_left,
    traceCand_E_some img x0 y0 w0 h0 h x0 y0
      ⟨by omega, by omega, by omega, by omega⟩,
    or_some_left]

/-- On the top edge (not at the right end), direction 6 continues east. -/
theorem traceFind_top (img : GsImage) (x0 y0 w0 h0 : ℕ)
    (h : rectImage img x0 y0 w0 h0) (px : ℕ)
    (h1 : x0 ≤ px) (h2 : px + 2 ≤ x0 + w0) (hh1 : 1 ≤ h0) :
    traceFind img px y0 6 = some (px + 1, y0, 6) := by
  rw [traceFind_d6,
    traceCand_NE_none img x0 y0 w0 h0 h px y0 (by omega), or_none_left,
    traceCand_E_some img x0 y0 w0 h0 h px y0
      ⟨by omega, by omega, by omega, by omega⟩,
    or_some_left]

/-- At the top-right corner, direction 6 turns south. -/
theorem traceFind_topright (img : GsImage) (x0 y0 w0 h0 : ℕ)
    (h : rectImage img x0 y0 w0 h0) (px : ℕ)
    (hpx : px + 1 = x0 + w0) (hx0 : x0 ≤ px) (hh2 : 2 ≤ h0) :
    traceFind img px y0 6 = some (px, y0 + 1, 0) := by
  rw [traceFind_d6,
    traceCand_NE_none img x0 y0 w0 h0 h px y0 (by omega), or_none_left,
    traceCand_E_none img x0 y0 w0 h0 h px y0 (by omega), or_none_left,
    traceCand_SE_none img x0 y0 w0 h0 h px y0 (by omega), or_none_left,
    traceCand_S_some img x0 y0 w0 h0 h px y0
      ⟨by omega, by omega, by omega, by omega⟩,
    or_some_left]

/-- On the right edge (not at the bottom end), direction 0 continues
south. -/
theorem traceFind_right (img : GsImage) (x0 y0 w0 h0 : ℕ)
    (h : rectImage img x0 y0 w0 h0) (px py : ℕ)
    (hpx : px + 1 = x0 + w0) (hx0 : x0 ≤ px) (hy1 : y0 ≤ py)
    (hy2 : py + 2 ≤ y0 + h0) :
    traceFind img px py 0 = some (px, py + 1, 0) := by
  rw [traceFind_d0,
    traceCand_SE_none img x0 y0 w0 h0 h px py (by omega), or_none_left,
    traceCand_S_some img x0 y0 w0 h0 h px py
      ⟨by omega, by omega, by omega, by omega⟩,
    or_some_left]

/-- At the bottom-right corner, direction 0 turns west. -/
theorem traceFind_bottomright (img : GsImage) (x0 y0 w0 h0 : ℕ)
    (h : rectImage img x0 y0 w0 h0) (px py : ℕ)
    (hpx : px + 1 = x0 + w0) (hpy : py + 1 = y0 + h0) (hw2 : 2 ≤ w0)
    (hy0 : y0 ≤ py) :
    traceFind img px py 0 = some (px - 1, py, 2) := by
  rw [traceFind_d0,
    traceCand_SE_none img x0 y0 w0 h0 h px py (by omega), or_none_left,
    traceCand_S_none img x0 y0 w0 h0 h px py (by omega), or_none_left,
    traceCand_SW_none img x0 y0 w0 h0 h px py (by omega), or_none_left,
    traceCand_W_some img x0 y0 w0 h0 h px py
      ⟨by omega, by omega, by omega, by omega⟩,
    or_some_left]

/-- On the bottom edge (not at the left end), direction 2 continues west. -/
theorem traceFind_bottom (img : GsImage) (x0 y0 w0 h0 : ℕ)
    (h : rectImage img x0 y0 w0 h0) (px py : ℕ)
    (hx1 : x0 + 1 ≤ px) (hx2 : px ≤ x0 + w0) (hpy : py + 1 = y0 + h0)
    (hy0 : y0 ≤ py) :
    traceFind img px py 2 = some (px - 1, py, 2) := by
  rw [traceFind_d2,
    traceCand_SW_none img x0 y0 w0 h0 h px py (by omega), or_none_left,
    traceCand_W_some img x0 y0 w0 h0 h px py
      ⟨by omega, by omega, by omega, by omega⟩,
    or_some_left]

/-- At the bottom-left corner, direction 2 turns north. -/
theorem traceFind_bottomleft (img : GsImage) (x0 y0 w0 h0 : ℕ)
    (h : rectImage img x0 y0 w0 h0) (py : ℕ)
    (hpy : py + 1 = y0 + h0) (hh2 : 2 ≤ h0) (hw1 : 1 ≤ w0) :
    traceFind img x0 py 2 = some (x0, py - 1, 4) := by
  rw [traceFind_d2,
    traceCand_SW_none img x0 y0 w0 h0 h x0 py (by omega), or_none_left,
    traceCand_W_none img x0 y0 w0 h0 h x0 py (by omega), or_none_left,
    traceCand_NW_none img x0 y0 w0 h0 h x0 py (by omega), or_none_left,
    traceCand_N_some img x0 y0 w0 h0 h x0 py
      ⟨by omega, by omega, by omega, by omega⟩,
    or_some_left]

/-- On the left edge (not at the top end), direction 4 continues north. -/
theorem traceFind_left (img : GsImage) (x0 y0 w0 h0 : ℕ)
    (h : rectImage img x0 y0 w0 h0) (py : ℕ)
    (hy1 : y0 + 1 ≤ py) (hy2 : py ≤ y0 + h0) (hw1 : 1 ≤ w0) :
    traceFind img x0 py 4 = some (x0, py - 1, 4) := by
  rw [traceFind_d4,
    traceCand_NW_none img x0 y0 w0 h0 h x0 py (by omega), or_none_left,
    traceCand_N_some img x0 y0 w0 h0 h x0 py
      ⟨by omega, by omega, by omega, by omega⟩,
    or_some_left]

/-- A single foreground pixel has no qualifying neighbour at all. -/
theorem traceFind_single (img : GsImage) (x0 y0 : ℕ)
    (h : rectImage img x0 y0 1 1) :
    traceFind img x0 y0 7 = none := by
  rw [traceFind_d7,
    traceCand_E_none img x0 y0 1 1 h x0 y0 (by omega), or_none_left,
    traceCand_SE_none img x0 y0 1 1 h x0 y0 (by omega), or_none_left,
    traceCand_S_none img x0 y0 1 1 h x0 y0 (by omega), or_none_left,
    traceCand_SW_none img x0 y0 1 1 h x0 y0 (by omega), or_none_left,
    traceCand_W_none img x0 y0 1 1 h x0 y0 (by omega), or_none_left,
    traceCand_NW_none img x0 y0 1 1 h x0 y0 (by omega), or_none_left,
    traceCand_N_none img x0 y0 1 1 h x0 y0 (by omega), or_none_left,
    traceCand_NE_none img x0 y0 1 1 h x0 y0 (by omega)]

/-- Walking east along the top edge from `x1 - k` to the top-right pixel
`x1 = x0 + w0 - 1`: the box keeps origin `(x0, y0)` and height `bh`, and its
width absorbs `w0`. -/
theorem trace_run_top (img : GsImage) (x0 y0 w0 h0 : ℕ)
    (h : rectImage img x0 y0 w0 h0) (hh1 : 1 ≤ h0) :
    ∀ (k : ℕ) (seen : Bool) (bw bh : ℕ), k + 2 ≤ w0 → w0 - k ≤ bw → 1 ≤ bh →
      ctrlLoop img (x0, y0) k
        ⟨(x0 + w0 - 1 - k, y0), 6, seen, false, ⟨x0, y0, bw, bh⟩⟩ =
      ⟨(x0 + w0 - 1, y0), 6, seen, false, ⟨x0, y0, max bw w0, bh⟩⟩ := by
  intro k
  induction k with
  | zero =>
    intro seen bw bh hk hbw hbh
    rw [show max bw w0 = bw from by omega]
    rfl
  | succ k ih =>
    intro seen bw bh hk hbw hbh
    show ctrlLoop img (x0, y0) k
      (ctrlStep img (x0, y0)
        ⟨(x0 + w0 - 1 - (k + 1), y0), 6, seen, false, ⟨x0, y0, bw, bh⟩⟩) = _
    rw [ctrlStep_some img (x0, y0) _ (x0 + w0 - 1 - (k + 1) + 1) y0 6 rfl
      (traceFind_top img x0 y0 w0 h0 h (x0 + w0 - 1 - (k + 1)) (by omega)
        (by omega) hh1)]
    rw [show x0 + w0 - 1 - (k + 1) + 1 = x0 + w0 - 1 - k from by omega]
    rw [show decide ((x0 + w0 - 1 - k, y0) = (x0, y0)) = false from
      decide_eq_false (by
        intro he
        rw [Prod.mk.injEq] at he
        omega)]
    rw [Bool.or_false, Bool.and_false]
    rw [show min x0 (x0 + w0 - 1 - k) = x0 from by omega]
    rw [show x0 + w0 - 1 - k - x0 + 1 = w0 - k from by omega]
    rw [min_self]
    rw [show y0 - y0 + 1 = 1 from by omega]
    rw [show max bh 1 = bh from by omega]
    rw [ih seen (max bw (w0 - k)) bh (by omega) (le_max_right bw (w0 - k)) hbh]
    rw [show max (max bw (w0 - k)) w0 = max bw w0 from by omega]

/-- Walking south along the right edge from `y1 - k` to the bottom-right
pixel `y1 = y0 + h0 - 1`: the box keeps width `bw` and its height absorbs
`h0`. -/
theorem trace_run_right (img : GsImage) (x0 y0 w0 h0 : ℕ)
    (h : rectImage img x0 y0 w0 h0) (hw2 : 2 ≤ w0) :
    ∀ (k : ℕ) (seen : Bool) (bw bh : ℕ), k + 2 ≤ h0 → h0 - k ≤ bh → w0 ≤ bw →
      ctrlLoop img (x0, y0) k
        ⟨(x0 + w0 - 1, y0 + h0 - 1 - k), 0, seen, false, ⟨x0, y0, bw, bh⟩⟩ =
      ⟨(x0 + w0 - 1, y0 + h0 - 1), 0, seen, false, ⟨x0, y0, bw, max bh h0⟩⟩ := by
  intro k
  induction k with
  | zero =>
    intro seen bw bh hk hbh hbw
    rw [show max bh h0 = bh from by omega]
    rfl
  | succ k ih =>
    intro seen bw bh hk hbh hbw
    show ctrlLoop img (x0, y0) k
      (ctrlStep img (x0, y0)
        ⟨(x0 + w0 - 1, y0 + h0 - 1 - (k + 1)), 0, seen, false,
          ⟨x0, y0, bw, bh⟩⟩) = _
    rw [ctrlStep_some img (x0, y0) _ (x0 + w0 - 1)
      (y0 + h0 - 1 - (k + 1) + 1) 0 rfl
      (traceFind_right img x0 y0 w0 h0 h (x0 + w0 - 1)
        (y0 + h0 - 1 - (k + 1)) (by omega) (by omega) (by omega) (by omega))]
    rw [show y0 + h0 - 1 - (k + 1) + 1 = y0 + h0 - 1 - k from by omega]
    rw [show decide ((x0 + w0 - 1, y0 + h0 - 1 - k) = (x0, y0)) = false from
      decide_eq_false (by
        intro he
        rw [Prod.mk.injEq] at he
        omega)]
    rw [Bool.or_false, Bool.and_false]
    rw [show min x0 (x0 + w0 - 1) = x0 from by omega]
    rw [show x0 + w0 - 1 - x0 + 1 = w0 from by omega]
    rw [show max bw w0 = bw from by omega]
    rw [show min y0 (y0 + h0 - 1 - k) = y0 from by omega]
    rw [show y0 + h0 - 1 - k - y0 + 1 = h0 - k from by omega]
    rw [ih seen bw (max bh (h0 - k)) (by omega) (le_max_right bh (h0 - k))
      hbw]
    rw [show max (max bh (h0 - k)) h0 = max bh h0 from by omega]

/-- Walking west along the bottom edge from `x0 + k` to the bottom-left
pixel: the box, already the full rectangle, is unchanged. -/
theorem trace_run_bottom (img : GsImage) (x0 y0 w0 h0 : ℕ)
    (h : rectImage img x0 y0 w0 h0) (hh2 : 2 ≤ h0) :
    ∀ (k : ℕ) (seen : Bool) (bw bh : ℕ), k + 1 ≤ w0 → w0 ≤ bw → h0 ≤ bh →
      ctrlLoop img (x0, y0) k
        ⟨(x0 + k, y0 + h0 - 1), 2, seen, false, ⟨x0, y0, bw, bh⟩⟩ =
      ⟨(x0, y0 + h0 - 1), 2, seen, false, ⟨x0, y0, bw, bh⟩⟩ := by
  intro k
  induction k with
  | zero => intro seen bw bh hk hbw hbh; rfl
  | succ k ih =>
    intro seen bw bh hk hbw hbh
    show ctrlLoop img (x0, y0) k
      (ctrlStep img (x0, y0)
        ⟨(x0 + (k + 1), y0 + h0 - 1), 2, seen, false, ⟨x0, y0, bw, bh⟩⟩) = _
    rw [ctrlStep_some img (x0, y0) _ (x0 + (k + 1) - 1) (y0 + h0 - 1) 2 rfl
      (traceFind_bottom img x0 y0 w0 h0 h (x0 + (k + 1)) (y0 + h0 - 1)
        (by omega) (by omega) (by omega) (by omega))]
    rw [show x0 + (k + 1) - 1 = x0 + k from by omega]
    rw [show decide ((x0 + k, y0 + h0 - 1) = (x0, y0)) = false from
      decide_eq_false (by
        intro he
        rw [Prod.mk.injEq] at he
        omega)]
    rw [Bool.or_false, Bool.and_false]
    rw [show min x0 (x0 + k) = x0 from by omega]
    rw [show x0 + k - x0 + 1 = k + 1 from by omega]
    rw [show max bw (k + 1) = bw from by omega]
    rw [show min y0 (y0 + h0 - 1) = y0 from by omega]
    rw [show y0 + h0 - 1 - y0 + 1 = h0 from by omega]
    rw [show max bh h0 = bh from by omega]
    exact ih seen bw bh (by omega) hbw hbh

/-- Walking north along the left edge from `(x0, y0 + k)` all the way into
the start pixel `(x0, y0)`: the arrival step raises `seenstart` and copies
the old flag into `done`, so a first lap continues and a second lap stops. -/
theorem trace_run_left (img : GsImage) (x0 y0 w0 h0 : ℕ)
    (h : rectImage img x0 y0 w0 h0) (hw1 : 1 ≤ w0) :
    ∀ (k : ℕ) (seen : Bool) (bw bh : ℕ), 1 ≤ k → k + 1 ≤ h0 → w0 ≤ bw →
      h0 ≤ bh →
      ctrlLoop img (x0, y0) k
        ⟨(x0, y0 + k), 4, seen, false, ⟨x0, y0, bw, bh⟩⟩ =
      ⟨(x0, y0), 4, true, seen, ⟨x0, y0, bw, bh⟩⟩ := by
  intro k
  induction k with
  | zero => intro seen bw bh h1 _ _ _; exact absurd h1 (by omega)
  | succ k ih =>
    intro seen bw bh h1 hk hbw hbh
    by_cases hk0 : k = 0
    · subst hk0
      show ctrlStep img (x0, y0)
        ⟨(x0, y0 + 1), 4, seen, false, ⟨x0, y0, bw, bh⟩⟩ = _
      rw [ctrlStep_some img (x0, y0) _ x0 (y0 + 1 - 1) 4 rfl
        (traceFind_left img x0 y0 w0 h0 h (y0 + 1) (by omega) (by omega) hw1)]
      rw [show y0 + 1 - 1 = y0 from by omega]
      rw [show decide ((x0, y0) = (x0, y0)) = true from decide_eq_true rfl]
      rw [Bool.or_true, Bool.and_true]
      rw [min_self, min_self]
      rw [show x0 - x0 + 1 = 1 from by omega]
      rw [show y0 - y0 + 1 = 1 from by omega]
      rw [show max bw 1 = bw from by omega]
      rw [show max bh 1 = bh from by omega]
    · show ctrlLoop img (x0, y0) k
        (ctrlStep img (x0, y0)
          ⟨(x0, y0 + (k + 1)), 4, seen, false, ⟨x0, y0, bw, bh⟩⟩) = _
      rw [ctrlStep_some img (x0, y0) _ x0 (y0 + (k + 1) - 1) 4 rfl
        (traceFind_left img x0 y0 w0 h0 h (y0 + (k + 1)) (by omega)
          (by omega) hw1)]
      rw [show y0 + (k + 1) - 1 = y0 + k from by omega]
      rw [show decide ((x0, y0 + k) = (x0, y0)) = false from
        decide_eq_false (by
          intro he
          rw [Prod.mk.injEq] at he
          omega)]
      rw [Bool.or_false, Bool.and_false]
      rw [min_self]
      rw [show min y0 (y0 + k) = y0 from by omega]
      rw [show x0 - x0 + 1 = 1 from by omega]
      rw [show y0 + k - y0 + 1 = k + 1 from by omega]
      rw [show max bw 1 = bw from by omega]
      rw [show max bh (k + 1) = bh from by omega]
      exact ih seen bw bh (by omega) (by omega) hbw hbh

/-- The full left section: from the bottom-left pixel (arrival direction 2)
turn north and walk into the start pixel, in `h0 - 1` steps. -/
theorem trace_run_left_entry (img : GsImage) (x0 y0 w0 h0 : ℕ)
    (h : rectImage img x0 y0 w0 h0) (hw1 : 1 ≤ w0) (hh2 : 2 ≤ h0) :
    ∀ (seen : Bool) (bw bh : ℕ), w0 ≤ bw → h0 ≤ bh →
      ctrlLoop img (x0, y0) (h0 - 1)
        ⟨(x0, y0 + h0 - 1), 2, seen, false, ⟨x0, y0, bw, bh⟩⟩ =
      ⟨(x0, y0), 4, true, seen, ⟨x0, y0, bw, bh⟩⟩ := by
  intro seen bw bh hbw hbh
  rw [show h0 - 1 = (h0 - 2) + 1 from by omega]
  show ctrlLoop img (x0, y0) (h0 - 2)
    (ctrlStep img (x0, y0)
      ⟨(x0, y0 + h0 - 1), 2, seen, false, ⟨x0, y0, bw, bh⟩⟩) = _
  rw [ctrlStep_some img (x0, y0) _ x0 (y0 + h0 - 1 - 1) 4 rfl
    (traceFind_bottomleft img x0 y0 w0 h0 h (y0 + h0 - 1) (by omega) hh2 hw1)]
  by_cases hh3 : h0 = 2
  · subst hh3
    rw [show y0 + 2 - 1 - 1 = y0 from by omega]
    rw [show decide ((x0, y0) = (x0, y0)) = true from decide_eq_true rfl]
    rw [Bool.or_true, Bool.and_true]
    rw [min_self, min_self]
    rw [show x0 - x0 + 1 = 1 from by omega]
    rw [show y0 - y0 + 1 = 1 from by omega]
    rw [show max bw 1 = bw from by omega]
    rw [show max bh 1 = bh from by omega]
    rfl
  · rw [show y0 + h0 - 1 - 1 = y0 + (h0 - 2) from by omega]
    rw [show decide ((x0, y0 + (h0 - 2)) = (x0, y0)) = false from
      decide_eq_false (by
        intro he
        rw [Prod.mk.injEq] at he
        omega)]
    rw [Bool.or_false, Bool.and_false]
    rw [min_self]
    rw [show min y0 (y0 + (h0 - 2)) = y0 from by omega]
    rw [show x0 - x0 + 1 = 1 from by omega]
    rw [show y0 + (h0 - 2) - y0 + 1 = h0 - 1 from by omega]
    rw [show max bw 1 = bw from by omega]
    rw [show max bh (h0 - 1) = bh from by omega]
    exact trace_run_left img x0 y0 w0 h0 h hw1 (h0 - 2) seen bw bh (by omega)
      (by omega) hbw hbh

/-- One full lap around a `w0 × h0` rectangle (`w0, h0 ≥ 2`) from the
top-left pixel: `2*w0 + 2*h0 - 4` steps return to the start with arrival
direction 4, the box having absorbed the full rectangle; `seenstart` is
raised and the previous flag lands in `done`. -/
theorem trace_lap (img : GsImage) (x0 y0 w0 h0 : ℕ)
    (h : rectImage img x0 y0 w0 h0) (hw2 : 2 ≤ w0) (hh2 : 2 ≤ h0) :
    ∀ (din : ℕ) (seen : Bool) (bw bh : ℕ), 1 ≤ bw → 1 ≤ bh →
      traceFind img x0 y0 din = some (x0 + 1, y0, 6) →
      ctrlLoop img (x0, y0) (2 * w0 + 2 * h0 - 4)
        ⟨(x0, y0), din, seen, false, ⟨x0, y0, bw, bh⟩⟩ =
      ⟨(x0, y0), 4, true, seen, ⟨x0, y0, max bw w0, max bh h0⟩⟩ := by
  intro din seen bw bh hbw hbh hfind
  rw [show 2 * w0 + 2 * h0 - 4 =
    1 + ((w0 - 2) + (1 + ((h0 - 2) + (1 + ((w0 - 2) + (h0 - 1))))))
    from by omega]
  rw [ctrlLoop_add]
  rw [show ctrlLoop img (x0, y0) 1
      ⟨(x0, y0), din, seen, false, ⟨x0, y0, bw, bh⟩⟩ =
    ctrlStep img (x0, y0)
      ⟨(x0, y0), din, seen, false, ⟨x0, y0, bw, bh⟩⟩ from rfl]
  rw [ctrlStep_some img (x0, y0) _ (x0 + 1) y0 6 rfl hfind]
  rw [show decide ((x0 + 1, y0) = (x0, y0)) = false from
    decide_eq_false (by
      intro he
      rw [Prod.mk.injEq] at he
      omega)]
  rw [Bool.or_false, Bool.and_false]
  rw [show min x0 (x0 + 1) = x0 from by omega, min_self,
    show x0 + 1 - x0 + 1 = 2 from by omega,
    show y0 - y0 + 1 = 1 from by omega,
    show max bh 1 = bh from by omega]
  rw [ctrlLoop_add]
  have htop := trace_run_top img x0 y0 w0 h0 h (by omega) (w0 - 2) seen
    (max bw 2) bh (by omega) (by omega) (by omega)
  rw [show x0 + w0 - 1 - (w0 - 2) = x0 + 1 from by omega] at htop
  rw [show max (max bw 2) w0 = max bw w0 from by omega] at htop
  rw [htop]
  rw [ctrlLoop_add]
  rw [show ctrlLoop img (x0, y0) 1
      ⟨(x0 + w0 - 1, y0), 6, seen, false, ⟨x0, y0, max bw w0, bh⟩⟩ =
    ctrlStep img (x0, y0)
      ⟨(x0 + w0 - 1, y0), 6, seen, false, ⟨x0, y0, max bw w0, bh⟩⟩ from rfl]
  rw [ctrlStep_some img (x0, y0) _ (x0 + w0 - 1) (y0 + 1) 0 rfl
    (traceFind_topright img x0 y0 w0 h0 h (x0 + w0 - 1) (by omega) (by omega)
      hh2)]
  rw [show decide ((x0 + w0 - 1, y0 + 1) = (x0, y0)) = false from
    decide_eq_false (by
      intro he
      rw [Prod.mk.injEq] at he
      omega)]
  rw [Bool.or_false, Bool.and_false]
  rw [show min x0 (x0 + w0 - 1) = x0 from by omega,
    show min y0 (y0 + 1) = y0 from by omega,
    show x0 + w0 - 1 - x0 + 1 = w0 from by omega,
    show max (max bw w0) w0 = max bw w0 from by omega,
    show y0 + 1 - y0 + 1 = 2 from by omega]
  rw [ctrlLoop_add]
  have hright := trace_run_right img x0 y0 w0 h0 h hw2 (h0 - 2) seen
    (max bw w0) (max bh 2) (by omega) (by omega) (le_max_right bw w0)
  rw [show y0 + h0 - 1 - (h0 - 2) = y0 + 1 from by omega] at hright
  rw [show max (max bh 2) h0 = max bh h0 from by omega] at hright
  rw [hright]
  rw [ctrlLoop_add]
  rw [show ctrlLoop img (x0, y0) 1
      ⟨(x0 + w0 - 1, y0 + h0 - 1), 0, seen, false,
        ⟨x0, y0, max bw w0, max bh h0⟩⟩ =
    ctrlStep img (x0, y0)
      ⟨(x0 + w0 - 1, y0 + h0 - 1), 0, seen, false,
        ⟨x0, y0, max bw w0, max bh h0⟩⟩ from rfl]
  rw [ctrlStep_some img (x0, y0) _ (x0 + w0 - 1 - 1) (y0 + h0 - 1) 2 rfl
    (traceFind_bottomright img x0 y0 w0 h0 h (x0 + w0 - 1) (y0 + h0 - 1)
      (by omega) (by omega) hw2 (by omega))]
  rw [show x0 + w0 - 1 - 1 = x0 + (w0 - 2) from by omega]
  rw [show decide ((x0 + (w0 - 2), y0 + h0 - 1) = (x0, y0)) = false from
    decide_eq_false (by
      intro he
      rw [Prod.mk.injEq] at he
      omega)]
  rw [Bool.or_false, Bool.and_false]
  rw [show min x0 (x0 + (w0 - 2)) = x0 from by omega,
    show min y0 (y0 + h0 - 1) = y0 from by omega,
    show x0 + (w0 - 2) - x0 + 1 = w0 - 1 from by omega,
    show max (max bw w0) (w0 - 1) = max bw w0 from by omega,
    show y0 + h0 - 1 - y0 + 1 = h0 from by omega,
    show max (max bh h0) h0 = max bh h0 from by omega]
  rw [ctrlLoop_add]
  rw [trace_run_bottom img x0 y0 w0 h0 h hh2 (w0 - 2) seen (max bw w0)
    (max bh h0) (by omega) (le_max_right bw w0) (le_max_right bh h0)]
  exact trace_run_left_entry img x0 y0 w0 h0 h (by omega) hh2 seen
    (max bw w0) (max bh h0) (le_max_right bw w0) (le_max_right bh h0)

/-- C8 (amended): on an image whose `> 128` foreground is exactly a filled
in-bounds `w0 × h0` rectangle, `gs_trace_contour` started at the rectangle's
TOP-LEFT pixel with a cleared visited buffer terminates once the fuel covers
two laps, with final bounding box exactly the rectangle; for `w0, h0 ≥ 2` it
stops at the start pixel via the closed-contour condition (start revisited a
second time, `seenstart` raised), while a `1 × 1` rectangle stops via the
open-contour condition (no qualifying neighbour, `seenstart` never raised).
Starting at an arbitrary boundary pixel — as the original claim allows — the
walk can cut through the interior and close around a proper sub-box (see the
counterexample). -/
theorem c8_trace_rectangle (img : GsImage) (vis0 : ℕ → ℕ)
    (x0 y0 w0 h0 fuel : ℕ) (hrect : rectImage img x0 y0 w0 h0)
    (hcase : 2 ≤ w0 ∧ 2 ≤ h0 ∨ w0 = 1 ∧ h0 = 1)
    (hfuel : 4 * (w0 + h0) ≤ fuel) :
    (gs_trace_contour img vis0 x0 y0 fuel).done = true ∧
    (gs_trace_contour img vis0 x0 y0 fuel).box = ⟨x0, y0, w0, h0⟩ ∧
    (gs_trace_contour img vis0 x0 y0 fuel).p = (x0, y0) ∧
    ((gs_trace_contour img vis0 x0 y0 fuel).seenstart = true ↔
      2 ≤ w0 ∧ 2 ≤ h0) := by
  have hctrl : ctrlOf (gs_trace_contour img vis0 x0 y0 fuel) =
      ctrlLoop img (x0, y0) fuel
        ⟨(x0, y0), 7, false, false, ⟨x0, y0, 1, 1⟩⟩ := by
    unfold gs_trace_contour
    rw [ctrlOf_loop]
    rfl
  rcases hcase with ⟨hw2, hh2⟩ | ⟨hw1, hh1⟩
  · have hfinal : ctrlLoop img (x0, y0) fuel
        ⟨(x0, y0), 7, false, false, ⟨x0, y0, 1, 1⟩⟩ =
        ⟨(x0, y0), 4, true, true, ⟨x0, y0, w0, h0⟩⟩ := by
      rw [show fuel = (2 * w0 + 2 * h0 - 4) + ((2 * w0 + 2 * h0 - 4) +
        (fuel - (4 * w0 + 4 * h0 - 8))) from by omega]
      rw [ctrlLoop_add, ctrlLoop_add]
      rw [trace_lap img x0 y0 w0 h0 hrect hw2 hh2 7 false 1 1 (le_refl 1)
        (le_refl 1) (traceFind_start7 img x0 y0 w0 h0 hrect hw2 (by omega))]
      rw [show max 1 w0 = w0 from by omega, show max 1 h0 = h0 from by omega]
      rw [trace_lap img x0 y0 w0 h0 hrect hw2 hh2 4 true w0 h0 (by omega)
        (by omega) (traceFind_start4 img x0 y0 w0 h0 hrect hw2 (by omega))]
      rw [show max w0 w0 = w0 from by omega, show max h0 h0 = h0 from by omega]
      exact ctrlLoop_done img (x0, y0) _ _ rfl
    rw [hfinal] at hctrl
    exact ⟨congrArg CtrlState.done hctrl, congrArg CtrlState.box hctrl,
      congrArg CtrlState.p hctrl,
      ⟨fun _ => ⟨hw2, hh2⟩, fun _ => congrArg CtrlState.seenstart hctrl⟩⟩
  · subst hw1 hh1
    have hfinal : ctrlLoop img (x0, y0) fuel
        ⟨(x0, y0), 7, false, false, ⟨x0, y0, 1, 1⟩⟩ =
        ⟨(x0, y0), 7, false, true, ⟨x0, y0, 1, 1⟩⟩ := by
      rw [show fuel = 1 + (fuel - 1) from by omega]
      rw [ctrlLoop_add]
      rw [show ctrlLoop img (x0, y0) 1
          ⟨(x0, y0), 7, false, false, ⟨x0, y0, 1, 1⟩⟩ =
        ctrlStep img (x0, y0)
          ⟨(x0, y0), 7, false, false, ⟨x0, y0, 1, 1⟩⟩ from rfl]
      rw [ctrlStep_stop img (x0, y0) _ rfl
        (traceFind_single img x0 y0 hrect)]
      exact ctrlLoop_done img (x0, y0) _ _ rfl
    rw [hfinal] at hctrl
    refine ⟨congrArg CtrlState.done hctrl, congrArg CtrlState.box hctrl,
      congrArg CtrlState.p hctrl, ?_, ?_⟩
    · intro hs
      have hfalse : (gs_trace_contour img vis0 x0 y0 fuel).seenstart = false :=
        congrArg CtrlState.seenstart hctrl
      rw [hfalse] at hs
      exact absurd hs Bool.false_ne_true
    · intro hcon
      exact absurd hcon.1 (by omega)

/-- C5 (amended): for every image, scratch score map, capacity and
threshold: (a) every interior pixel's score-map value is the minimum absolute
deviation from the center over all 16 ring samples when some circular run of
at least 9 consecutive samples is uniformly brighter than `p + threshold` or
uniformly darker than `p - threshold` under the code's UNSIGNED comparisons
(`p - threshold` wraps when `threshold > p`), and 0 when no such run exists;
(b) keypoints are exactly the first `nkps` interior pixels, in raster-scan
order, whose score is nonzero and not strictly exceeded by any 8-neighbour
score-map value (ties keep the center); (c) the returned count is the number
of emitted keypoints, never exceeding the capacity; no sort is performed. -/
theorem c5_fast_detector (img : GsImage) (sm0 : ℕ → ℕ)
    (nkps threshold : ℕ) :
    (∀ x y, 3 ≤ x → x < img.w - 3 → 3 ≤ y → y < img.h - 3 →
      (gs_fast img sm0 nkps threshold).2.1 (y * img.w + x) =
        (if fastHasRun img threshold (img.data (y * img.w + x)) x y then
          fastRingMin img (img.data (y * img.w + x)) x y
         else 0)) ∧
    (gs_fast img sm0 nkps threshold).2.2 =
      ((fastInterior img.w img.h).filterMap
        (nmsCandidate img (fastScoremap img sm0 threshold))).take nkps ∧
    (gs_fast img sm0 nkps threshold).1 =
      (gs_fast img sm0 nkps threshold).2.2.length ∧
    (gs_fast img sm0 nkps threshold).1 ≤ nkps := by
  refine ⟨?_, ?_, rfl, gs_fast_count_le img sm0 nkps threshold⟩
  · intro x y hx3 hxw hy3 hyh
    show fastScoremap img sm0 threshold (y * img.w + x) = _
    rw [fastScoremap_get img sm0 threshold x y hx3 hxw hy3 hyh,
      fastScan_eq_run]
  · exact fastNMS_eq img (fastScoremap img sm0 threshold) nkps

/-- A 7×7 image of intensity 1 with a 0 center: under the spec's integer
reading no ring sample is darker than `0 - 2`, so no run qualifies. -/
def c5img : GsImage := ⟨7, 7, true, fun i => if i = 3 * 7 + 3 then 0 else 1⟩

/-- C5 counterexample: with threshold 2 the center pixel `p = 0` makes
`p - threshold` wrap to `2^32 - 2`, every ring sample of value 1 counts as
"darker", and the code emits a keypoint with response 1 — although not one of
the 16 ring samples is brighter than `p + threshold` or darker than
`p - threshold` as integers, so under the claim's reading the pixel scores 0
and no keypoint exists. -/
theorem c5_counterexample :
    (gs_fast c5img (fun _ => 0) 20 2).1 = 1 ∧
    (gs_fast c5img (fun _ => 0) 20 2).2.2.map
      (fun k => (k.ptx, k.pty, k.response)) = [(3, 3, 1)] ∧
    (∀ j, j < 16 →
      ¬((c5img.data (3 * 7 + 3) : ℤ) + 2 < (fastSample c5img 3 3 j : ℤ)) ∧
      ¬((fastSample c5img 3 3 j : ℤ) < (c5img.data (3 * 7 + 3) : ℤ) - 2)) := by
  refine ⟨by decide, by decide, by decide⟩

/-- A 1×1 image whose pixel is exactly 128: its `> 128` foreground is empty,
yet the labeler (whose test is `>= 128`) labels the pixel. -/
def c4img : GsImage := ⟨1, 1, true, fun _ => 128⟩

/-- C4 (amended): all three capacities are non-fatal caps: `gs_blobs` returns
at most `nblobs` blobs, `gs_fast` at most `nkps` keypoints, `gs_match_orb` at
most `max_matches` matches (excess results are silently dropped, the returned
count is what was produced), and an image with no pixel of intensity 128 or
above (the code's foreground test, not the spec's `> 128`) yields blob count
0 rather than an error. -/
theorem c4_capacity (img : GsImage) (nblobs : ℕ) (kps1 kps2 : List GsKeypoint)
    (sm0 : ℕ → ℕ) (nkps threshold max_matches : ℕ) (maxd : ℚ)
    (hw0 : 0 < img.w) :
    (gs_blobs img nblobs).count ≤ nblobs ∧
    (gs_fast img sm0 nkps threshold).1 ≤ nkps ∧
    (gs_match_orb kps1 kps2 max_matches maxd).length ≤ max_matches ∧
    ((∀ i, i < img.w * img.h → img.data i < 128) →
      (gs_blobs img nblobs).count = 0) :=
  ⟨gs_blobs_count_le img nblobs hw0, gs_fast_count_le img sm0 nkps threshold,
   gs_match_orb_length_le kps1 kps2 max_matches maxd,
   fun hbg => gs_blobs_empty img nblobs hbg⟩

theorem c4_capacity_witness :
    0 < c4img.w ∧
    ((gs_blobs c4img 4).count ≤ 4 ∧
    (gs_fast c4img (fun _ => 0) 4 1).1 ≤ 4 ∧
    (gs_match_orb [] [] 4 10).length ≤ 4 ∧
    ((∀ i, i < c4img.w * c4img.h → c4img.data i < 128) →
      (gs_blobs c4img 4).count = 0)) :=
  ⟨by decide, c4_capacity c4img 4 [] [] (fun _ => 0) 4 1 4 10 (by decide)⟩

/-- C4 counterexample: the 1×1 image at intensity 128 has empty `> 128`
foreground, yet the returned blob count is 1, not 0 — "empty input yields 0
blobs" holds only for the code's `>= 128` notion of foreground. -/
theorem c4_counterexample :
    (gs_blobs c4img 4).count = 1 ∧ (∀ i, i < 1 → ¬ 128 < c4img.data i) := by
  refine ⟨by decide, by decide⟩


end Grayskull
